import Mathlib

/-!
# LumiSDK view tree (`liblumiapp/src/view.c`)

A shallow embedding of the retained view tree of `liblumiapp`.

* A `lumi_view_t *` is an address (`Ptr`, a natural number; `0` is `NULL`).
* The C heap is a map from addresses to `lumi_view` records (`Mem.heap`,
  `none` where no object lives); `free(view)` removes the record and is
  recorded in `Mem.freed`, so that every release of a node is observable.
* `calloc` is an input: every constructor takes the address `a` that
  `calloc` returned (`0` when the allocation failed).
* Callbacks are code outside the library; an invocation is recorded in
  `Mem.calls` and leaves the memory as it is.
* Dereferencing an address that holds no live record (a dangling or a
  never allocated pointer) is undefined behaviour in C; the embedding
  reports it as `Res.fault`.
* `lumi_view_destroy` is recursive on the heap graph, which may be cyclic;
  it is embedded with a fuel argument and reports `Res.timeout` when the
  fuel is used up.
* `char *` strings are `Option String` (`none` is `NULL`); `strdup` copies
  the contents.  `float` fields only ever store values in `view.c`; they are
  carried as rationals.
-/

set_option autoImplicit false

namespace LumiSDK

/-! ## Data model -/

/-- Addresses of `lumi_view_t` objects, of callbacks and of user data; `0` is `NULL`. -/
abbrev Ptr := Nat

/-- The constant `MAX_CHILDREN` of `view.c`. -/
def MAX_CHILDREN : Nat := 256

/-- The enumeration `lumi_view_type_t` of `lumiapp.h`, in declaration order. -/
inductive lumi_view_type_t
  | LUMI_VIEW_COLUMN
  | LUMI_VIEW_ROW
  | LUMI_VIEW_STACK
  | LUMI_VIEW_TEXT
  | LUMI_VIEW_BUTTON
  | LUMI_VIEW_IMAGE
  | LUMI_VIEW_TEXT_FIELD
  | LUMI_VIEW_SCROLL
  | LUMI_VIEW_LIST
  | LUMI_VIEW_SPACER
  | LUMI_VIEW_DIVIDER
  | LUMI_VIEW_CARD
  | LUMI_VIEW_CUSTOM
  deriving DecidableEq, Repr

open lumi_view_type_t

/-- The record `struct lumi_view` of `view.c`.  `children` is the array
`children[MAX_CHILDREN]` (indexed by position), `child_count` the number of
slots in use. -/
structure lumi_view where
  type : lumi_view_type_t
  id : Option String
  text : Option String
  visible : Bool
  width : Rat
  height : Rat
  pad_top : Rat
  pad_right : Rat
  pad_bottom : Rat
  pad_left : Rat
  mar_top : Rat
  mar_right : Rat
  mar_bottom : Rat
  mar_left : Rat
  background : Nat
  foreground : Nat
  font_size : Rat
  border_radius : Rat
  children : Nat → Ptr
  child_count : Nat
  parent : Ptr
  on_click_cb : Ptr
  on_click_data : Ptr
  on_long_click_cb : Ptr
  on_long_click_data : Ptr
  on_text_change_cb : Ptr
  on_text_change_data : Ptr

/-- A callback invocation performed by the library: the text-change handler
`cb(view, text, userdata)`. -/
inductive Event
  | text_change (cb : Ptr) (view : Ptr) (text : Option String) (userdata : Ptr)
  deriving DecidableEq, Repr

/-- The memory the view functions work on: the live `lumi_view` objects, the
log of `free(view)` calls (oldest first) and the log of callback
invocations (oldest first). -/
structure Mem where
  heap : Ptr → Option lumi_view
  freed : List Ptr
  calls : List Event

/-- Outcome of a call: a normal return, undefined behaviour (access to an
address without a live object), or fuel exhausted. -/
inductive Res (α : Type)
  | ok (a : α)
  | fault
  | timeout

/-- Memory without any object. -/
def Mem.empty : Mem :=
  { heap := fun _ => none, freed := [], calls := [] }

/-- Write the record `v` at address `p`. -/
def Mem.store (m : Mem) (p : Ptr) (v : lumi_view) : Mem :=
  { m with heap := fun q => if q = p then some v else m.heap q }

/-- The call `free(p)` on a view object: the object is gone and the call is logged. -/
def Mem.free (m : Mem) (p : Ptr) : Mem :=
  { m with heap := fun q => if q = p then none else m.heap q, freed := m.freed ++ [p] }

/-- The child sequence of a node: `children[0 .. child_count)`. -/
def child_seq (v : lumi_view) : List Ptr :=
  (List.range v.child_count).map v.children

/-- The child sequence of the object at `p` (empty when there is none). -/
def Mem.kids (m : Mem) (p : Ptr) : List Ptr :=
  match m.heap p with
  | some v => child_seq v
  | none => []

/-- There is a live object at `p`. -/
def Mem.live (m : Mem) (p : Ptr) : Prop := (m.heap p).isSome = true

instance (m : Mem) (p : Ptr) : Decidable (m.live p) := by
  unfold Mem.live
  infer_instance

/-- The field `child_count` of the object at `p` (`0` when there is none). -/
def Mem.count (m : Mem) (p : Ptr) : Nat :=
  match m.heap p with
  | some v => v.child_count
  | none => 0

/-- The field `parent` of the object at `p` (`NULL` when there is none). -/
def Mem.parent_of (m : Mem) (p : Ptr) : Ptr :=
  match m.heap p with
  | some v => v.parent
  | none => 0

/-- The value of a normal return, `d` otherwise. -/
def Res.value {α : Type} (d : α) : Res α → α
  | Res.ok a => a
  | Res.fault => d
  | Res.timeout => d

/-! ## Constructors -/

/-- The all-zero object returned by `calloc(1, sizeof(lumi_view_t))`. -/
def zeroed : lumi_view :=
  { type := LUMI_VIEW_COLUMN, id := none, text := none, visible := false,
    width := 0, height := 0,
    pad_top := 0, pad_right := 0, pad_bottom := 0, pad_left := 0,
    mar_top := 0, mar_right := 0, mar_bottom := 0, mar_left := 0,
    background := 0, foreground := 0, font_size := 0, border_radius := 0,
    children := fun _ => 0, child_count := 0, parent := 0,
    on_click_cb := 0, on_click_data := 0,
    on_long_click_cb := 0, on_long_click_data := 0,
    on_text_change_cb := 0, on_text_change_data := 0 }

/-- The function `strdup`: a copy with the same contents. -/
def strdup (s : String) : Option String := some s

/-- The function `view_alloc`.  `a` is the address returned by `calloc`
(`0` when the allocation failed). Returns the memory and the new handle. -/
def view_alloc (m : Mem) (a : Ptr) (type : lumi_view_type_t) : Mem × Ptr :=
  if a = 0 then (m, 0)
  else
    (m.store a { zeroed with
      type := type, visible := true, font_size := 14,
      foreground := 0x000000FF, background := 0x00000000 }, a)

/-- The body shared by `lumi_text`, `lumi_button`, `lumi_image` and
`lumi_text_field`: `v = view_alloc(type); if (v && s) v->text = strdup(s); return v;`. -/
def view_alloc_text (m : Mem) (a : Ptr) (type : lumi_view_type_t)
    (s : Option String) : Mem × Ptr :=
  let r := view_alloc m a type
  match s with
  | none => r
  | some str =>
    if r.2 = 0 then r
    else
      match r.1.heap r.2 with
      | some v => (r.1.store r.2 { v with text := strdup str }, r.2)
      | none => r

/-- The constructor `lumi_column`. -/
def lumi_column (m : Mem) (a : Ptr) : Mem × Ptr := view_alloc m a LUMI_VIEW_COLUMN

/-- The constructor `lumi_row`. -/
def lumi_row (m : Mem) (a : Ptr) : Mem × Ptr := view_alloc m a LUMI_VIEW_ROW

/-- The constructor `lumi_stack`. -/
def lumi_stack (m : Mem) (a : Ptr) : Mem × Ptr := view_alloc m a LUMI_VIEW_STACK

/-- The constructor `lumi_scroll`. -/
def lumi_scroll (m : Mem) (a : Ptr) : Mem × Ptr := view_alloc m a LUMI_VIEW_SCROLL

/-- The constructor `lumi_spacer`. -/
def lumi_spacer (m : Mem) (a : Ptr) : Mem × Ptr := view_alloc m a LUMI_VIEW_SPACER

/-- The constructor `lumi_divider`. -/
def lumi_divider (m : Mem) (a : Ptr) : Mem × Ptr := view_alloc m a LUMI_VIEW_DIVIDER

/-- The constructor `lumi_card`. -/
def lumi_card (m : Mem) (a : Ptr) : Mem × Ptr := view_alloc m a LUMI_VIEW_CARD

/-- The constructor `lumi_text`. -/
def lumi_text (m : Mem) (a : Ptr) (content : Option String) : Mem × Ptr :=
  view_alloc_text m a LUMI_VIEW_TEXT content

/-- The constructor `lumi_button`. -/
def lumi_button (m : Mem) (a : Ptr) (label : Option String) : Mem × Ptr :=
  view_alloc_text m a LUMI_VIEW_BUTTON label

/-- The constructor `lumi_image`. -/
def lumi_image (m : Mem) (a : Ptr) (source : Option String) : Mem × Ptr :=
  view_alloc_text m a LUMI_VIEW_IMAGE source

/-- The constructor `lumi_text_field`. -/
def lumi_text_field (m : Mem) (a : Ptr) (placeholder : Option String) : Mem × Ptr :=
  view_alloc_text m a LUMI_VIEW_TEXT_FIELD placeholder

/-! ## Tree manipulation -/

/-- The function `lumi_view_add_child`. -/
def lumi_view_add_child (m : Mem) (parent child : Ptr) : Res Mem :=
  if parent = 0 ∨ child = 0 then Res.ok m
  else
    match m.heap parent with
    | none => Res.fault
    | some pv =>
      if pv.child_count ≥ MAX_CHILDREN then Res.ok m
      else
        let m1 := m.store parent { pv with
          children := Function.update pv.children pv.child_count child,
          child_count := pv.child_count + 1 }
        match m1.heap child with
        | none => Res.fault
        | some cv => Res.ok (m1.store child { cv with parent := parent })

/-- The search loop of `lumi_view_remove_child`,
`for (i = ...; i < child_count; i++) if (children[i] == child) ...`, with `n`
iterations left from index `i`: the first index holding `child`. -/
def find_child (children : Nat → Ptr) (child : Ptr) : Nat → Nat → Option Nat
  | 0, _ => none
  | n + 1, i =>
    if children i = child then some i
    else find_child children child n (i + 1)

/-- The shifting loop of `lumi_view_remove_child`,
`for (j = ...; j < child_count - 1; j++) children[j] = children[j + 1];`, with
`n` iterations left from index `j`. -/
def shift_left (children : Nat → Ptr) : Nat → Nat → (Nat → Ptr)
  | 0, _ => children
  | n + 1, j => shift_left (Function.update children j (children (j + 1))) n (j + 1)

/-- The function `lumi_view_remove_child`. -/
def lumi_view_remove_child (m : Mem) (parent child : Ptr) : Res Mem :=
  if parent = 0 ∨ child = 0 then Res.ok m
  else
    match m.heap parent with
    | none => Res.fault
    | some pv =>
      match find_child pv.children child pv.child_count 0 with
      | none => Res.ok m
      | some i =>
        match m.heap child with
        | none => Res.fault
        | some cv =>
          let m1 := m.store child { cv with parent := 0 }
          match m1.heap parent with
          | none => Res.fault
          | some pv1 =>
            Res.ok (m1.store parent { pv1 with
              children := shift_left pv1.children (pv1.child_count - 1 - i) i,
              child_count := pv1.child_count - 1 })

/-- The loop of `lumi_view_destroy`,
`for (i = ...; i < view->child_count; i++) lumi_view_destroy(view->children[i]);`,
from index `i`; `view` is read from memory at every iteration, `destroy` is
the recursive call, and the first argument bounds the number of iterations. -/
def destroy_children (destroy : Mem → Ptr → Res Mem) : Nat → Mem → Ptr → Nat → Res Mem
  | 0, _, _, _ => Res.timeout
  | k + 1, m, view, i =>
    match m.heap view with
    | none => Res.fault
    | some v =>
      if i < v.child_count then
        match destroy m (v.children i) with
        | Res.ok m1 => destroy_children destroy k m1 view (i + 1)
        | Res.fault => Res.fault
        | Res.timeout => Res.timeout
      else Res.ok m

/-- The function `lumi_view_destroy`, with fuel for the recursion depth and
for the child loop. -/
def lumi_view_destroy : Nat → Mem → Ptr → Res Mem
  | 0, m, view => if view = 0 then Res.ok m else Res.timeout
  | fuel + 1, m, view =>
    if view = 0 then Res.ok m
    else
      match destroy_children (lumi_view_destroy fuel) fuel m view 0 with
      | Res.ok m1 =>
        match m1.heap view with
        | none => Res.fault
        | some _ => Res.ok (m1.free view)
      | Res.fault => Res.fault
      | Res.timeout => Res.timeout

/-! ## Content accessors -/

/-- The function `lumi_text_set_content`. -/
def lumi_text_set_content (m : Mem) (view : Ptr) (text : Option String) : Res Mem :=
  if view = 0 then Res.ok m
  else
    match m.heap view with
    | none => Res.fault
    | some v =>
      Res.ok (m.store view { v with
        text := match text with
          | some s => strdup s
          | none => none })

/-- The function `lumi_text_get_content`; the outer `Res` reports an invalid
access, the inner option is the returned `const char *`. -/
def lumi_text_get_content (m : Mem) (view : Ptr) : Res (Option String) :=
  if view = 0 then Res.ok none
  else
    match m.heap view with
    | none => Res.fault
    | some v => Res.ok v.text

/-- The function `lumi_text_field_get_value`. -/
def lumi_text_field_get_value (m : Mem) (view : Ptr) : Res (Option String) :=
  if view = 0 then Res.ok none
  else
    match m.heap view with
    | none => Res.fault
    | some v => Res.ok v.text

/-- The function `lumi_text_field_set_value`.  The handler is code outside
the library: its invocation is recorded in `Mem.calls`. -/
def lumi_text_field_set_value (m : Mem) (view : Ptr) (value : Option String) : Res Mem :=
  if view = 0 then Res.ok m
  else
    match m.heap view with
    | none => Res.fault
    | some v =>
      let v1 := { v with
        text := match value with
          | some s => strdup s
          | none => none }
      let m1 := m.store view v1
      if v1.on_text_change_cb ≠ 0 then
        Res.ok { m1 with
          calls := m1.calls ++ [Event.text_change v1.on_text_change_cb view v1.text
            v1.on_text_change_data] }
      else Res.ok m1

/-! ## Properties, styling and event handlers -/

/-- The setter pattern `if (!view) return; view->field = value;`: no effect
on a null handle, otherwise the object at `view` is replaced by `f` of it. -/
def with_view (m : Mem) (view : Ptr) (f : lumi_view → lumi_view) : Res Mem :=
  if view = 0 then Res.ok m
  else
    match m.heap view with
    | none => Res.fault
    | some v => Res.ok (m.store view (f v))

/-- The getter pattern `return view ? view->field : neutral;`. -/
def read_view {α : Type} (m : Mem) (view : Ptr) (neutral : α) (f : lumi_view → α) : Res α :=
  if view = 0 then Res.ok neutral
  else
    match m.heap view with
    | none => Res.fault
    | some v => Res.ok (f v)

/-- The function `lumi_view_set_id`. -/
def lumi_view_set_id (m : Mem) (view : Ptr) (id : Option String) : Res Mem :=
  with_view m view (fun v => { v with
    id := match id with
      | some s => strdup s
      | none => none })

/-- The function `lumi_view_get_id`. -/
def lumi_view_get_id (m : Mem) (view : Ptr) : Res (Option String) :=
  read_view m view none (fun v => v.id)

/-- The function `lumi_view_get_type`. -/
def lumi_view_get_type (m : Mem) (view : Ptr) : Res lumi_view_type_t :=
  read_view m view LUMI_VIEW_CUSTOM (fun v => v.type)

/-- The function `lumi_view_set_visible`. -/
def lumi_view_set_visible (m : Mem) (view : Ptr) (visible : Bool) : Res Mem :=
  with_view m view (fun v => { v with visible := visible })

/-- The function `lumi_view_get_visible`. -/
def lumi_view_get_visible (m : Mem) (view : Ptr) : Res Bool :=
  read_view m view false (fun v => v.visible)

/-- The function `lumi_view_set_width`. -/
def lumi_view_set_width (m : Mem) (view : Ptr) (w : Rat) : Res Mem :=
  with_view m view (fun v => { v with width := w })

/-- The function `lumi_view_set_height`. -/
def lumi_view_set_height (m : Mem) (view : Ptr) (h : Rat) : Res Mem :=
  with_view m view (fun v => { v with height := h })

/-- The function `lumi_view_set_padding`. -/
def lumi_view_set_padding (m : Mem) (view : Ptr) (top right bottom left : Rat) : Res Mem :=
  with_view m view (fun v => { v with
    pad_top := top, pad_right := right, pad_bottom := bottom, pad_left := left })

/-- The function `lumi_view_set_margin`. -/
def lumi_view_set_margin (m : Mem) (view : Ptr) (top right bottom left : Rat) : Res Mem :=
  with_view m view (fun v => { v with
    mar_top := top, mar_right := right, mar_bottom := bottom, mar_left := left })

/-- The function `lumi_view_set_background`; `rgba` is a `uint32_t` value. -/
def lumi_view_set_background (m : Mem) (view : Ptr) (rgba : Nat) : Res Mem :=
  with_view m view (fun v => { v with background := rgba })

/-- The function `lumi_view_set_foreground`; `rgba` is a `uint32_t` value. -/
def lumi_view_set_foreground (m : Mem) (view : Ptr) (rgba : Nat) : Res Mem :=
  with_view m view (fun v => { v with foreground := rgba })

/-- The function `lumi_view_set_font_size`. -/
def lumi_view_set_font_size (m : Mem) (view : Ptr) (size : Rat) : Res Mem :=
  with_view m view (fun v => { v with font_size := size })

/-- The function `lumi_view_set_border_radius`. -/
def lumi_view_set_border_radius (m : Mem) (view : Ptr) (r : Rat) : Res Mem :=
  with_view m view (fun v => { v with border_radius := r })

/-- The function `lumi_view_on_click`. -/
def lumi_view_on_click (m : Mem) (view : Ptr) (cb ud : Ptr) : Res Mem :=
  with_view m view (fun v => { v with on_click_cb := cb, on_click_data := ud })

/-- The function `lumi_view_on_long_click`. -/
def lumi_view_on_long_click (m : Mem) (view : Ptr) (cb ud : Ptr) : Res Mem :=
  with_view m view (fun v => { v with on_long_click_cb := cb, on_long_click_data := ud })

/-- The function `lumi_view_on_text_change`. -/
def lumi_view_on_text_change (m : Mem) (view : Ptr) (cb ud : Ptr) : Res Mem :=
  with_view m view (fun v => { v with on_text_change_cb := cb, on_text_change_data := ud })

/-- The registered text-change handler of the object at `p`: the fields
`on_text_change_cb` and `on_text_change_data` (`NULL`, `NULL` when there is
no object). -/
def Mem.text_handler (m : Mem) (p : Ptr) : Ptr × Ptr :=
  match m.heap p with
  | some v => (v.on_text_change_cb, v.on_text_change_data)
  | none => (0, 0)

/-! ## Explicit results of the tree operations -/

/-- The memory after a call of `lumi_view_add_child` that attaches. -/
def add_child_mem (m : Mem) (p c : Ptr) (pv cv : lumi_view) : Mem :=
  let pv1 : lumi_view := { pv with
    children := Function.update pv.children pv.child_count c,
    child_count := pv.child_count + 1 }
  (m.store p pv1).store c { (if c = p then pv1 else cv) with parent := p }

/-- The parent record after a call of `lumi_view_remove_child` that found the child at index `i`. -/
def remove_child_view (p c : Ptr) (pv cv : lumi_view) (i : Nat) : lumi_view :=
  let pv1 : lumi_view := if p = c then { cv with parent := 0 } else pv
  { pv1 with
    children := shift_left pv1.children (pv1.child_count - 1 - i) i,
    child_count := pv1.child_count - 1 }

/-- The memory after a call of `lumi_view_remove_child` that found the child at index `i`. -/
def remove_child_mem (m : Mem) (p c : Ptr) (pv cv : lumi_view) (i : Nat) : Mem :=
  (m.store c { cv with parent := 0 }).store p (remove_child_view p c pv cv i)

/-! ## Sequences of tree operations and their abstract replay -/

/-- A call of one of the two tree operations. -/
inductive TreeOp
  | add_child (parent child : Ptr)
  | remove_child (parent child : Ptr)
  deriving DecidableEq, Repr

/-- The handles a call mentions. -/
def TreeOp.ptrs : TreeOp → List Ptr
  | TreeOp.add_child p c => [p, c]
  | TreeOp.remove_child p c => [p, c]

/-- Perform one call on the memory. -/
def TreeOp.apply (m : Mem) : TreeOp → Res Mem
  | TreeOp.add_child p c => lumi_view_add_child m p c
  | TreeOp.remove_child p c => lumi_view_remove_child m p c

/-- Perform a sequence of calls, first call first. -/
def run_ops : Mem → List TreeOp → Res Mem
  | m, [] => Res.ok m
  | m, op :: ops =>
    match op.apply m with
    | Res.ok m1 => run_ops m1 ops
    | Res.fault => Res.fault
    | Res.timeout => Res.timeout

/-- One step of the abstract replay of the specification: every parent has
an abstract list; a successful `addChild` (both handles present, fewer than
`MAX_CHILDREN` entries) appends the child, a `removeChild` erases the first
occurrence of the child and keeps the order of the remainder. -/
def replay_step (a : Ptr → List Ptr) : TreeOp → (Ptr → List Ptr)
  | TreeOp.add_child p c =>
    if p = 0 ∨ c = 0 ∨ MAX_CHILDREN ≤ (a p).length then a
    else Function.update a p (a p ++ [c])
  | TreeOp.remove_child p c =>
    if p = 0 ∨ c = 0 then a
    else Function.update a p ((a p).erase c)

/-- The abstract replay of a sequence of calls, first call first. -/
def replay : (Ptr → List Ptr) → List TreeOp → (Ptr → List Ptr)
  | a, [] => a
  | a, op :: ops => replay (replay_step a op) ops

/-! ## Subtrees -/

/-- The object graph below `p` is a finite tree of live objects: `Subtree m p ns`
holds when `p` is a live node whose children are roots of such trees, and
`ns` lists the nodes of the tree children first (in index order), the node
itself last. The tree is free of sharing and of cycles when `ns` has no
duplicates. -/
inductive Subtree (m : Mem) : Ptr → List Ptr → Prop
  | node (p : Ptr) (v : lumi_view) (kids : List (List Ptr)) :
      p ≠ 0 → m.heap p = some v → kids.length = v.child_count →
      (∀ (i : Nat) (h : i < kids.length), Subtree m (v.children i) (kids.get ⟨i, h⟩)) →
      Subtree m p (kids.flatten ++ [p])

/-- The memory after `free` was called on each address of `ns`, in that order. -/
def Mem.free_all (m : Mem) (ns : List Ptr) : Mem :=
  { m with heap := fun q => if q ∈ ns then none else m.heap q, freed := m.freed ++ ns }

/-! ## Colours and constructor defaults -/

/-- Red channel of a packed 32-bit RGBA colour (most significant byte). -/
def rgba_red (c : Nat) : Nat := c / 2 ^ 24 % 256

/-- Green channel of a packed 32-bit RGBA colour. -/
def rgba_green (c : Nat) : Nat := c / 2 ^ 16 % 256

/-- Blue channel of a packed 32-bit RGBA colour. -/
def rgba_blue (c : Nat) : Nat := c / 2 ^ 8 % 256

/-- Alpha channel of a packed 32-bit RGBA colour (least significant byte). -/
def rgba_alpha (c : Nat) : Nat := c % 256

/-- The object `v` is a node of kind `ty` with the defaults of a new node:
visible, font size 14, foreground `0x000000FF` (black, alpha `0xFF`),
background `0x00000000` (alpha 0), border radius 0, no id, no children, no
parent and no callbacks. -/
def has_defaults (v : lumi_view) (ty : lumi_view_type_t) : Prop :=
  v.type = ty ∧ v.visible = true ∧ v.font_size = 14 ∧
  v.foreground = 0x000000FF ∧
  rgba_red v.foreground = 0 ∧ rgba_green v.foreground = 0 ∧
  rgba_blue v.foreground = 0 ∧ rgba_alpha v.foreground = 0xFF ∧
  v.background = 0x00000000 ∧ rgba_alpha v.background = 0 ∧
  v.border_radius = 0 ∧ v.id = none ∧
  v.child_count = 0 ∧ child_seq v = [] ∧ v.parent = 0 ∧
  v.on_click_cb = 0 ∧ v.on_long_click_cb = 0 ∧ v.on_text_change_cb = 0

/-- The constructor result `r` is the handle `a` of a live node of kind `ty`
with the default fields and the content `text`. -/
def creates (r : Mem × Ptr) (a : Ptr) (ty : lumi_view_type_t) (text : Option String) : Prop :=
  r.2 = a ∧ ∃ v, r.1.heap a = some v ∧ has_defaults v ty ∧ v.text = text

/-! ## Example scenes -/

/-- Three fresh nodes: a column at address 1, the texts "A" at 2 and "B" at 3. -/
def scene_fresh : Mem :=
  (lumi_text (lumi_text (lumi_column Mem.empty 1).1 2 (some "A")).1 3 (some "B")).1

/-- Four fresh nodes: columns at 1 and 2, the texts "A" at 3 and "B" at 4. -/
def scene_two_columns : Mem :=
  (lumi_text (lumi_text (lumi_column (lumi_column Mem.empty 1).1 2).1 3 (some "A")).1 4
    (some "B")).1

/-- The scene `scene_two_columns` after `lumi_view_add_child(1, 3)`. -/
def scene_attached : Mem :=
  Res.value Mem.empty (run_ops scene_two_columns [TreeOp.add_child 1 3])

/-- The scene of the test `test_view_tree` before the removal: the column 1
with the children "A" at 2 and "B" at 3. -/
def scene_tree : Mem :=
  Res.value Mem.empty (run_ops scene_fresh [TreeOp.add_child 1 2, TreeOp.add_child 1 3])

/-- A column at address 1 whose child array is full: the text at 2 was added
`MAX_CHILDREN` times. -/
def scene_full : Mem :=
  Res.value Mem.empty (run_ops scene_fresh (List.replicate 256 (TreeOp.add_child 1 2)))

/-- A text field at address 1 with the placeholder "hint" and the
text-change handler 100 registered with the context 200. -/
def scene_field : Mem :=
  Res.value Mem.empty
    (lumi_view_on_text_change (lumi_text_field Mem.empty 1 (some "hint")).1 1 100 200)

/-! ## Application lifecycle (`liblumiapp/src/app.c`)

An application object lives at an address like a view does. The lifecycle
hooks are functions of the embedder: the embedding takes their bodies as a
parameter (`HookEnv`), and every invocation is recorded, together with the
state the hook is entered in, in `World.hooks`. Output written by `lumi_log`
is not part of the state. -/

/-- The record `lumi_manifest_t` of `lumiapp.h`. -/
structure lumi_manifest_t where
  app_id : Option String
  name : Option String
  version : Option String
  icon : Option String
  deriving DecidableEq, Repr

/-- The record `lumi_lifecycle_t` of `lumiapp.h`: the addresses of the six
hook functions, `0` for a hook that is not bound. -/
structure lumi_lifecycle_t where
  on_create : Ptr
  on_start : Ptr
  on_resume : Ptr
  on_pause : Ptr
  on_stop : Ptr
  on_destroy : Ptr
  deriving DecidableEq, Repr

/-- The record `struct lumi_app` of `app.c`. -/
structure lumi_app where
  manifest : lumi_manifest_t
  lifecycle : lumi_lifecycle_t
  userdata : Ptr
  root_view : Ptr
  running : Bool
  paused : Bool
  deriving DecidableEq, Repr

/-- The six lifecycle phases. -/
inductive HookKind
  | create
  | start
  | resume
  | pause
  | stop
  | destroy
  deriving DecidableEq, Repr

/-- The field of `lumi_lifecycle_t` that belongs to a phase. -/
def HookKind.slot : HookKind → lumi_lifecycle_t → Ptr
  | HookKind.create, lc => lc.on_create
  | HookKind.start, lc => lc.on_start
  | HookKind.resume, lc => lc.on_resume
  | HookKind.pause, lc => lc.on_pause
  | HookKind.stop, lc => lc.on_stop
  | HookKind.destroy, lc => lc.on_destroy

/-- One invocation `fn(app, userdata)` of a lifecycle hook, with the
application object and the view memory as they are when the hook is entered. -/
structure HookCall where
  kind : HookKind
  fn : Ptr
  app : Ptr
  userdata : Ptr
  seen_app : lumi_app
  seen_mem : Mem

/-- What is passed in an invocation: phase, function, application, context. -/
def HookCall.sig (e : HookCall) : HookKind × Ptr × Ptr × Ptr :=
  (e.kind, e.fn, e.app, e.userdata)

/-- One release of an application by `lumi_app_destroy`: the `free` calls on
the four strings of the manifest copy and on the application object, with
the manifest that is released and the view memory as it is when these calls
are made. -/
structure ReleaseCall where
  app : Ptr
  manifest : lumi_manifest_t
  seen_mem : Mem

/-- The state of the process: the view memory, the live application
objects, the log of `free(app)` calls, the static `g_current_app`, whether
`sigint_handler` is installed for `SIGINT`, the log of hook invocations
(oldest first) and the log of the releases of manifest copies (oldest
first). -/
structure World where
  mem : Mem
  apps : Ptr → Option lumi_app
  apps_freed : List Ptr
  g_current_app : Ptr
  sigint_installed : Bool
  hooks : List HookCall
  released : List ReleaseCall

/-- The state of a process that has only the view memory `m`. -/
def World.of_mem (m : Mem) : World :=
  { mem := m, apps := fun _ => none, apps_freed := [], g_current_app := 0,
    sigint_installed := false, hooks := [], released := [] }

/-- Write the record `a` at the application address `app`. -/
def World.put (w : World) (app : Ptr) (a : lumi_app) : World :=
  { w with apps := fun q => if q = app then some a else w.apps q }

/-- There is a live application object at `app`. -/
def World.live_app (w : World) (app : Ptr) : Prop := (w.apps app).isSome = true

instance (w : World) (app : Ptr) : Decidable (w.live_app app) := by
  unfold World.live_app
  infer_instance

/-- The field `root_view` of the application at `app` (`NULL` when there is
no object). -/
def World.root_of (w : World) (app : Ptr) : Ptr :=
  match w.apps app with
  | some a => a.root_view
  | none => 0

/-- Sequencing of calls: continue after a normal return. -/
def Res.bind {α β : Type} (r : Res α) (f : α → Res β) : Res β :=
  match r with
  | Res.ok a => f a
  | Res.fault => Res.fault
  | Res.timeout => Res.timeout

/-- The bodies of the hook functions: `env fn app userdata` is what the call
`fn(app, userdata)` does to the state. -/
abbrev HookEnv := Ptr → Ptr → Ptr → World → Res World

/-- The function `lumi_app_create`. `a` is the address `calloc` returns when
it is called (`0` when the allocation fails); a null `manifest` or
`lifecycle` pointer is `none`. -/
def lumi_app_create (w : World) (a : Ptr) (manifest : Option lumi_manifest_t)
    (lifecycle : Option lumi_lifecycle_t) (userdata : Ptr) : World × Ptr :=
  match manifest, lifecycle with
  | some man, some lc =>
    if a = 0 then (w, 0)
    else
      (w.put a
        { manifest :=
            { app_id := match man.app_id with
                | some s => strdup s
                | none => none,
              name := match man.name with
                | some s => strdup s
                | none => none,
              version := match man.version with
                | some s => strdup s
                | none => none,
              icon := match man.icon with
                | some s => strdup s
                | none => none },
          lifecycle := lc,
          userdata := userdata,
          running := false,
          paused := false,
          root_view := 0 }, a)
  | _, _ => (w, 0)

/-- The statement `if (app->lifecycle.on_X) app->lifecycle.on_X(app, app->userdata);`
for the phase `kind`. -/
def call_hook (env : HookEnv) (kind : HookKind) (w : World) (app : Ptr) : Res World :=
  match w.apps app with
  | none => Res.fault
  | some a =>
    if kind.slot a.lifecycle = 0 then Res.ok w
    else
      env (kind.slot a.lifecycle) app a.userdata
        { w with hooks := w.hooks ++
            [{ kind := kind, fn := kind.slot a.lifecycle, app := app, userdata := a.userdata,
               seen_app := a, seen_mem := w.mem }] }

/-- The main loop of `lumi_app_run`, `while (app->running) { break; }`: the
flag is read once and the loop is left, through the `break` when the flag is
set and through the condition when it is not. -/
def main_loop (w : World) (app : Ptr) : Res World :=
  match w.apps app with
  | none => Res.fault
  | some a => if a.running then Res.ok w else Res.ok w

/-- The function `lumi_app_run`; the second component is the returned `int`. -/
def lumi_app_run (env : HookEnv) (w : World) (app : Ptr) : Res (World × Int) :=
  if app = 0 then Res.ok (w, -1)
  else
    let w1 := { w with g_current_app := app, sigint_installed := true }
    match w1.apps app with
    | none => Res.fault
    | some a =>
      (call_hook env HookKind.create (w1.put app { a with running := true }) app).bind fun w2 =>
      (call_hook env HookKind.start w2 app).bind fun w3 =>
      (call_hook env HookKind.resume w3 app).bind fun w4 =>
      (main_loop w4 app).bind fun w5 =>
      (call_hook env HookKind.pause w5 app).bind fun w6 =>
      (call_hook env HookKind.stop w6 app).bind fun w7 =>
      Res.ok (w7, 0)

/-- The part of `lumi_app_run` before the main loop: up to and including the
on-resume hook. -/
def run_until_loop (env : HookEnv) (w : World) (app : Ptr) : Res World :=
  let w1 := { w with g_current_app := app, sigint_installed := true }
  match w1.apps app with
  | none => Res.fault
  | some a =>
    (call_hook env HookKind.create (w1.put app { a with running := true }) app).bind fun w2 =>
    (call_hook env HookKind.start w2 app).bind fun w3 =>
    call_hook env HookKind.resume w3 app

/-- The function `lumi_app_quit`. -/
def lumi_app_quit (w : World) (app : Ptr) : Res World :=
  if app = 0 then Res.ok w
  else
    match w.apps app with
    | none => Res.fault
    | some a => Res.ok (w.put app { a with running := false })

/-- The function `sigint_handler`. -/
def sigint_handler (w : World) : Res World :=
  if w.g_current_app = 0 then Res.ok w
  else
    match w.apps w.g_current_app with
    | none => Res.fault
    | some a => Res.ok (w.put w.g_current_app { a with running := false })

/-- The function `lumi_app_get_userdata`. -/
def lumi_app_get_userdata (w : World) (app : Ptr) : Res Ptr :=
  if app = 0 then Res.ok 0
  else
    match w.apps app with
    | none => Res.fault
    | some a => Res.ok a.userdata

/-- The function `lumi_app_get_manifest`: the record the returned pointer
refers to, `none` for a null result. -/
def lumi_app_get_manifest (w : World) (app : Ptr) : Res (Option lumi_manifest_t) :=
  if app = 0 then Res.ok none
  else
    match w.apps app with
    | none => Res.fault
    | some a => Res.ok (some a.manifest)

/-- The statement `if (app->root_view) lumi_view_destroy(app->root_view);`
on the view memory. -/
def destroy_root (fuel : Nat) (m : Mem) (root_view : Ptr) : Res Mem :=
  if root_view = 0 then Res.ok m else lumi_view_destroy fuel m root_view

/-- The function `lumi_app_set_content`; `fuel` bounds the recursion of
`lumi_view_destroy`. -/
def lumi_app_set_content (fuel : Nat) (w : World) (app root : Ptr) : Res World :=
  if app = 0 then Res.ok w
  else
    match w.apps app with
    | none => Res.fault
    | some a =>
      (destroy_root fuel w.mem a.root_view).bind fun m1 =>
      Res.ok ({ w with mem := m1 }.put app { a with root_view := root })

/-- The function `lumi_app_destroy`; `fuel` bounds the recursion of
`lumi_view_destroy`. After the root has been destroyed, with the view memory
`m2`, the four strings of the manifest and the object are freed: the object
is gone and the release is logged with the view memory of that moment. -/
def lumi_app_destroy (env : HookEnv) (fuel : Nat) (w : World) (app : Ptr) : Res World :=
  if app = 0 then Res.ok w
  else
    (call_hook env HookKind.destroy w app).bind fun w1 =>
    match w1.apps app with
    | none => Res.fault
    | some a =>
      (destroy_root fuel w1.mem a.root_view).bind fun m2 =>
      let w2 : World := { w1 with
        mem := m2,
        apps := fun q => if q = app then none else w1.apps q,
        apps_freed := w1.apps_freed ++ [app],
        released := w1.released ++ [{ app := app, manifest := a.manifest, seen_mem := m2 }] }
      if w2.g_current_app = app then Res.ok { w2 with g_current_app := 0 }
      else Res.ok w2

/-! ## Well-behaved hooks -/

/-- Hooks that respect the application `app`: entered with `app` live and
with the view memory and root in the condition `I`, every hook returns,
leaves `app` live with its manifest, hook set and context, invokes no
lifecycle hook itself and re-establishes `I`. The hook may change the
running flag, the root and the view memory. -/
def tame (env : HookEnv) (app : Ptr) (I : Mem → Ptr → Prop) : Prop :=
  ∀ (f u : Ptr) (w : World) (a : lumi_app), w.apps app = some a → I w.mem a.root_view →
    ∃ w' a', env f app u w = Res.ok w' ∧ w'.apps app = some a' ∧
      a'.lifecycle = a.lifecycle ∧ a'.userdata = a.userdata ∧ a'.manifest = a.manifest ∧
      w'.hooks = w.hooks ∧ I w'.mem a'.root_view

/-- Hooks that leave the running flag of `app` as it is: none of them calls
`lumi_app_quit` and no interrupt arrives while they run. -/
def keeps_running (env : HookEnv) (app : Ptr) : Prop :=
  ∀ (f u : Ptr) (w w' : World) (a a' : lumi_app), w.apps app = some a →
    env f app u w = Res.ok w' → w'.apps app = some a' → a'.running = a.running

/-- The invocations expected for the phases `kinds`, in that order: one for
each phase whose hook is bound in `lc`, with the application and the context. -/
def bound_hooks (lc : lumi_lifecycle_t) (app u : Ptr) (kinds : List HookKind) :
    List (HookKind × Ptr × Ptr × Ptr) :=
  (kinds.filter (fun k => k.slot lc ≠ 0)).map (fun k => (k, k.slot lc, app, u))

/-- Hooks that do nothing. -/
def env_idle : HookEnv := fun _ _ _ w => Res.ok w

/-- Hooks of which the function at address `f0` calls `lumi_app_quit(app)`
and the others do nothing. -/
def env_quit_in (f0 : Ptr) : HookEnv :=
  fun f app _ w => if f = f0 then lumi_app_quit w app else Res.ok w

/-! ## Example applications -/

/-- The manifest of the test `test_app_lifecycle`. -/
def test_manifest : lumi_manifest_t :=
  { app_id := some "com.test.app", name := some "TestApp", version := some "1.0.0",
    icon := none }

/-- The application of the test `test_app_lifecycle`, at address 1: only
on-create (function 11) and on-destroy (function 16) are bound; the context
is 42. -/
def world_test : World :=
  (lumi_app_create (World.of_mem Mem.empty) 1 (some test_manifest)
    (some { on_create := 11, on_start := 0, on_resume := 0, on_pause := 0, on_stop := 0,
            on_destroy := 16 }) 42).1

/-- An application at address 1 with all six hooks bound (functions 11 to
16) and the context 42. -/
def world_all_hooks : World :=
  (lumi_app_create (World.of_mem Mem.empty) 1 (some test_manifest)
    (some { on_create := 11, on_start := 12, on_resume := 13, on_pause := 14, on_stop := 15,
            on_destroy := 16 }) 42).1

/-- The application `world_all_hooks` after a run with hooks that do nothing. -/
def world_ran : World :=
  (Res.value (world_all_hooks, 0) (lumi_app_run env_idle world_all_hooks 1)).1

/-- Two columns at 1 and 2, the column 1 being a child of the column 2, and
an application at address 9 without hooks whose root is the column 1:
the calls `lumi_view_add_child(2, 1)`, `lumi_app_create`,
`lumi_app_set_content(app, 1)`. -/
def world_nested : World :=
  Res.value (World.of_mem Mem.empty)
    (lumi_app_set_content 1
      (lumi_app_create
        (World.of_mem (Res.value Mem.empty
          (run_ops (lumi_column (lumi_column Mem.empty 1).1 2).1 [TreeOp.add_child 2 1])))
        9 (some test_manifest)
        (some { on_create := 0, on_start := 0, on_resume := 0, on_pause := 0, on_stop := 0,
                on_destroy := 0 }) 0).1
      9 1)

/-- The scene `scene_tree` (the column 1 with the texts 2 and 3) and a
further text at 4, with an application at address 9 without hooks whose root
is the column 1. -/
def world_rooted : World :=
  Res.value (World.of_mem Mem.empty)
    (lumi_app_set_content 1
      (lumi_app_create (World.of_mem (lumi_text scene_tree 4 (some "C")).1) 9
        (some test_manifest)
        (some { on_create := 0, on_start := 0, on_resume := 0, on_pause := 0, on_stop := 0,
                on_destroy := 0 }) 0).1
      9 1)

/-! ## Sequences of application calls -/

/-- A call of `lumi_app_run`, `lumi_app_quit` or `lumi_app_set_content` on
an application. -/
inductive AppOp
  | run
  | quit
  | set_content (root : Ptr)
  deriving DecidableEq, Repr

/-- Perform one call on the application `app`; the value returned by
`lumi_app_run` is dropped. -/
def AppOp.apply (env : HookEnv) (fuel : Nat) (w : World) (app : Ptr) : AppOp → Res World
  | AppOp.run => (lumi_app_run env w app).bind fun r => Res.ok r.1
  | AppOp.quit => lumi_app_quit w app
  | AppOp.set_content root => lumi_app_set_content fuel w app root

/-- Perform a sequence of calls on the application `app`, first call first. -/
def run_app_ops (env : HookEnv) (fuel : Nat) (app : Ptr) : World → List AppOp → Res World
  | w, [] => Res.ok w
  | w, op :: ops => (op.apply env fuel w app).bind fun w1 => run_app_ops env fuel app w1 ops

/-- Hooks that, whenever they return, leave the application `app` live with
its manifest and its context. -/
def keeps_identity (env : HookEnv) (app : Ptr) : Prop :=
  ∀ (f u : Ptr) (w w' : World) (a : lumi_app), w.apps app = some a →
    env f app u w = Res.ok w' →
    ∃ a', w'.apps app = some a' ∧ a'.manifest = a.manifest ∧ a'.userdata = a.userdata

/-- A step of the life of a process: a call of `lumi_app_create` (with the
address `calloc` returns), `lumi_app_run`, `lumi_app_quit` or
`lumi_app_destroy`, or the delivery of `SIGINT` to `sigint_handler`. -/
inductive LifeStep
  | create (a : Ptr) (manifest : Option lumi_manifest_t) (lifecycle : Option lumi_lifecycle_t)
      (userdata : Ptr)
  | run (app : Ptr)
  | quit (app : Ptr)
  | destroy (app : Ptr)
  | interrupt

/-- Perform one step. -/
def LifeStep.apply (env : HookEnv) (fuel : Nat) (w : World) : LifeStep → Res World
  | LifeStep.create a man lc u => Res.ok (lumi_app_create w a man lc u).1
  | LifeStep.run app => (lumi_app_run env w app).bind fun r => Res.ok r.1
  | LifeStep.quit app => lumi_app_quit w app
  | LifeStep.destroy app => lumi_app_destroy env fuel w app
  | LifeStep.interrupt => sigint_handler w

/-- Perform a sequence of steps, first step first. -/
def run_steps (env : HookEnv) (fuel : Nat) : World → List LifeStep → Res World
  | w, [] => Res.ok w
  | w, st :: sts => (st.apply env fuel w).bind fun w1 => run_steps env fuel w1 sts

/-- The current instance as the specification describes it: the app most
recently passed to `lumi_app_run`, unless it has been destroyed since
(`NULL` when there is none). `cur` is the current instance before the step. -/
def track_step (cur : Ptr) : LifeStep → Ptr
  | LifeStep.run app => if app = 0 then cur else app
  | LifeStep.destroy app => if cur = app then 0 else cur
  | _ => cur

/-- The current instance after a sequence of steps. -/
def track : Ptr → List LifeStep → Ptr
  | cur, [] => cur
  | cur, st :: sts => track (track_step cur st) sts

/-- Hooks that, whenever they return, have not changed which applications
are live nor the static `g_current_app`: they call neither `lumi_app_run`
nor `lumi_app_destroy` nor `lumi_app_create`. -/
def quiet (env : HookEnv) : Prop :=
  ∀ (f app u : Ptr) (w w' : World), env f app u w = Res.ok w' →
    w'.g_current_app = w.g_current_app ∧ ∀ q, w'.live_app q ↔ w.live_app q

/-- A hook set with no hook bound. -/
def hooks_none : lumi_lifecycle_t :=
  { on_create := 0, on_start := 0, on_resume := 0, on_pause := 0, on_stop := 0,
    on_destroy := 0 }

/-- A hook set with all six hooks bound, to the functions 11 to 16. -/
def hooks_all : lumi_lifecycle_t :=
  { on_create := 11, on_start := 12, on_resume := 13, on_pause := 14, on_stop := 15,
    on_destroy := 16 }

/-- A process in which two apps are created at 1 and 2, both run, and the
app 2 is destroyed, with an interrupt and a quit in between. -/
def steps_example : List LifeStep :=
  [LifeStep.create 1 (some test_manifest) (some hooks_all) 42, LifeStep.run 1,
   LifeStep.interrupt,
   LifeStep.create 2 (some test_manifest) (some hooks_none) 0, LifeStep.run 2,
   LifeStep.quit 1, LifeStep.destroy 2]

/-! ## Result codes (`lumiapp.h`) -/

/-- The enumeration `lumi_result_t`. -/
inductive lumi_result_t
  | LUMI_OK
  | LUMI_ERR_NOMEM
  | LUMI_ERR_INVALID
  | LUMI_ERR_NOT_FOUND
  | LUMI_ERR_IO
  | LUMI_ERR_PERMISSION
  | LUMI_ERR_TIMEOUT
  | LUMI_ERR_UNKNOWN
  deriving DecidableEq, Repr

open lumi_result_t

/-- The integer value of a result code. -/
def lumi_result_t.code : lumi_result_t → Int
  | LUMI_OK => 0
  | LUMI_ERR_NOMEM => -1
  | LUMI_ERR_INVALID => -2
  | LUMI_ERR_NOT_FOUND => -3
  | LUMI_ERR_IO => -4
  | LUMI_ERR_PERMISSION => -5
  | LUMI_ERR_TIMEOUT => -6
  | LUMI_ERR_UNKNOWN => -99

/-- A call of `strdup` whose allocation succeeds (`ok`) or fails, giving `NULL`. -/
def strdup_may (ok : Bool) (s : String) : Option String :=
  if ok then strdup s else none

/-- The loop `for (j = ...; j < count - 1; j++) a[j] = a[j + 1];` on an array
of any element type, with `n` iterations left from index `j`. -/
def shift_down {α : Type} (a : Nat → α) : Nat → Nat → (Nat → α)
  | 0, _ => a
  | n + 1, j => shift_down (Function.update a j (a (j + 1))) n (j + 1)

/-! ## Key-value storage (`liblumiapp/src/storage.c`) -/

/-- The constant `MAX_ENTRIES` of `storage.c`. -/
def MAX_ENTRIES : Nat := 1024

/-- The record `kv_entry_t`. -/
structure kv_entry_t where
  key : Option String
  value : Option String
  deriving DecidableEq, Repr

/-- The statics `g_store` and `g_store_count` of `storage.c`. -/
structure Store where
  g_store : Nat → kv_entry_t
  g_store_count : Nat

/-- The store at program start: zero-initialised statics. -/
def Store.init : Store :=
  { g_store := fun _ => { key := none, value := none }, g_store_count := 0 }

/-- The loop of `find_key`, with `n` iterations left from index `i`: the
first index whose key is non-null and equal to `key`. -/
def find_key_from (g : Nat → kv_entry_t) (key : String) : Nat → Nat → Option Nat
  | 0, _ => none
  | n + 1, i =>
    if (g i).key = some key then some i
    else find_key_from g key n (i + 1)

/-- The function `find_key`; `none` is the result `-1`. -/
def find_key (st : Store) (key : String) : Option Nat :=
  find_key_from st.g_store key st.g_store_count 0

/-- The function `lumi_storage_set`. `okk` and `okv` tell whether the
`strdup` of the key and of the value succeed. When a `strdup` for a new entry
fails, the slot `g_store[g_store_count]`, beyond the entries in use, has been
written and its strings released. -/
def lumi_storage_set (st : Store) (key value : Option String) (okk okv : Bool) :
    Store × lumi_result_t :=
  match key, value with
  | some k, some v =>
    match find_key st k with
    | some idx =>
      let nv := strdup_may okv v
      ({ st with g_store := Function.update st.g_store idx { (st.g_store idx) with value := nv } },
        if nv.isSome then LUMI_OK else LUMI_ERR_NOMEM)
    | none =>
      if st.g_store_count ≥ MAX_ENTRIES then (st, LUMI_ERR_NOMEM)
      else
        let e : kv_entry_t := { key := strdup_may okk k, value := strdup_may okv v }
        let st1 : Store := { st with g_store := Function.update st.g_store st.g_store_count e }
        if e.key.isNone ∨ e.value.isNone then (st1, LUMI_ERR_NOMEM)
        else ({ st1 with g_store_count := st1.g_store_count + 1 }, LUMI_OK)
  | _, _ => (st, LUMI_ERR_INVALID)

/-- The function `lumi_storage_get`. -/
def lumi_storage_get (st : Store) (key : Option String) : Option String :=
  match key with
  | none => none
  | some k =>
    match find_key st k with
    | some idx => (st.g_store idx).value
    | none => none

/-- The function `lumi_storage_remove`. -/
def lumi_storage_remove (st : Store) (key : Option String) : Store × lumi_result_t :=
  match key with
  | none => (st, LUMI_ERR_INVALID)
  | some k =>
    match find_key st k with
    | none => (st, LUMI_ERR_NOT_FOUND)
    | some idx =>
      ({ g_store := shift_down st.g_store (st.g_store_count - 1 - idx) idx,
         g_store_count := st.g_store_count - 1 }, LUMI_OK)

/-- The function `lumi_storage_clear`. -/
def lumi_storage_clear (st : Store) : Store × lumi_result_t :=
  ({ st with g_store_count := 0 }, LUMI_OK)

/-- A call of one of the storage functions that change the store. -/
inductive StoreOp
  | set (key value : Option String) (okk okv : Bool)
  | remove (key : Option String)
  | clear
  deriving DecidableEq, Repr

/-- Perform one call on the store. -/
def StoreOp.apply (st : Store) : StoreOp → Store
  | StoreOp.set k v okk okv => (lumi_storage_set st k v okk okv).1
  | StoreOp.remove k => (lumi_storage_remove st k).1
  | StoreOp.clear => (lumi_storage_clear st).1

/-- Perform a sequence of calls, first call first. -/
def store_run : Store → List StoreOp → Store
  | st, [] => st
  | st, op :: ops => store_run (op.apply st) ops

/-- The key `k` is present: some entry in use has it. -/
def Store.has_key (st : Store) (k : String) : Prop :=
  ∃ i, i < st.g_store_count ∧ (st.g_store i).key = some k

/-- The entries in use are at most `MAX_ENTRIES`, have non-null keys, and no
two of them have the same key. -/
def Store.wf (st : Store) : Prop :=
  st.g_store_count ≤ MAX_ENTRIES ∧
  (∀ i, i < st.g_store_count → (st.g_store i).key ≠ none) ∧
  ∀ i j, i < st.g_store_count → j < st.g_store_count →
    (st.g_store i).key = (st.g_store j).key → i = j

/-- The call is a `lumi_storage_set` with the key `k` and a non-null value. -/
def StoreOp.sets_key (k : String) : StoreOp → Bool
  | StoreOp.set (some k') (some _) _ _ => decide (k' = k)
  | _ => false

/-- The store of the test `test_storage` after its two first calls. -/
def store_test : Store :=
  store_run Store.init
    [StoreOp.clear, StoreOp.set (some "key1") (some "value1") true true,
     StoreOp.set (some "key2") (some "value2") true true]

/-! ## Timers (`liblumiapp/src/timer.c`)

The calls of `lumi_log` write a line to a stream and touch no timer; they are
left out. -/

/-- The constant `MAX_TIMERS` of `timer.c`. -/
def MAX_TIMERS : Nat := 256

/-- The largest value of the type `int`. -/
def INT_MAX : Int := 2147483647

/-- The record `timer_entry_t`; the field `repeat` is `repeat_` here. -/
structure timer_entry_t where
  id : Int
  delay_ms : Nat
  repeat_ : Bool
  active : Bool
  callback : Ptr
  userdata : Ptr
  deriving DecidableEq, Repr

/-- The statics `g_timers` and `g_next_timer_id` of `timer.c`. -/
structure Timers where
  g_timers : Nat → timer_entry_t
  g_next_timer_id : Int

/-- The timers at program start: a zero-initialised array, next id 1. -/
def Timers.init : Timers :=
  { g_timers := fun _ =>
      { id := 0, delay_ms := 0, repeat_ := false, active := false, callback := 0,
        userdata := 0 },
    g_next_timer_id := 1 }

/-- The search of `lumi_timer_set`, with `n` iterations left from index `i`:
the first slot that is not active. -/
def free_slot (g : Nat → timer_entry_t) : Nat → Nat → Option Nat
  | 0, _ => none
  | n + 1, i => if (g i).active then free_slot g n (i + 1) else some i

/-- The function `lumi_timer_set`. The increment `g_next_timer_id++` of a
counter equal to `INT_MAX` overflows the type `int`: a fault. -/
def lumi_timer_set (st : Timers) (delay_ms : Nat) ( repeat_ : Bool) (cb userdata : Ptr) :
    Res (Timers × Int) :=
  if cb = 0 then Res.ok (st, -1)
  else
    match free_slot st.g_timers MAX_TIMERS 0 with
    | some i =>
      if st.g_next_timer_id ≥ INT_MAX then Res.fault
      else
        Res.ok
          ({ g_timers := Function.update st.g_timers i
              { id := st.g_next_timer_id, delay_ms := delay_ms, repeat_ := repeat_,
                active := true, callback := cb, userdata := userdata },
             g_next_timer_id := st.g_next_timer_id + 1 },
            st.g_next_timer_id)
    | none => Res.ok (st, -1)

/-- The search of `lumi_timer_cancel`, with `n` iterations left from index
`i`: the first active slot whose id is `timer_id`. -/
def active_slot (g : Nat → timer_entry_t) (timer_id : Int) : Nat → Nat → Option Nat
  | 0, _ => none
  | n + 1, i =>
    if (g i).active = true ∧ (g i).id = timer_id then some i
    else active_slot g timer_id n (i + 1)

/-- The function `lumi_timer_cancel`. -/
def lumi_timer_cancel (st : Timers) (timer_id : Int) : Timers :=
  match active_slot st.g_timers timer_id MAX_TIMERS 0 with
  | some i =>
    { g_timers := Function.update st.g_timers i { (st.g_timers i) with active := false },
      g_next_timer_id := st.g_next_timer_id }
  | none => st

/-- A call of `lumi_timer_set` or of `lumi_timer_cancel`. -/
inductive TimerOp
  | set (delay_ms : Nat) ( repeat_ : Bool) (cb userdata : Ptr)
  | cancel (timer_id : Int)
  deriving DecidableEq, Repr

/-- Perform a sequence of timer calls, first call first; the result lists what
the calls of `lumi_timer_set` returned, in call order. -/
def timer_run : Timers → List TimerOp → Res (Timers × List Int)
  | st, [] => Res.ok (st, [])
  | st, TimerOp.set d r cb ud :: ops =>
    (lumi_timer_set st d r cb ud).bind (fun p =>
      (timer_run p.1 ops).bind (fun q => Res.ok (q.1, p.2 :: q.2)))
  | st, TimerOp.cancel timer_id :: ops => timer_run (lumi_timer_cancel st timer_id) ops

/-- The calls of the test `test_timer`, with `7` for the callback. -/
def timer_test : List TimerOp :=
  [TimerOp.set 1000 false 7 0, TimerOp.set 500 true 7 0, TimerOp.cancel 1,
   TimerOp.cancel 2, TimerOp.cancel 9999, TimerOp.set 0 false 0 0]

/-! ## Intents (`liblumiapp/src/intent.c`)

The call of `lumi_log` in `lumi_intent_send` writes a line to a stream and
touches no handler; it is left out. -/

/-- The record `lumi_intent_t`. -/
structure lumi_intent_t where
  action : Option String
  data : Option String
  mime_type : Option String
  target_app : Option String
  deriving DecidableEq, Repr

/-- The constant `MAX_HANDLERS` of `intent.c`. -/
def MAX_HANDLERS : Nat := 128

/-- The record `intent_handler_t`. -/
structure intent_handler_t where
  action : Option String
  callback : Ptr
  userdata : Ptr
  deriving DecidableEq, Repr

/-- One invocation `callback(intent, userdata)` of an intent callback. -/
structure IntentCall where
  callback : Ptr
  intent : lumi_intent_t
  userdata : Ptr
  deriving DecidableEq, Repr

/-- The statics `g_handlers` and `g_handler_count` of `intent.c`, and the log
of the callback invocations made so far. -/
structure Intents where
  g_handlers : Nat → intent_handler_t
  g_handler_count : Nat
  calls : List IntentCall

/-- The handler table at program start: zero-initialised statics. -/
def Intents.init : Intents :=
  { g_handlers := fun _ => { action := none, callback := 0, userdata := 0 },
    g_handler_count := 0, calls := [] }

/-- The bodies of the intent callbacks: `env cb intent userdata` is what the
call `cb(intent, userdata)` does to the state. -/
abbrev IntentEnv := Ptr → lumi_intent_t → Ptr → Intents → Res Intents

/-- The dispatch loop of `lumi_intent_send` from index `i`. The bound
`g_handler_count` is read again at every iteration, in the state the callbacks
left; `fuel` bounds the number of iterations. Comparing a null action with
`strcmp` and calling a null callback are faults. -/
def dispatch (env : IntentEnv) (intent : lumi_intent_t) (act : String) :
    Nat → Nat → Intents → Res Intents
  | 0, i, st => if i < st.g_handler_count then Res.timeout else Res.ok st
  | fuel + 1, i, st =>
    if i < st.g_handler_count then
      match (st.g_handlers i).action with
      | none => Res.fault
      | some a =>
        if a = act then
          if (st.g_handlers i).callback = 0 then Res.fault
          else
            (env (st.g_handlers i).callback intent (st.g_handlers i).userdata
              { st with calls := st.calls ++
                  [{ callback := (st.g_handlers i).callback, intent := intent,
                     userdata := (st.g_handlers i).userdata }] }).bind
              (fun st1 => dispatch env intent act fuel (i + 1) st1)
        else dispatch env intent act fuel (i + 1) st
    else Res.ok st

/-- The function `lumi_intent_send`; `none` is the null intent. -/
def lumi_intent_send (env : IntentEnv) (fuel : Nat) (st : Intents)
    (intent : Option lumi_intent_t) : Res (Intents × lumi_result_t) :=
  match intent with
  | none => Res.ok (st, LUMI_ERR_INVALID)
  | some it =>
    match it.action with
    | none => Res.ok (st, LUMI_ERR_INVALID)
    | some act => (dispatch env it act fuel 0 st).bind (fun st1 => Res.ok (st1, LUMI_OK))

/-- The function `lumi_intent_register`; `oka` tells whether the `strdup` of
the action succeeds. When it fails, the slot `g_handlers[g_handler_count]`,
beyond the handlers in use, has been written. -/
def lumi_intent_register (st : Intents) (action : Option String) (cb userdata : Ptr)
    (oka : Bool) : Intents × lumi_result_t :=
  match action with
  | none => (st, LUMI_ERR_INVALID)
  | some a =>
    if cb = 0 then (st, LUMI_ERR_INVALID)
    else if st.g_handler_count ≥ MAX_HANDLERS then (st, LUMI_ERR_NOMEM)
    else
      let h : intent_handler_t :=
        { action := strdup_may oka a, callback := cb, userdata := userdata }
      let st1 : Intents :=
        { st with g_handlers := Function.update st.g_handlers st.g_handler_count h }
      if h.action.isNone then (st1, LUMI_ERR_NOMEM)
      else ({ st1 with g_handler_count := st1.g_handler_count + 1 }, LUMI_OK)

/-- The arguments of one call of `lumi_intent_register`. -/
structure Registration where
  action : Option String
  cb : Ptr
  userdata : Ptr
  oka : Bool
  deriving DecidableEq, Repr

/-- Perform a sequence of registrations, first call first. -/
def register_all : Intents → List Registration → Intents
  | st, [] => st
  | st, r :: rs => register_all (lumi_intent_register st r.action r.cb r.userdata r.oka).1 rs

/-- The registration has a non-null action and callback and its `strdup`
succeeds. -/
def Registration.valid (r : Registration) : Bool :=
  r.action.isSome && decide (r.cb ≠ 0) && r.oka

/-- The table entry that a valid registration writes. -/
def Registration.handler (r : Registration) : intent_handler_t :=
  { action := r.action, callback := r.cb, userdata := r.userdata }

/-- The handlers in use, in table order. -/
def Intents.handlers (st : Intents) : List intent_handler_t :=
  (List.range st.g_handler_count).map st.g_handlers

/-- The invocations owed to an intent with action `act`, one for each
registration for `act` among the first `MAX_HANDLERS` valid ones, in the order
of the registrations. -/
def owed_calls (it : lumi_intent_t) (act : String) (regs : List Registration) :
    List IntentCall :=
  ((((regs.filter Registration.valid).take MAX_HANDLERS).filter
      (fun r => decide (r.action = some act))).map
    (fun r => { callback := r.cb, intent := it, userdata := r.userdata }))

/-- The callbacks return and leave the handler table and the log as they
found them: they neither register handlers nor send intents. -/
def steady (env : IntentEnv) : Prop :=
  ∀ cb it ud st, ∃ st', env cb it ud st = Res.ok st' ∧
    st'.g_handlers = st.g_handlers ∧ st'.g_handler_count = st.g_handler_count ∧
    st'.calls = st.calls

/-- Callbacks that do nothing. -/
def intent_env_idle : IntentEnv := fun _ _ _ st => Res.ok st

/-- The intent of the test `test_intent`. -/
def intent_test : lumi_intent_t :=
  { action := some "com.test.ACTION", data := some "hello", mime_type := none,
    target_app := none }

/-- Three registrations, the first and the last for the action of
`intent_test`. -/
def regs_test : List Registration :=
  [{ action := some "com.test.ACTION", cb := 7, userdata := 0, oka := true },
   { action := some "com.test.OTHER", cb := 8, userdata := 1, oka := true },
   { action := some "com.test.ACTION", cb := 9, userdata := 2, oka := true }]

/-! ## Single parent -/

/-- The property of the specification: each node occurs at most once in total
across the child lists of all nodes, so never twice in one list and never in
the lists of two different parents. -/
def single_parent (m : Mem) : Prop :=
  (∀ p, (m.kids p).Nodup) ∧ ∀ c p1 p2, c ∈ m.kids p1 → c ∈ m.kids p2 → p1 = p2

/-- Every `lumi_view_add_child` of the sequence is given a child that, at the
moment of the call, is in no child list. -/
def detached_adds : Mem → List TreeOp → Prop
  | _, [] => True
  | m, op :: ops =>
    (∀ p c, op = TreeOp.add_child p c → ∀ q, c ∉ m.kids q) ∧
    ∀ m1, op.apply m = Res.ok m1 → detached_adds m1 ops

/-- The condition `detached_adds` on the abstract replay. -/
def detached_replay : (Ptr → List Ptr) → List TreeOp → Prop
  | _, [] => True
  | a, op :: ops =>
    (∀ p c, op = TreeOp.add_child p c → ∀ q, c ∉ a q) ∧
    detached_replay (replay_step a op) ops

/-- An explicit re-parenting on `scene_two_columns`: the text 3 goes under the
column 1, the text 4 under the column 2, then 3 is removed from 1 and added
to 2. -/
def ops_reparent : List TreeOp :=
  [TreeOp.add_child 1 3, TreeOp.add_child 2 4, TreeOp.remove_child 1 3, TreeOp.add_child 2 3]

/-! ## Post-order traversal and the public view operations -/

/-- The post-order traversal of the specification: for each node, the
traversals of its children in child-index order first, then the node itself.
The first argument bounds the depth. -/
def post_order : Nat → Mem → Ptr → List Ptr
  | 0, _, _ => []
  | fuel + 1, m, p => ((m.kids p).map (post_order fuel m)).flatten ++ [p]

/-- A call of one of the public view operations other than
`lumi_view_destroy` and the getters. -/
inductive ViewOp
  | set_id (view : Ptr) (id : Option String)
  | set_visible (view : Ptr) (visible : Bool)
  | set_width (view : Ptr) (w : Rat)
  | set_height (view : Ptr) (h : Rat)
  | set_padding (view : Ptr) (top right bottom left : Rat)
  | set_margin (view : Ptr) (top right bottom left : Rat)
  | set_background (view : Ptr) (rgba : Nat)
  | set_foreground (view : Ptr) (rgba : Nat)
  | set_font_size (view : Ptr) (size : Rat)
  | set_border_radius (view : Ptr) (r : Rat)
  | add_child (parent child : Ptr)
  | remove_child (parent child : Ptr)
  | on_click (view cb ud : Ptr)
  | on_long_click (view cb ud : Ptr)
  | on_text_change (view cb ud : Ptr)
  | text_set_content (view : Ptr) (text : Option String)
  | text_field_set_value (view : Ptr) (value : Option String)

/-- The view handles a call is given. -/
def ViewOp.ptrs : ViewOp → List Ptr
  | ViewOp.set_id view _ => [view]
  | ViewOp.set_visible view _ => [view]
  | ViewOp.set_width view _ => [view]
  | ViewOp.set_height view _ => [view]
  | ViewOp.set_padding view _ _ _ _ => [view]
  | ViewOp.set_margin view _ _ _ _ => [view]
  | ViewOp.set_background view _ => [view]
  | ViewOp.set_foreground view _ => [view]
  | ViewOp.set_font_size view _ => [view]
  | ViewOp.set_border_radius view _ => [view]
  | ViewOp.add_child parent child => [parent, child]
  | ViewOp.remove_child parent child => [parent, child]
  | ViewOp.on_click view _ _ => [view]
  | ViewOp.on_long_click view _ _ => [view]
  | ViewOp.on_text_change view _ _ => [view]
  | ViewOp.text_set_content view _ => [view]
  | ViewOp.text_field_set_value view _ => [view]

/-- Perform one call on the memory. -/
def ViewOp.apply (m : Mem) : ViewOp → Res Mem
  | ViewOp.set_id view id => lumi_view_set_id m view id
  | ViewOp.set_visible view visible => lumi_view_set_visible m view visible
  | ViewOp.set_width view w => lumi_view_set_width m view w
  | ViewOp.set_height view h => lumi_view_set_height m view h
  | ViewOp.set_padding view t r b l => lumi_view_set_padding m view t r b l
  | ViewOp.set_margin view t r b l => lumi_view_set_margin m view t r b l
  | ViewOp.set_background view rgba => lumi_view_set_background m view rgba
  | ViewOp.set_foreground view rgba => lumi_view_set_foreground m view rgba
  | ViewOp.set_font_size view size => lumi_view_set_font_size m view size
  | ViewOp.set_border_radius view r => lumi_view_set_border_radius m view r
  | ViewOp.add_child parent child => lumi_view_add_child m parent child
  | ViewOp.remove_child parent child => lumi_view_remove_child m parent child
  | ViewOp.on_click view cb ud => lumi_view_on_click m view cb ud
  | ViewOp.on_long_click view cb ud => lumi_view_on_long_click m view cb ud
  | ViewOp.on_text_change view cb ud => lumi_view_on_text_change m view cb ud
  | ViewOp.text_set_content view text => lumi_text_set_content m view text
  | ViewOp.text_field_set_value view value => lumi_text_field_set_value m view value

/-- A key for each number: `i` times the letter k. -/
def key_of (i : Nat) : String := String.mk (List.replicate i 'k')

/-- The calls that set `n` different keys, allocations succeeding. -/
def fill_ops (n : Nat) : List StoreOp :=
  (List.range n).map (fun i => StoreOp.set (some (key_of i)) (some "v") true true)

/-- The field `type` of the object at `p`, when there is one. -/
def Mem.type_of (m : Mem) (p : Ptr) : Option lumi_view_type_t :=
  (m.heap p).map (fun v => v.type)

/-! ## The order of `lumi_app_destroy` -/

/-- The view memory and root are destroyable with the fuel `fuel`: there is
no root, or the root is the root of a tree of live nodes without sharing of
fewer than `fuel` nodes. -/
def destroyable (fuel : Nat) (m : Mem) (r : Ptr) : Prop :=
  r = 0 ∨ ∃ ns, Subtree m r ns ∧ ns.Nodup ∧ ns.length < fuel

/-- The scene `scene_tree` with an application at address 9 that has all six
hooks bound and the context 42, and whose root is the column 1. -/
def world_hooked : World :=
  Res.value (World.of_mem Mem.empty)
    (lumi_app_set_content 1
      (lumi_app_create (World.of_mem scene_tree) 9 (some test_manifest) (some hooks_all) 42).1
      9 1)

/-! ## Parent back-references -/

/-- One step of the replay of the parent back-references: a
`lumi_view_add_child` that attaches sets the back-reference of the child to
the parent, a `lumi_view_remove_child` that finds the child clears it. `a`
gives the child lists before the call. -/
def replay_parent (a : Ptr → List Ptr) (par : Ptr → Ptr) : TreeOp → (Ptr → Ptr)
  | TreeOp.add_child p c =>
    if p = 0 ∨ c = 0 ∨ MAX_CHILDREN ≤ (a p).length then par
    else Function.update par c p
  | TreeOp.remove_child p c =>
    if p = 0 ∨ c = 0 ∨ c ∉ a p then par
    else Function.update par c 0

/-- The property of the specification: the parent back-reference of a node is
`p` exactly when the node occurs in the child list of `p`, and it is null
exactly when the node occurs in no child list. -/
def parent_agrees (m : Mem) : Prop :=
  (∀ c p, p ≠ 0 → (m.parent_of c = p ↔ c ∈ m.kids p)) ∧
  ∀ c, m.parent_of c = 0 ↔ ∀ p, c ∉ m.kids p

/-! ## Tree shape -/

/-- In the child lists `a`, the node `y` is `x` or a descendant of `x`. -/
def reach (a : Ptr → List Ptr) : Ptr → Ptr → Prop :=
  Relation.ReflTransGen (fun x y => y ∈ a x)

/-- The property of the specification: the child relation is strictly
tree-shaped. No node is in two child lists or twice in one, and no node is
its own child or its own descendant. -/
def tree_shaped (m : Mem) : Prop :=
  single_parent m ∧ ∀ q c, c ∈ m.kids q → ¬ reach m.kids c q

/-- Every `lumi_view_add_child(p, c)` of the sequence is given, at the moment
of the call, a child `c` that is in no child list and that is neither `p` nor
an ancestor of `p`. -/
def safe_adds : Mem → List TreeOp → Prop
  | _, [] => True
  | m, op :: ops =>
    (∀ p c, op = TreeOp.add_child p c → (∀ q, c ∉ m.kids q) ∧ ¬ reach m.kids c p) ∧
    ∀ m1, op.apply m = Res.ok m1 → safe_adds m1 ops

/-- The condition `safe_adds` on the abstract replay. -/
def safe_replay : (Ptr → List Ptr) → List TreeOp → Prop
  | _, [] => True
  | a, op :: ops =>
    (∀ p c, op = TreeOp.add_child p c → (∀ q, c ∉ a q) ∧ ¬ reach a c p) ∧
    safe_replay (replay_step a op) ops

/-- The scene `scene_fresh` after `lumi_view_add_child(1, 1)`: the column 1
is its own child. -/
def scene_self_child : Mem :=
  Res.value Mem.empty (run_ops scene_fresh [TreeOp.add_child 1 1])

/-- The scene `scene_two_columns` after `lumi_view_add_child(1, 2)` and
`lumi_view_add_child(2, 1)`: each column is the child of the other. -/
def scene_cycle : Mem :=
  Res.value Mem.empty
    (run_ops scene_two_columns [TreeOp.add_child 1 2, TreeOp.add_child 2 1])

/-- A nested construction on `scene_two_columns`: the text 3 goes under the
column 2, the column 2 under the column 1, then the text 4 under the column
1. -/
def ops_nested : List TreeOp :=
  [TreeOp.add_child 2 3, TreeOp.add_child 1 2, TreeOp.add_child 1 4]

/-! ## Array loops of `lumi_view_remove_child` -/

theorem shift_left_apply (n : Nat) : ∀ (f : Nat → Ptr) (j x : Nat),
    shift_left f n j x = if j ≤ x ∧ x < j + n then f (x + 1) else f x := by
  induction n with
  | zero =>
    intro f j x
    have h : ¬ (j ≤ x ∧ x < j) := by omega
    simp [shift_left, h]
  | succ n ih =>
    intro f j x
    rw [shift_left, ih]
    by_cases hx : x = j
    · subst hx
      simp [Function.update]
    · by_cases h1 : j + 1 ≤ x ∧ x < j + 1 + n
      · have h2 : j ≤ x ∧ x < j + (n + 1) := by omega
        have h3 : x + 1 ≠ j := by omega
        simp [h1, h2, Function.update, h3]
      · have h2 : ¬ (j ≤ x ∧ x < j + (n + 1)) := by omega
        simp [h1, h2, Function.update, hx]

theorem find_child_none (f : Nat → Ptr) (c : Ptr) (n : Nat) : ∀ i : Nat,
    find_child f c n i = none → c ∉ (List.range' i n).map f := by
  induction n with
  | zero => intro i _; simp
  | succ n ih =>
    intro i h
    rw [find_child] at h
    by_cases hc : f i = c
    · simp [hc] at h
    · simp only [hc, if_false] at h
      have := ih (i + 1) h
      simp only [List.range'_succ, List.map_cons, List.mem_cons, not_or]
      exact ⟨fun e => hc e.symm, this⟩

theorem find_child_some (f : Nat → Ptr) (c : Ptr) (n : Nat) : ∀ i k : Nat,
    find_child f c n i = some k →
      i ≤ k ∧ k < i + n ∧ f k = c ∧
      ((List.range' i n).map f).erase c =
        (List.range' i (n - 1)).map (shift_left f (i + n - 1 - k) k) := by
  induction n with
  | zero => intro i k h; simp [find_child] at h
  | succ n ih =>
    intro i k h
    rw [find_child] at h
    by_cases hc : f i = c
    · simp only [hc, if_true, Option.some.injEq] at h
      subst h
      refine ⟨le_refl _, by omega, hc, ?_⟩
      simp only [List.range'_succ, List.map_cons, hc, List.erase_cons_head,
        Nat.add_sub_cancel]
      rw [List.range'_eq_map_range, List.range'_eq_map_range]
      simp only [List.map_map]
      apply List.map_congr_left
      intro x hx
      simp only [Function.comp, shift_left_apply]
      have hx' : x < n := List.mem_range.mp hx
      have h1 : i ≤ i + x ∧ i + x < i + (i + (n + 1) - 1 - i) := by omega
      simp only [h1, and_self, if_true]
      congr 1
      omega
    · simp only [hc, if_false] at h
      obtain ⟨h1, h2, h3, h4⟩ := ih (i + 1) k h
      refine ⟨by omega, by omega, h3, ?_⟩
      obtain ⟨n', rfl⟩ : ∃ n', n = n' + 1 := ⟨n - 1, by omega⟩
      simp only [List.range'_succ, List.map_cons]
      rw [List.erase_cons_tail (by simpa using fun e => hc e)]
      simp only [List.range'_succ, List.map_cons, Nat.add_sub_cancel] at h4
      rw [h4]
      simp only [Nat.add_sub_cancel]
      have e1 : i + 1 + (n' + 1) - 1 - k = i + (n' + 1 + 1) - 1 - k := by omega
      rw [e1]
      congr 1
      rw [shift_left_apply, if_neg (by omega)]

/-! ## Effect of `lumi_view_add_child` and `lumi_view_remove_child` on memory -/

theorem child_seq_eq_range' (v : lumi_view) :
    child_seq v = (List.range' 0 v.child_count).map v.children := by
  simp [child_seq, List.range_eq_range']

theorem child_seq_append (v : lumi_view) (c : Ptr) (par : Ptr) :
    child_seq { v with
      children := Function.update v.children v.child_count c,
      child_count := v.child_count + 1, parent := par } = child_seq v ++ [c] := by
  simp only [child_seq, List.range_succ, List.map_append, List.map_cons, List.map_nil,
    Function.update_same]
  congr 1
  apply List.map_congr_left
  intro x hx
  have : x ≠ v.child_count := by
    have := List.mem_range.mp hx
    omega
  simp [Function.update, this]

theorem add_child_eval (m : Mem) (p c : Ptr) (pv cv : lumi_view)
    (hp : p ≠ 0) (hc : c ≠ 0) (hpv : m.heap p = some pv) (hcv : m.heap c = some cv)
    (hlt : pv.child_count < MAX_CHILDREN) :
    lumi_view_add_child m p c = Res.ok (add_child_mem m p c pv cv) := by
  have hnl : ¬ (pv.child_count ≥ MAX_CHILDREN) := by omega
  by_cases hcp : c = p
  · subst hcp
    simp only [lumi_view_add_child, hp, or_self, if_false, hpv, hnl, Mem.store, if_true,
      add_child_mem]
  · simp only [lumi_view_add_child, hp, hc, or_self, if_false, hpv, hnl, Mem.store, hcp, hcv,
      add_child_mem]

/-- Result of a call of `lumi_view_add_child` that attaches. -/
theorem add_child_ok (m : Mem) (p c : Ptr) (pv cv : lumi_view)
    (hp : p ≠ 0) (hc : c ≠ 0) (hpv : m.heap p = some pv) (hcv : m.heap c = some cv)
    (hlt : pv.child_count < MAX_CHILDREN) :
    ∃ m', lumi_view_add_child m p c = Res.ok m' ∧
      m'.freed = m.freed ∧ m'.calls = m.calls ∧
      (∀ q, q ≠ p → q ≠ c → m'.heap q = m.heap q) ∧
      m'.heap p = some { pv with
        children := Function.update pv.children pv.child_count c,
        child_count := pv.child_count + 1,
        parent := if p = c then p else pv.parent } ∧
      (c ≠ p → m'.heap c = some { cv with parent := p }) := by
  refine ⟨_, add_child_eval m p c pv cv hp hc hpv hcv hlt, rfl, rfl, ?_, ?_, ?_⟩
  · intro q hq hq'
    simp [add_child_mem, Mem.store, hq, hq']
  · by_cases hcp : c = p
    · subst hcp
      simp [add_child_mem, Mem.store]
    · have hpc : ¬ p = c := fun e => hcp e.symm
      simp [add_child_mem, Mem.store, hpc]
  · intro hcp
    simp [add_child_mem, Mem.store, hcp]

/-- Result of a call of `lumi_view_add_child` that does not attach. -/
theorem add_child_full (m : Mem) (p c : Ptr) (pv : lumi_view)
    (hpv : m.heap p = some pv) (hge : MAX_CHILDREN ≤ pv.child_count) :
    lumi_view_add_child m p c = Res.ok m := by
  unfold lumi_view_add_child
  split
  · rfl
  · simp [hpv, hge]

theorem add_child_null (m : Mem) (p c : Ptr) (h : p = 0 ∨ c = 0) :
    lumi_view_add_child m p c = Res.ok m := by
  simp [lumi_view_add_child, h]

theorem remove_child_null (m : Mem) (p c : Ptr) (h : p = 0 ∨ c = 0) :
    lumi_view_remove_child m p c = Res.ok m := by
  simp [lumi_view_remove_child, h]

/-- A call of `lumi_view_remove_child` whose search loop finds nothing. -/
theorem remove_child_absent (m : Mem) (p c : Ptr) (pv : lumi_view)
    (hpv : m.heap p = some pv) (hnot : c ∉ child_seq pv) :
    lumi_view_remove_child m p c = Res.ok m := by
  unfold lumi_view_remove_child
  split
  · rfl
  · simp only [hpv]
    cases hf : find_child pv.children c pv.child_count 0 with
    | none => rfl
    | some i =>
      exfalso
      obtain ⟨h1, h2, h3, _⟩ := find_child_some _ _ _ _ _ hf
      apply hnot
      rw [child_seq]
      exact List.mem_map.mpr ⟨i, List.mem_range.mpr (by omega), h3⟩

theorem remove_child_eval (m : Mem) (p c : Ptr) (pv cv : lumi_view) (i : Nat)
    (hp : p ≠ 0) (hc : c ≠ 0) (hpv : m.heap p = some pv) (hcv : m.heap c = some cv)
    (hf : find_child pv.children c pv.child_count 0 = some i) :
    lumi_view_remove_child m p c = Res.ok (remove_child_mem m p c pv cv i) := by
  by_cases hpc : p = c
  · subst hpc
    simp only [lumi_view_remove_child, hp, or_self, if_false, hpv, hf, Mem.store, if_true,
      remove_child_mem, remove_child_view]
    rw [hpv] at hcv
    cases hcv
    rfl
  · simp only [lumi_view_remove_child, hp, hc, or_self, if_false, hpv, hf, hcv, Mem.store,
      hpc, remove_child_mem, remove_child_view]

/-- Result of a call of `lumi_view_remove_child` whose search loop finds the child. -/
theorem remove_child_ok (m : Mem) (p c : Ptr) (pv cv : lumi_view)
    (hp : p ≠ 0) (hc : c ≠ 0) (hpv : m.heap p = some pv) (hcv : m.heap c = some cv)
    (hmem : c ∈ child_seq pv) :
    ∃ m' pv', lumi_view_remove_child m p c = Res.ok m' ∧
      m'.freed = m.freed ∧ m'.calls = m.calls ∧
      (∀ q, q ≠ p → q ≠ c → m'.heap q = m.heap q) ∧
      m'.heap p = some pv' ∧
      child_seq pv' = (child_seq pv).erase c ∧
      pv'.child_count = pv.child_count - 1 ∧
      pv'.parent = (if p = c then 0 else pv.parent) ∧
      pv'.type = pv.type ∧ pv'.text = pv.text ∧ pv'.id = pv.id ∧
      (c ≠ p → m'.heap c = some { cv with parent := 0 }) := by
  cases hf : find_child pv.children c pv.child_count 0 with
  | none =>
    exfalso
    have := find_child_none _ _ _ _ hf
    rw [← child_seq_eq_range'] at this
    exact this hmem
  | some i =>
    obtain ⟨_, h2, _, h4⟩ := find_child_some _ _ _ _ _ hf
    rw [← child_seq_eq_range'] at h4
    simp only [Nat.zero_add] at h4
    have hv : m.heap p = some pv → m.heap c = some cv → p = c → cv = pv := by
      intro h1 h2 e
      subst e
      rw [h1] at h2
      exact (Option.some.inj h2).symm
    refine ⟨_, remove_child_view p c pv cv i, remove_child_eval m p c pv cv i hp hc hpv hcv hf,
      rfl, rfl, ?_, ?_, ?_, ?_, ?_, ?_, ?_, ?_, ?_⟩
    · intro q hq hq'
      simp [remove_child_mem, Mem.store, hq, hq']
    · simp [remove_child_mem, Mem.store]
    · rw [h4, child_seq_eq_range']
      by_cases hpc : p = c
      · have := hv hpv hcv hpc
        subst this
        simp [remove_child_view, hpc]
      · simp [remove_child_view, hpc]
    · by_cases hpc : p = c
      · have := hv hpv hcv hpc
        subst this
        simp [remove_child_view, hpc]
      · simp [remove_child_view, hpc]
    · by_cases hpc : p = c
      · simp [remove_child_view, hpc]
      · simp [remove_child_view, hpc]
    · by_cases hpc : p = c
      · have := hv hpv hcv hpc
        subst this
        simp [remove_child_view, hpc]
      · simp [remove_child_view, hpc]
    · by_cases hpc : p = c
      · have := hv hpv hcv hpc
        subst this
        simp [remove_child_view, hpc]
      · simp [remove_child_view, hpc]
    · by_cases hpc : p = c
      · have := hv hpv hcv hpc
        subst this
        simp [remove_child_view, hpc]
      · simp [remove_child_view, hpc]
    · intro hcp
      simp [remove_child_mem, Mem.store, hcp]

/-! ## Accessors -/

theorem live_iff (m : Mem) (p : Ptr) : m.live p ↔ ∃ v, m.heap p = some v := by
  unfold Mem.live
  exact Option.isSome_iff_exists

theorem kids_of_heap {m : Mem} {p : Ptr} {v : lumi_view} (h : m.heap p = some v) :
    m.kids p = child_seq v := by
  simp [Mem.kids, h]

theorem count_of_heap {m : Mem} {p : Ptr} {v : lumi_view} (h : m.heap p = some v) :
    m.count p = v.child_count := by
  simp [Mem.count, h]

theorem parent_of_heap {m : Mem} {p : Ptr} {v : lumi_view} (h : m.heap p = some v) :
    m.parent_of p = v.parent := by
  simp [Mem.parent_of, h]

theorem live_of_heap {m : Mem} {p : Ptr} {v : lumi_view} (h : m.heap p = some v) :
    m.live p := by
  simp [Mem.live, h]

theorem kids_length (m : Mem) (p : Ptr) : (m.kids p).length = m.count p := by
  unfold Mem.kids Mem.count
  cases m.heap p <;> simp [child_seq]

/-- What a call of `lumi_view_add_child` that attaches does, in terms of the accessors. -/
theorem add_child_effect (m : Mem) (p c : Ptr)
    (hp : p ≠ 0) (hc : c ≠ 0) (hlp : m.live p) (hlc : m.live c)
    (hlt : m.count p < MAX_CHILDREN) :
    ∃ m', lumi_view_add_child m p c = Res.ok m' ∧
      m'.freed = m.freed ∧ m'.calls = m.calls ∧
      (∀ q, m'.live q ↔ m.live q) ∧
      (∀ q, q ≠ p → q ≠ c → m'.heap q = m.heap q) ∧
      m'.kids p = m.kids p ++ [c] ∧
      m'.count p = m.count p + 1 ∧
      (∀ q, q ≠ p → m'.kids q = m.kids q ∧ m'.count q = m.count q) ∧
      m'.parent_of c = p ∧
      (∀ q, q ≠ c → m'.parent_of q = m.parent_of q) := by
  obtain ⟨pv, hpv⟩ := (live_iff m p).mp hlp
  obtain ⟨cv, hcv⟩ := (live_iff m c).mp hlc
  rw [count_of_heap hpv] at hlt
  obtain ⟨m', hr, hf, hcl, hother, hpar, hch⟩ := add_child_ok m p c pv cv hp hc hpv hcv hlt
  have hch' : ∀ q, q ≠ p → m'.kids q = m.kids q ∧ m'.count q = m.count q ∧
      (q ≠ c → m'.parent_of q = m.parent_of q) ∧ (q = c → m'.parent_of q = p) ∧
      (m'.live q ↔ m.live q) := by
    intro q hq
    by_cases hqc : q = c
    · subst hqc
      have h := hch hq
      simp [Mem.kids, Mem.count, Mem.parent_of, Mem.live, h, hcv, child_seq]
    · have h := hother q hq hqc
      simp [Mem.kids, Mem.count, Mem.parent_of, Mem.live, h, hqc]
  refine ⟨m', hr, hf, hcl, ?_, hother, ?_, ?_, ?_, ?_, ?_⟩
  · intro q
    by_cases hq : q = p
    · subst hq
      simp [Mem.live, hpar, hpv]
    · exact (hch' q hq).2.2.2.2
  · rw [kids_of_heap hpar, kids_of_heap hpv, child_seq_append]
  · rw [count_of_heap hpar, count_of_heap hpv]
  · intro q hq
    exact ⟨(hch' q hq).1, (hch' q hq).2.1⟩
  · by_cases hcp : c = p
    · subst hcp
      rw [parent_of_heap hpar]
      simp
    · exact (hch' c hcp).2.2.2.1 rfl
  · intro q hqc
    by_cases hq : q = p
    · subst hq
      have : ¬ q = c := hqc
      rw [parent_of_heap hpar, parent_of_heap hpv]
      simp [this]
    · exact (hch' q hq).2.2.1 hqc

/-- What a call of `lumi_view_remove_child` that finds the child does, in
terms of the accessors. -/
theorem remove_child_effect (m : Mem) (p c : Ptr)
    (hp : p ≠ 0) (hc : c ≠ 0) (hlp : m.live p) (hlc : m.live c) (hmem : c ∈ m.kids p) :
    ∃ m', lumi_view_remove_child m p c = Res.ok m' ∧
      m'.freed = m.freed ∧ m'.calls = m.calls ∧
      (∀ q, m'.live q ↔ m.live q) ∧
      (∀ q, q ≠ p → q ≠ c → m'.heap q = m.heap q) ∧
      m'.kids p = (m.kids p).erase c ∧
      m'.count p = m.count p - 1 ∧
      (∀ q, q ≠ p → m'.kids q = m.kids q ∧ m'.count q = m.count q) ∧
      m'.parent_of c = 0 ∧
      (∀ q, q ≠ c → m'.parent_of q = m.parent_of q) := by
  obtain ⟨pv, hpv⟩ := (live_iff m p).mp hlp
  obtain ⟨cv, hcv⟩ := (live_iff m c).mp hlc
  rw [kids_of_heap hpv] at hmem
  obtain ⟨m', pv', hr, hf, hcl, hother, hpar, hseq, hcnt, hpp, _, _, _, hch⟩ :=
    remove_child_ok m p c pv cv hp hc hpv hcv hmem
  have hch' : ∀ q, q ≠ p → m'.kids q = m.kids q ∧ m'.count q = m.count q ∧
      (q ≠ c → m'.parent_of q = m.parent_of q) ∧ (q = c → m'.parent_of q = 0) ∧
      (m'.live q ↔ m.live q) := by
    intro q hq
    by_cases hqc : q = c
    · subst hqc
      have h := hch hq
      simp [Mem.kids, Mem.count, Mem.parent_of, Mem.live, h, hcv, child_seq]
    · have h := hother q hq hqc
      simp [Mem.kids, Mem.count, Mem.parent_of, Mem.live, h, hqc]
  refine ⟨m', hr, hf, hcl, ?_, hother, ?_, ?_, ?_, ?_, ?_⟩
  · intro q
    by_cases hq : q = p
    · subst hq
      simp [Mem.live, hpar, hpv]
    · exact (hch' q hq).2.2.2.2
  · rw [kids_of_heap hpar, kids_of_heap hpv, hseq]
  · rw [count_of_heap hpar, count_of_heap hpv, hcnt]
  · intro q hq
    exact ⟨(hch' q hq).1, (hch' q hq).2.1⟩
  · by_cases hcp : c = p
    · subst hcp
      rw [parent_of_heap hpar, hpp]
      simp
    · exact (hch' c hcp).2.2.2.1 rfl
  · intro q hqc
    by_cases hq : q = p
    · subst hq
      have : ¬ q = c := hqc
      rw [parent_of_heap hpar, parent_of_heap hpv, hpp]
      simp [this]
    · exact (hch' q hq).2.2.1 hqc

/-! ## Attaching and detaching children -/

/-- C1, as stated, fails: in the scene with columns 1 and 2 and the text 3,
after `lumi_view_add_child(1, 3)` the column 1 lists 3 and the column 2 is
empty; `lumi_view_add_child(2, 3)` then returns with 3 still listed under 1
(child count of 1 still one) and listed under 2 as well. -/
theorem lumi_view_add_child_detach_counterexample :
    ∃ m1 m2, lumi_view_add_child scene_two_columns 1 3 = Res.ok m1 ∧
      m1.kids 1 = [3] ∧ m1.count 2 = 0 ∧
      lumi_view_add_child m1 2 3 = Res.ok m2 ∧
      3 ∈ m2.kids 1 ∧ m2.count 1 = 1 ∧ m2.kids 2 = [3] ∧ m2.parent_of 3 = 2 :=
  ⟨_, _, rfl, by decide, by decide, rfl, by decide, by decide, by decide, by decide⟩

/-- C1, amended: for a live parent `p1` whose child list contains the live
node `c` and another live node `p2` with fewer than 256 children,
`lumi_view_add_child(p2, c)` returns without detaching: `p1` keeps its child
list (so `c` is still in it) and its child count, the child count of `p2`
grows by one with `c` appended, the parent back-reference of `c` is `p2`,
and the set of live nodes and the log of frees are unchanged. -/
theorem lumi_view_add_child_keeps_old_parent (m : Mem) (p1 p2 c : Ptr)
    (hp2 : p2 ≠ 0) (hc : c ≠ 0) (hne : p1 ≠ p2)
    (hl2 : m.live p2) (hlc : m.live c)
    (hmem : c ∈ m.kids p1) (hlt : m.count p2 < MAX_CHILDREN) :
    ∃ m', lumi_view_add_child m p2 c = Res.ok m' ∧
      m'.kids p1 = m.kids p1 ∧ c ∈ m'.kids p1 ∧ m'.count p1 = m.count p1 ∧
      m'.count p2 = m.count p2 + 1 ∧ m'.kids p2 = m.kids p2 ++ [c] ∧
      m'.parent_of c = p2 ∧
      (∀ q, m'.live q ↔ m.live q) ∧ m'.freed = m.freed := by
  obtain ⟨m', hr, hf, _, hlive, _, hk, hcnt, hoth, hpar, _⟩ :=
    add_child_effect m p2 c hp2 hc hl2 hlc hlt
  have h1 := hoth p1 hne
  exact ⟨m', hr, h1.1, h1.1 ▸ hmem, h1.2, hcnt, hk, hpar, hlive, hf⟩

/-- C1, amended, on the scene where the text 3 is attached to the column 1
and is then added to the column 2. -/
theorem lumi_view_add_child_keeps_old_parent_witness :
    (3 ∈ scene_attached.kids 1 ∧ scene_attached.count 2 < MAX_CHILDREN) ∧
    ∃ m', lumi_view_add_child scene_attached 2 3 = Res.ok m' ∧
      m'.kids 1 = scene_attached.kids 1 ∧ 3 ∈ m'.kids 1 ∧
      m'.count 1 = scene_attached.count 1 ∧
      m'.count 2 = scene_attached.count 2 + 1 ∧
      m'.kids 2 = scene_attached.kids 2 ++ [3] ∧
      m'.parent_of 3 = 2 ∧
      (∀ q, m'.live q ↔ scene_attached.live q) ∧ m'.freed = scene_attached.freed :=
  ⟨⟨by decide, by decide⟩,
    lumi_view_add_child_keeps_old_parent scene_attached 1 2 3 (by decide) (by decide)
      (by decide) (by decide) (by decide) (by decide) (by decide)⟩

/-- C2: for a live parent with fewer than 256 children and a live child
(both handles non-null), `lumi_view_add_child(parent, child)` returns, the
parent's child sequence is its previous sequence with `child` appended at
the end (so earlier children keep their positions), and the parent
back-reference of `child` is `parent`. -/
theorem lumi_view_add_child_appends (m : Mem) (parent child : Ptr)
    (hp : parent ≠ 0) (hc : child ≠ 0) (hlp : m.live parent) (hlc : m.live child)
    (hlt : m.count parent < MAX_CHILDREN) :
    ∃ m', lumi_view_add_child m parent child = Res.ok m' ∧
      m'.kids parent = m.kids parent ++ [child] ∧
      (∀ i, i < (m.kids parent).length → (m'.kids parent)[i]? = (m.kids parent)[i]?) ∧
      (m'.kids parent)[(m.kids parent).length]? = some child ∧
      m'.parent_of child = parent := by
  obtain ⟨m', hr, _, _, _, _, hk, _, _, hpar, _⟩ :=
    add_child_effect m parent child hp hc hlp hlc hlt
  refine ⟨m', hr, hk, ?_, ?_, hpar⟩
  · intro i hi
    rw [hk, List.getElem?_append_left hi]
  · rw [hk]
    simp

/-- C2 on three fresh nodes: the text 3 is added to the column 1. -/
theorem lumi_view_add_child_appends_witness :
    scene_fresh.count 1 < MAX_CHILDREN ∧
    ∃ m', lumi_view_add_child scene_fresh 1 3 = Res.ok m' ∧
      m'.kids 1 = scene_fresh.kids 1 ++ [3] ∧
      (∀ i, i < (scene_fresh.kids 1).length →
        (m'.kids 1)[i]? = (scene_fresh.kids 1)[i]?) ∧
      (m'.kids 1)[(scene_fresh.kids 1).length]? = some 3 ∧
      m'.parent_of 3 = 1 :=
  ⟨by decide,
    lumi_view_add_child_appends scene_fresh 1 3 (by decide) (by decide) (by decide)
      (by decide) (by decide)⟩

/-- C3: for a live parent and a child that is live whenever it is listed,
`lumi_view_remove_child(parent, child)` returns and the parent's child
sequence is its previous sequence with the first occurrence of `child`
erased, the others in their previous order; when `child` was listed its
parent back-reference is cleared; when it was not listed the memory, hence
the parent and the child, is unchanged. With a null handle the call changes
nothing either. -/
theorem lumi_view_remove_child_erases (m : Mem) (parent child : Ptr)
    (hlp : parent ≠ 0 → m.live parent)
    (hlc : child ∈ m.kids parent → m.live child) :
    ∃ m', lumi_view_remove_child m parent child = Res.ok m' ∧
      (parent ≠ 0 → child ≠ 0 → m'.kids parent = (m.kids parent).erase child) ∧
      (parent ≠ 0 → child ≠ 0 → child ∈ m.kids parent → m'.parent_of child = 0) ∧
      (parent = 0 ∨ child = 0 ∨ child ∉ m.kids parent → m' = m) := by
  by_cases h0 : parent = 0 ∨ child = 0
  · refine ⟨m, remove_child_null m parent child h0, ?_, ?_, fun _ => rfl⟩
    · intro hp hc
      cases h0 with
      | inl h => exact absurd h hp
      | inr h => exact absurd h hc
    · intro hp hc
      cases h0 with
      | inl h => exact absurd h hp
      | inr h => exact absurd h hc
  · have hp : parent ≠ 0 := fun e => h0 (Or.inl e)
    have hc : child ≠ 0 := fun e => h0 (Or.inr e)
    by_cases hmem : child ∈ m.kids parent
    · obtain ⟨m', hr, _, _, _, _, hk, _, _, hpar, _⟩ :=
        remove_child_effect m parent child hp hc (hlp hp) (hlc hmem) hmem
      refine ⟨m', hr, fun _ _ => hk, fun _ _ _ => hpar, ?_⟩
      intro h
      rcases h with h | h | h
      · exact absurd h hp
      · exact absurd h hc
      · exact absurd hmem h
    · obtain ⟨pv, hpv⟩ := (live_iff m parent).mp (hlp hp)
      rw [kids_of_heap hpv] at hmem
      refine ⟨m, remove_child_absent m parent child pv hpv hmem, ?_, ?_, fun _ => rfl⟩
      · intro _ _
        rw [kids_of_heap hpv, List.erase_of_not_mem hmem]
      · intro _ _ h
        rw [kids_of_heap hpv] at h
        exact absurd h hmem

/-- C3 on the scene where the text 3 is attached to the column 1 and is removed again. -/
theorem lumi_view_remove_child_erases_witness :
    (3 ∈ scene_attached.kids 1) ∧
    ∃ m', lumi_view_remove_child scene_attached 1 3 = Res.ok m' ∧
      ((1 : Ptr) ≠ 0 → (3 : Ptr) ≠ 0 → m'.kids 1 = (scene_attached.kids 1).erase 3) ∧
      ((1 : Ptr) ≠ 0 → (3 : Ptr) ≠ 0 → 3 ∈ scene_attached.kids 1 → m'.parent_of 3 = 0) ∧
      ((1 : Ptr) = 0 ∨ (3 : Ptr) = 0 ∨ 3 ∉ scene_attached.kids 1 → m' = scene_attached) :=
  ⟨by decide,
    lumi_view_remove_child_erases scene_attached 1 3 (fun _ => by decide)
      (fun _ => by decide)⟩

/-- C8: when `lumi_view_add_child(parent, child)` does not attach, because a
handle is null or because the live parent already holds `MAX_CHILDREN`
(256) children, it returns with the memory unchanged: the parent's child
sequence and count and the child's parent back-reference are as before. -/
theorem lumi_view_add_child_failed_unchanged (m : Mem) (parent child : Ptr)
    (h : parent = 0 ∨ child = 0 ∨ (m.live parent ∧ MAX_CHILDREN ≤ m.count parent)) :
    lumi_view_add_child m parent child = Res.ok m ∧
      (∀ m', lumi_view_add_child m parent child = Res.ok m' →
        m'.kids parent = m.kids parent ∧ m'.count parent = m.count parent ∧
        m'.parent_of child = m.parent_of child) := by
  have key : lumi_view_add_child m parent child = Res.ok m := by
    rcases h with h | h | ⟨hl, hge⟩
    · exact add_child_null m parent child (Or.inl h)
    · exact add_child_null m parent child (Or.inr h)
    · obtain ⟨pv, hpv⟩ := (live_iff m parent).mp hl
      rw [count_of_heap hpv] at hge
      exact add_child_full m parent child pv hpv hge
  refine ⟨key, ?_⟩
  intro m' hm'
  rw [key] at hm'
  cases hm'
  exact ⟨rfl, rfl, rfl⟩

/-- C8 on a column whose 256 slots are in use: adding the text 3 changes nothing. -/
theorem lumi_view_add_child_failed_unchanged_witness :
    (scene_full.live 1 ∧ scene_full.count 1 = 256) ∧
    (lumi_view_add_child scene_full 1 3 = Res.ok scene_full ∧
      (∀ m', lumi_view_add_child scene_full 1 3 = Res.ok m' →
        m'.kids 1 = scene_full.kids 1 ∧ m'.count 1 = scene_full.count 1 ∧
        m'.parent_of 3 = scene_full.parent_of 3)) :=
  ⟨⟨by decide, by decide⟩,
    lumi_view_add_child_failed_unchanged scene_full 1 3
      (Or.inr (Or.inr ⟨by decide, by decide⟩))⟩

/-! ## Sequences of calls against the abstract replay -/

theorem view_alloc_count (m : Mem) (a : Ptr) (ty : lumi_view_type_t)
    (h : ∀ p, m.count p = 0) : ∀ p, (view_alloc m a ty).1.count p = 0 := by
  intro p
  unfold view_alloc
  by_cases ha : a = 0
  · simp [ha, h]
  · by_cases hp : p = a
    · simp [ha, hp, Mem.count, Mem.store, zeroed]
    · have := h p
      simp only [Mem.count] at this
      simp [ha, hp, Mem.count, Mem.store, this]

theorem view_alloc_text_count (m : Mem) (a : Ptr) (ty : lumi_view_type_t) (s : Option String)
    (h : ∀ p, m.count p = 0) : ∀ p, (view_alloc_text m a ty s).1.count p = 0 := by
  intro p
  have h1 := view_alloc_count m a ty h
  unfold view_alloc_text
  cases s with
  | none => exact h1 p
  | some str =>
    simp only
    split
    · exact h1 p
    · split
      · rename_i v hv
        by_cases hp : p = (view_alloc m a ty).2
        · have := h1 p
          rw [hp, count_of_heap hv] at this
          simp [hp, Mem.count, Mem.store, this]
        · have := h1 p
          simp only [Mem.count] at this
          simp [hp, Mem.count, Mem.store, this]
      · exact h1 p

theorem kids_of_count_zero (m : Mem) (p : Ptr) (h : m.count p = 0) : m.kids p = [] := by
  apply List.eq_nil_of_length_eq_zero
  rw [kids_length, h]

/-- One call keeps the memory in step with the abstract replay. -/
theorem replay_step_sound (m : Mem) (a : Ptr → List Ptr) (op : TreeOp)
    (hI : ∀ p, m.kids p = a p) (hl : ∀ q ∈ op.ptrs, q = 0 ∨ m.live q) :
    ∃ m', op.apply m = Res.ok m' ∧ (∀ p, m'.kids p = replay_step a op p) ∧
      (∀ q, m'.live q ↔ m.live q) := by
  cases op with
  | add_child p c =>
    simp only [TreeOp.ptrs, List.mem_cons, List.mem_singleton, List.not_mem_nil, or_false,
      forall_eq_or_imp, forall_eq] at hl
    simp only [TreeOp.apply, replay_step]
    by_cases h0 : p = 0 ∨ c = 0
    · refine ⟨m, add_child_null m p c h0, ?_, fun _ => Iff.rfl⟩
      intro q
      have : p = 0 ∨ c = 0 ∨ MAX_CHILDREN ≤ (a p).length := by tauto
      simp [this, hI]
    · have hp : p ≠ 0 := fun e => h0 (Or.inl e)
      have hc : c ≠ 0 := fun e => h0 (Or.inr e)
      have hlp : m.live p := hl.1.resolve_left hp
      have hlc : m.live c := hl.2.resolve_left hc
      by_cases hfull : MAX_CHILDREN ≤ m.count p
      · obtain ⟨pv, hpv⟩ := (live_iff m p).mp hlp
        rw [count_of_heap hpv] at hfull
        refine ⟨m, add_child_full m p c pv hpv hfull, ?_, fun _ => Iff.rfl⟩
        intro q
        have : MAX_CHILDREN ≤ (a p).length := by
          rw [← hI p, kids_of_heap hpv]
          simpa [child_seq] using hfull
        simp [this, hI]
      · obtain ⟨m', hr, _, _, hlive, _, hk, _, hoth, _, _⟩ :=
          add_child_effect m p c hp hc hlp hlc (by omega)
        refine ⟨m', hr, ?_, hlive⟩
        intro q
        have hnf : ¬ (p = 0 ∨ c = 0 ∨ MAX_CHILDREN ≤ (a p).length) := by
          rw [← hI p, kids_length]
          intro h
          rcases h with h | h | h
          · exact hp h
          · exact hc h
          · exact hfull h
        rw [if_neg hnf]
        by_cases hq : q = p
        · subst hq
          rw [hk, hI]
          simp
        · rw [(hoth q hq).1, hI, Function.update_noteq hq]
  | remove_child p c =>
    simp only [TreeOp.ptrs, List.mem_cons, List.mem_singleton, List.not_mem_nil, or_false,
      forall_eq_or_imp, forall_eq] at hl
    simp only [TreeOp.apply, replay_step]
    by_cases h0 : p = 0 ∨ c = 0
    · refine ⟨m, remove_child_null m p c h0, ?_, fun _ => Iff.rfl⟩
      intro q
      simp [h0, hI]
    · have hp : p ≠ 0 := fun e => h0 (Or.inl e)
      have hc : c ≠ 0 := fun e => h0 (Or.inr e)
      have hlp : m.live p := hl.1.resolve_left hp
      have hlc : m.live c := hl.2.resolve_left hc
      rw [if_neg h0]
      by_cases hmem : c ∈ m.kids p
      · obtain ⟨m', hr, _, _, hlive, _, hk, _, hoth, _, _⟩ :=
          remove_child_effect m p c hp hc hlp hlc hmem
        refine ⟨m', hr, ?_, hlive⟩
        intro q
        by_cases hq : q = p
        · subst hq
          rw [hk, hI]
          simp
        · rw [(hoth q hq).1, hI, Function.update_noteq hq]
      · obtain ⟨pv, hpv⟩ := (live_iff m p).mp hlp
        rw [kids_of_heap hpv] at hmem
        refine ⟨m, remove_child_absent m p c pv hpv hmem, ?_, fun _ => Iff.rfl⟩
        intro q
        by_cases hq : q = p
        · subst hq
          rw [hI] at *
          rw [← hI q, kids_of_heap hpv, List.erase_of_not_mem hmem]
          simp
        · rw [hI, Function.update_noteq hq]

/-- A sequence of calls keeps the memory in step with the abstract replay. -/
theorem replay_sound (ops : List TreeOp) : ∀ (m : Mem) (a : Ptr → List Ptr),
    (∀ p, m.kids p = a p) → (∀ op ∈ ops, ∀ q ∈ op.ptrs, q = 0 ∨ m.live q) →
    ∃ m', run_ops m ops = Res.ok m' ∧ (∀ p, m'.kids p = replay a ops p) ∧
      (∀ q, m'.live q ↔ m.live q) := by
  induction ops with
  | nil =>
    intro m a hI _
    exact ⟨m, rfl, hI, fun _ => Iff.rfl⟩
  | cons op ops ih =>
    intro m a hI hl
    obtain ⟨m1, h1, hI1, hlive1⟩ :=
      replay_step_sound m a op hI (hl op (List.mem_cons_self _ _))
    have hl1 : ∀ op' ∈ ops, ∀ q ∈ op'.ptrs, q = 0 ∨ m1.live q := by
      intro op' hop q hq
      rcases hl op' (List.mem_cons_of_mem _ hop) q hq with h | h
      · exact Or.inl h
      · exact Or.inr ((hlive1 q).mpr h)
    obtain ⟨m2, h2, hI2, hlive2⟩ := ih m1 (replay_step a op) hI1 hl1
    refine ⟨m2, ?_, hI2, fun q => (hlive2 q).trans (hlive1 q)⟩
    simp only [run_ops, h1]
    exact h2

/-- C4: starting from freshly created nodes (no node has children) and for
every finite sequence of `lumi_view_add_child` / `lumi_view_remove_child`
calls on null or live handles, the calls all return and every node's
resulting child order `children[0 .. child_count)` is the list obtained by
replaying the calls on abstract lists that start empty: the successful
`add_child` calls on that parent in call order, minus the removed entries,
the remainder in its relative order. -/
theorem run_ops_child_order_is_replay (m : Mem) (ops : List TreeOp)
    (hfresh : ∀ p, m.count p = 0)
    (hl : ∀ op ∈ ops, ∀ q ∈ op.ptrs, q = 0 ∨ m.live q) :
    ∃ m', run_ops m ops = Res.ok m' ∧
      ∀ p, m'.kids p = replay (fun _ => []) ops p := by
  obtain ⟨m', hr, hI, _⟩ :=
    replay_sound ops m (fun _ => []) (fun p => kids_of_count_zero m p (hfresh p)) hl
  exact ⟨m', hr, hI⟩

theorem scene_fresh_count : ∀ p, scene_fresh.count p = 0 := by
  unfold scene_fresh lumi_text lumi_column
  apply view_alloc_text_count
  apply view_alloc_text_count
  apply view_alloc_count
  intro p
  rfl

/-- C4 on the column 1 and the texts 2 and 3, all fresh: add 2, add 3, add 2
again, remove 2 (the first occurrence goes), remove the absent 1, add to a
null parent; the child order of the column is 3, 2. -/
theorem run_ops_child_order_is_replay_witness :
    replay (fun _ => [])
      [TreeOp.add_child 1 2, TreeOp.add_child 1 3, TreeOp.add_child 1 2,
        TreeOp.remove_child 1 2, TreeOp.remove_child 1 1, TreeOp.add_child 0 3] 1 = [3, 2] ∧
    ∃ m', run_ops scene_fresh
      [TreeOp.add_child 1 2, TreeOp.add_child 1 3, TreeOp.add_child 1 2,
        TreeOp.remove_child 1 2, TreeOp.remove_child 1 1, TreeOp.add_child 0 3] = Res.ok m' ∧
      ∀ p, m'.kids p = replay (fun _ => [])
        [TreeOp.add_child 1 2, TreeOp.add_child 1 3, TreeOp.add_child 1 2,
          TreeOp.remove_child 1 2, TreeOp.remove_child 1 1, TreeOp.add_child 0 3] p :=
  ⟨by decide,
    run_ops_child_order_is_replay scene_fresh _ scene_fresh_count (by decide)⟩

/-! ## Recursive destruction -/

theorem subtree_frame {m m' : Mem} {p : Ptr} {ns : List Ptr} (h : Subtree m p ns)
    (hag : ∀ q ∈ ns, m'.heap q = m.heap q) : Subtree m' p ns := by
  induction h with
  | node p v kids hp hv hlen _ ih =>
    refine Subtree.node p v kids hp ?_ hlen ?_
    · rw [hag p (by simp)]
      exact hv
    · intro i hi
      apply ih i hi
      intro q hq
      apply hag
      simp only [List.mem_append, List.mem_flatten, List.mem_singleton]
      exact Or.inl ⟨_, List.get_mem kids i hi, hq⟩

theorem subtree_root_mem {m : Mem} {p : Ptr} {ns : List Ptr} (h : Subtree m p ns) :
    p ∈ ns := by
  cases h
  simp

theorem subtree_root_ne_zero {m : Mem} {p : Ptr} {ns : List Ptr} (h : Subtree m p ns) :
    p ≠ 0 := by
  cases h
  assumption

theorem subtree_all_live {m : Mem} {p : Ptr} {ns : List Ptr} (h : Subtree m p ns) :
    ∀ q ∈ ns, m.live q := by
  induction h with
  | node p v kids hp hv hlen _ ih =>
    intro q hq
    simp only [List.mem_append, List.mem_flatten, List.mem_singleton] at hq
    rcases hq with ⟨l, hl, hql⟩ | rfl
    · obtain ⟨i, hi, rfl⟩ := List.getElem_of_mem hl
      exact ih i hi q hql
    · exact live_of_heap hv

theorem free_all_nil (m : Mem) : m.free_all [] = m := by
  simp [Mem.free_all]

theorem free_all_append (m : Mem) (xs ys : List Ptr) :
    (m.free_all xs).free_all ys = m.free_all (xs ++ ys) := by
  simp only [Mem.free_all, List.append_assoc, List.mem_append]
  congr 1
  funext q
  by_cases h1 : q ∈ xs <;> by_cases h2 : q ∈ ys <;> simp [h1, h2]

theorem free_all_heap_of_not_mem (m : Mem) {ns : List Ptr} {q : Ptr} (h : q ∉ ns) :
    (m.free_all ns).heap q = m.heap q := by
  show (if q ∈ ns then none else m.heap q) = m.heap q
  rw [if_neg h]

theorem free_all_heap_of_mem (m : Mem) {ns : List Ptr} {q : Ptr} (h : q ∈ ns) :
    (m.free_all ns).heap q = none := by
  show (if q ∈ ns then none else m.heap q) = none
  rw [if_pos h]

theorem free_eq_free_all (m : Mem) (p : Ptr) : m.free p = m.free_all [p] := by
  simp [Mem.free, Mem.free_all]

theorem length_le_length_flatten (kids : List (List Ptr)) (h : ∀ l ∈ kids, l ≠ []) :
    kids.length ≤ kids.flatten.length := by
  induction kids with
  | nil => simp
  | cons l ls ih =>
    have h1 : l ≠ [] := h l (List.mem_cons_self _ _)
    have h2 := ih (fun x hx => h x (List.mem_cons_of_mem _ hx))
    have h3 : 0 < l.length := List.length_pos.mpr h1
    simp only [List.flatten_cons, List.length_cons, List.length_append]
    omega

theorem length_le_flatten_of_mem (kids : List (List Ptr)) (l : List Ptr) (h : l ∈ kids) :
    l.length ≤ kids.flatten.length :=
  (List.sublist_flatten_of_mem h).length_le

theorem nodup_flatten_disjoint {kids : List (List Ptr)} (hnd : kids.flatten.Nodup)
    {i j : Nat} (hi : i < kids.length) (hj : j < kids.length) (hij : i ≠ j) {x : Ptr}
    (hxi : x ∈ kids.get ⟨i, hi⟩) (hxj : x ∈ kids.get ⟨j, hj⟩) : False := by
  have hpw := (List.nodup_flatten.mp hnd).2
  rw [List.pairwise_iff_getElem] at hpw
  rcases Nat.lt_or_gt_of_ne hij with h | h
  · exact hpw i j hi hj h hxi hxj
  · exact hpw j i hj hi h hxj hxi

/-- The child loop of `lumi_view_destroy` on a node whose children are roots
of disjoint trees, when the recursive call frees such trees. -/
theorem destroy_children_tree (destroy : Mem → Ptr → Res Mem) (bound : Nat)
    (m : Mem) (p : Ptr) (v : lumi_view) (kids : List (List Ptr))
    (hrec : ∀ (m1 : Mem) (c : Ptr) (ns : List Ptr), Subtree m1 c ns → ns.Nodup →
      ns.length < bound → destroy m1 c = Res.ok (m1.free_all ns))
    (hv : m.heap p = some v) (hlen : kids.length = v.child_count)
    (hsub : ∀ (i : Nat) (h : i < kids.length), Subtree m (v.children i) (kids.get ⟨i, h⟩))
    (hnd : (kids.flatten ++ [p]).Nodup) (hb : kids.flatten.length < bound) :
    ∀ (d i k : Nat), i + d = kids.length → d < k →
      destroy_children destroy k (m.free_all (kids.take i).flatten) p i =
        Res.ok (m.free_all kids.flatten) := by
  have hnd' : kids.flatten.Nodup := (List.nodup_append.mp hnd).1
  have hp : p ∉ kids.flatten := by
    intro h
    exact (List.nodup_append.mp hnd).2.2 h (List.mem_singleton_self p) 
  have hheap : ∀ i, (m.free_all (kids.take i).flatten).heap p = some v := by
    intro i
    have : p ∉ (kids.take i).flatten := by
      intro h
      apply hp
      obtain ⟨l, hl, hpl⟩ := List.mem_flatten.mp h
      exact List.mem_flatten.mpr ⟨l, List.mem_of_mem_take hl, hpl⟩
    rw [free_all_heap_of_not_mem m this, hv]
  intro d
  induction d with
  | zero =>
    intro i k hi hk
    obtain ⟨k', rfl⟩ : ∃ k', k = k' + 1 := ⟨k - 1, by omega⟩
    have hik : i = kids.length := by omega
    rw [destroy_children, hheap i]
    simp only
    rw [if_neg (by omega), hik, List.take_length]
  | succ d ih =>
    intro i k hi hk
    obtain ⟨k', rfl⟩ : ∃ k', k = k' + 1 := ⟨k - 1, by omega⟩
    have hilt : i < kids.length := by omega
    rw [destroy_children, hheap i]
    simp only
    rw [if_pos (by omega)]
    have hsubi : Subtree (m.free_all (kids.take i).flatten) (v.children i)
        (kids.get ⟨i, hilt⟩) := by
      apply subtree_frame (hsub i hilt)
      intro q hq
      have : q ∉ (kids.take i).flatten := by
        intro h
        obtain ⟨l, hl, hql⟩ := List.mem_flatten.mp h
        obtain ⟨j, hj, rfl⟩ := List.getElem_of_mem hl
        have hj' : j < i := by
          simp only [List.length_take] at hj
          omega
        have hjl : j < kids.length := by omega
        rw [List.getElem_take] at hql
        exact nodup_flatten_disjoint hnd' hilt hjl (by omega) hq hql
      exact free_all_heap_of_not_mem m this
    have hndi : (kids.get ⟨i, hilt⟩).Nodup :=
      (List.nodup_flatten.mp hnd').1 _ (List.get_mem kids i hilt)
    have hleni : (kids.get ⟨i, hilt⟩).length < bound :=
      lt_of_le_of_lt (length_le_flatten_of_mem kids _ (List.get_mem kids i hilt)) hb
    rw [hrec _ _ _ hsubi hndi hleni]
    simp only
    rw [free_all_append]
    have htake : (kids.take i).flatten ++ kids.get ⟨i, hilt⟩ = (kids.take (i + 1)).flatten := by
      rw [← List.take_concat_get kids i hilt, List.concat_eq_append, List.flatten_concat]
      rfl
    rw [htake]
    exact ih (i + 1) k' (by omega) (by omega)

/-- Destroying the root of a tree without sharing frees its nodes in
post-order and nothing else. -/
theorem destroy_tree : ∀ (fuel : Nat) (m : Mem) (p : Ptr) (ns : List Ptr),
    Subtree m p ns → ns.Nodup → ns.length < fuel →
    lumi_view_destroy fuel m p = Res.ok (m.free_all ns) := by
  intro fuel
  induction fuel with
  | zero =>
    intro m p ns _ _ hlt
    omega
  | succ fuel ih =>
    intro m p ns ht hnd hlt
    cases ht with
    | node p v kids hp hv hlen hsub =>
      have hne : ∀ l ∈ kids, l ≠ [] := by
        intro l hl
        obtain ⟨i, hi, rfl⟩ := List.getElem_of_mem hl
        exact List.ne_nil_of_mem (subtree_root_mem (hsub i hi))
      have hcnt := length_le_length_flatten kids hne
      simp only [List.length_append, List.length_singleton] at hlt
      have hloop := destroy_children_tree (lumi_view_destroy fuel) fuel m p v kids
        (fun m1 c ns1 h1 h2 h3 => ih m1 c ns1 h1 h2 h3) hv hlen hsub hnd (by omega)
        kids.length 0 fuel (by omega) (by omega)
      simp only [List.take_zero, List.flatten_nil, free_all_nil] at hloop
      rw [lumi_view_destroy, if_neg hp, hloop]
      simp only
      have hpn : p ∉ kids.flatten := by
        intro h
        exact (List.nodup_append.mp hnd).2.2 h (List.mem_singleton_self p)
      have hh : (m.free_all kids.flatten).heap p = some v := by
        rw [free_all_heap_of_not_mem m hpn, hv]
      rw [hh]
      simp only
      rw [free_eq_free_all, free_all_append]

theorem subtree_child_mem {m : Mem} {r : Ptr} {ns : List Ptr} (h : Subtree m r ns) :
    ∀ q ∈ ns, ∀ c ∈ m.kids q, ∃ pre, ns = pre ++ [r] ∧ c ∈ pre := by
  induction h with
  | node p v kids hp hv hlen hsub ih =>
    intro q hq c hc
    refine ⟨kids.flatten, rfl, ?_⟩
    simp only [List.mem_append, List.mem_flatten, List.mem_singleton] at hq
    rcases hq with ⟨l, hl, hql⟩ | rfl
    · obtain ⟨i, hi, rfl⟩ := List.getElem_of_mem hl
      obtain ⟨pre, hpre, hcpre⟩ := ih i hi q hql c hc
      apply List.mem_flatten.mpr
      refine ⟨kids.get ⟨i, hi⟩, List.get_mem kids i hi, ?_⟩
      rw [hpre]
      exact List.mem_append_left _ hcpre
    · rw [kids_of_heap hv, child_seq] at hc
      obtain ⟨i, hi, rfl⟩ := List.mem_map.mp hc
      have hi' : i < kids.length := by
        rw [hlen]
        exact List.mem_range.mp hi
      exact List.mem_flatten.mpr ⟨_, List.get_mem kids i hi', subtree_root_mem (hsub i hi')⟩

/-- In a tree without sharing no node lists the root as a child. -/
theorem subtree_parent_not_mem {m : Mem} {c p : Ptr} {ns : List Ptr} (h : Subtree m c ns)
    (hnd : ns.Nodup) (hmem : c ∈ m.kids p) : p ∉ ns := by
  intro hp
  obtain ⟨pre, hpre, hc⟩ := subtree_child_mem h p hp c hmem
  rw [hpre] at hnd
  exact (List.nodup_append.mp hnd).2.2 hc (List.mem_singleton_self c)

/-- C5: for every node `p` whose subtree is a tree of live nodes without
sharing, with nodes `ns` (`n = ns.length` of them, at any depth), and every
fuel above `n`, `lumi_view_destroy(p)` returns; the frees it performs are
exactly `ns` (children first, the node last), so every node of the subtree
is freed exactly once and no node outside the subtree is freed or changed. -/
theorem lumi_view_destroy_frees_subtree (m : Mem) (p : Ptr) (ns : List Ptr) (fuel : Nat)
    (ht : Subtree m p ns) (hnd : ns.Nodup) (hf : ns.length < fuel) :
    ∃ m', lumi_view_destroy fuel m p = Res.ok m' ∧
      m'.freed = m.freed ++ ns ∧
      (∀ q, m'.freed.count q = m.freed.count q + if q ∈ ns then 1 else 0) ∧
      (∀ q ∈ ns, ¬ m'.live q) ∧
      (∀ q, q ∉ ns → m'.heap q = m.heap q) := by
  refine ⟨m.free_all ns, destroy_tree fuel m p ns ht hnd hf, rfl, ?_, ?_, ?_⟩
  · intro q
    show (m.freed ++ ns).count q = _
    rw [List.count_append]
    by_cases hq : q ∈ ns
    · rw [if_pos hq, List.count_eq_one_of_mem hnd hq]
    · rw [if_neg hq, List.count_eq_zero_of_not_mem hq]
  · intro q hq
    simp [Mem.live, free_all_heap_of_mem m hq]
  · intro q hq
    exact free_all_heap_of_not_mem m hq

theorem scene_tree_subtree : Subtree scene_tree 1 [2, 3, 1] := by
  refine Subtree.node 1 _ [[2], [3]] (by decide) rfl rfl ?_
  intro i hi
  match i, hi with
  | 0, _ => exact Subtree.node 2 _ [] (by decide) rfl rfl (fun j hj => absurd hj (by simp))
  | 1, _ => exact Subtree.node 3 _ [] (by decide) rfl rfl (fun j hj => absurd hj (by simp))
  | n + 2, h => exact absurd h (by simp)

/-- C5 on the column 1 with the children 2 and 3: destroying the column
frees 2, 3 and 1, once each. -/
theorem lumi_view_destroy_frees_subtree_witness :
    (Subtree scene_tree 1 [2, 3, 1] ∧ [2, 3, 1].Nodup ∧ [2, 3, 1].length < 4) ∧
    ∃ m', lumi_view_destroy 4 scene_tree 1 = Res.ok m' ∧
      m'.freed = scene_tree.freed ++ [2, 3, 1] ∧
      (∀ q, m'.freed.count q = scene_tree.freed.count q + if q ∈ [2, 3, 1] then 1 else 0) ∧
      (∀ q ∈ [2, 3, 1], ¬ m'.live q) ∧
      (∀ q, q ∉ [2, 3, 1] → m'.heap q = scene_tree.heap q) :=
  ⟨⟨scene_tree_subtree, by decide, by decide⟩,
    lumi_view_destroy_frees_subtree scene_tree 1 [2, 3, 1] 4 scene_tree_subtree
      (by decide) (by decide)⟩

/-- C7: for every node `c` whose subtree is a tree of live nodes without
sharing and every node `p` whose child list contains `c`,
`lumi_view_destroy(c)` returns and leaves the object `p` as it was: the
child sequence and the child count of `p` are unchanged and `c`, now
freed, is still listed as a child of `p`. -/
theorem lumi_view_destroy_keeps_parent_list (m : Mem) (p c : Ptr) (ns : List Ptr)
    (fuel : Nat) (ht : Subtree m c ns) (hnd : ns.Nodup) (hf : ns.length < fuel)
    (hmem : c ∈ m.kids p) :
    ∃ m', lumi_view_destroy fuel m c = Res.ok m' ∧
      m'.heap p = m.heap p ∧ m'.kids p = m.kids p ∧ m'.count p = m.count p ∧
      c ∈ m'.kids p ∧ ¬ m'.live c ∧ c ∈ m'.freed := by
  have hp : p ∉ ns := subtree_parent_not_mem ht hnd hmem
  have hc : c ∈ ns := subtree_root_mem ht
  have hheap : (m.free_all ns).heap p = m.heap p := free_all_heap_of_not_mem m hp
  refine ⟨m.free_all ns, destroy_tree fuel m c ns ht hnd hf, hheap, ?_, ?_, ?_, ?_, ?_⟩
  · simp only [Mem.kids, hheap]
  · simp only [Mem.count, hheap]
  · simpa only [Mem.kids, hheap] using hmem
  · simp [Mem.live, free_all_heap_of_mem m hc]
  · show c ∈ m.freed ++ ns
    exact List.mem_append_right _ hc

theorem scene_tree_leaf : Subtree scene_tree 2 [2] :=
  Subtree.node 2 _ [] (by decide) rfl rfl (fun j hj => absurd hj (by simp))

/-- C7 on the column 1 with the children 2 and 3: destroying the text 2
while it is attached leaves the child list of the column at 2, 3. -/
theorem lumi_view_destroy_keeps_parent_list_witness :
    (Subtree scene_tree 2 [2] ∧ 2 ∈ scene_tree.kids 1 ∧ scene_tree.kids 1 = [2, 3]) ∧
    ∃ m', lumi_view_destroy 2 scene_tree 2 = Res.ok m' ∧
      m'.heap 1 = scene_tree.heap 1 ∧ m'.kids 1 = scene_tree.kids 1 ∧
      m'.count 1 = scene_tree.count 1 ∧
      2 ∈ m'.kids 1 ∧ ¬ m'.live 2 ∧ 2 ∈ m'.freed :=
  ⟨⟨scene_tree_leaf, by decide, by decide⟩,
    lumi_view_destroy_keeps_parent_list scene_tree 1 2 [2] 2 scene_tree_leaf (by decide)
      (by decide) (by decide)⟩

/-! ## Removal followed by destruction -/

theorem flatten_sublist_of_sublist {l1 l2 : List (List Ptr)} (h : l1.Sublist l2) :
    l1.flatten.Sublist l2.flatten := by
  induction h with
  | slnil => simp
  | cons a _ ih =>
    rw [List.flatten_cons]
    exact ih.trans (List.sublist_append_right _ _)
  | cons₂ a _ ih =>
    rw [List.flatten_cons, List.flatten_cons]
    exact List.Sublist.append (List.Sublist.refl a) ih

theorem get_eraseIdx_cases (l : List (List Ptr)) (i j : Nat) (hi : i < l.length)
    (hj : j < (l.eraseIdx i).length) :
    ∃ (j' : Nat) (h : j' < l.length), j' ≠ i ∧ j' = (if j < i then j else j + 1) ∧
      (l.eraseIdx i).get ⟨j, hj⟩ = l.get ⟨j', h⟩ := by
  have hlen := List.length_eraseIdx_of_lt hi
  by_cases hji : j < i
  · refine ⟨j, by omega, by omega, by simp [hji], ?_⟩
    simp only [List.get_eq_getElem]
    exact List.getElem_eraseIdx_of_lt l i j hj hji
  · refine ⟨j + 1, by omega, by omega, by simp [hji], ?_⟩
    simp only [List.get_eq_getElem]
    exact List.getElem_eraseIdx_of_ge l i j hj (by omega)

/-- Removing a child from the root of a tree without sharing leaves a tree
without sharing that no longer contains the removed child. -/
theorem subtree_after_remove (m : Mem) (p c : Ptr) (ns : List Ptr)
    (ht : Subtree m p ns) (hnd : ns.Nodup) (hmem : c ∈ m.kids p) :
    ∃ m1 ns1, lumi_view_remove_child m p c = Res.ok m1 ∧
      Subtree m1 p ns1 ∧ ns1.Nodup ∧ ns1.length ≤ ns.length ∧ c ∉ ns1 ∧
      (∀ d ∈ m1.kids p, d ∈ ns1) ∧ m1.kids p = (m.kids p).erase c ∧
      m1.freed = m.freed ∧ m1.live c ∧ m1.parent_of c = 0 := by
  cases ht with
  | node p v kids hp hv hlen hsub =>
    rw [kids_of_heap hv] at hmem
    have hnd' : kids.flatten.Nodup := (List.nodup_append.mp hnd).1
    have hpn : p ∉ kids.flatten := by
      intro h
      exact (List.nodup_append.mp hnd).2.2 h (List.mem_singleton_self p)
    cases hf : find_child v.children c v.child_count 0 with
    | none =>
      exfalso
      have := find_child_none _ _ _ _ hf
      rw [← child_seq_eq_range'] at this
      exact this hmem
    | some i =>
      obtain ⟨_, hi, hci, herase⟩ := find_child_some _ _ _ _ _ hf
      rw [← child_seq_eq_range'] at herase
      simp only [Nat.zero_add] at hi herase
      have hik : i < kids.length := by omega
      have hcsub : Subtree m c (kids.get ⟨i, hik⟩) := hci ▸ hsub i hik
      have hcin : c ∈ kids.get ⟨i, hik⟩ := subtree_root_mem hcsub
      have hc0 : c ≠ 0 := subtree_root_ne_zero hcsub
      have hcflat : c ∈ kids.flatten :=
        List.mem_flatten.mpr ⟨_, List.get_mem kids i hik, hcin⟩
      have hpc : p ≠ c := fun e => hpn (e ▸ hcflat)
      have hcp : c ≠ p := fun e => hpc e.symm
      obtain ⟨cv, hcv⟩ := (live_iff m c).mp (subtree_all_live hcsub c hcin)
      have heval := remove_child_eval m p c v cv i hp hc0 hv hcv hf
      have hview : remove_child_view p c v cv i = { v with
          children := shift_left v.children (v.child_count - 1 - i) i,
          child_count := v.child_count - 1 } := by
        simp [remove_child_view, hpc]
      have hheapp : (remove_child_mem m p c v cv i).heap p =
          some (remove_child_view p c v cv i) := by
        simp [remove_child_mem, Mem.store]
      have hheapc : (remove_child_mem m p c v cv i).heap c = some { cv with parent := 0 } := by
        simp [remove_child_mem, Mem.store, hcp]
      have hother : ∀ q, q ≠ p → q ≠ c → (remove_child_mem m p c v cv i).heap q = m.heap q := by
        intro q h1 h2
        simp [remove_child_mem, Mem.store, h1, h2]
      have hlen1 : (kids.eraseIdx i).length = v.child_count - 1 := by
        rw [List.length_eraseIdx_of_lt hik, hlen]
      have hsub1 : ∀ (j : Nat) (h : j < (kids.eraseIdx i).length),
          Subtree (remove_child_mem m p c v cv i)
            ((remove_child_view p c v cv i).children j) ((kids.eraseIdx i).get ⟨j, h⟩) := by
        intro j hj
        obtain ⟨j', hj', hne, hjdef, hget⟩ := get_eraseIdx_cases kids i j hik hj
        have hchild : (remove_child_view p c v cv i).children j = v.children j' := by
          rw [hview]
          simp only
          rw [shift_left_apply, hjdef]
          by_cases hji : j < i
          · rw [if_neg (by omega), if_pos hji]
          · rw [if_pos (by omega), if_neg hji]
        rw [hchild, hget]
        apply subtree_frame (hsub j' hj')
        intro q hq
        apply hother
        · intro e
          exact hpn (List.mem_flatten.mpr ⟨_, List.get_mem kids j' hj', e ▸ hq⟩)
        · intro e
          exact nodup_flatten_disjoint hnd' hj' hik hne hq (e ▸ hcin)
      have hsubl : (kids.eraseIdx i).flatten.Sublist kids.flatten :=
        flatten_sublist_of_sublist (List.eraseIdx_sublist kids i)
      have hcn : c ∉ (kids.eraseIdx i).flatten := by
        intro h
        obtain ⟨l, hl, hcl⟩ := List.mem_flatten.mp h
        obtain ⟨j, hj, rfl⟩ := List.getElem_of_mem hl
        obtain ⟨j', hj', hne, _, hget⟩ := get_eraseIdx_cases kids i j hik hj
        have hcl' : c ∈ kids.get ⟨j', hj'⟩ := by
          rw [← hget]
          exact hcl
        exact nodup_flatten_disjoint hnd' hj' hik hne hcl' hcin
      refine ⟨remove_child_mem m p c v cv i, (kids.eraseIdx i).flatten ++ [p], heval,
        Subtree.node p _ (kids.eraseIdx i) hp hheapp (by rw [hlen1, hview]) hsub1,
        ?_, ?_, ?_, ?_, ?_, rfl, live_of_heap hheapc, ?_⟩
      · exact hnd.sublist (List.Sublist.append hsubl (List.Sublist.refl _))
      · simp only [List.length_append, List.length_singleton]
        have := hsubl.length_le
        omega
      · simp only [List.mem_append, List.mem_singleton, not_or]
        exact ⟨hcn, hcp⟩
      · intro d hd
        rw [kids_of_heap hheapp, child_seq] at hd
        obtain ⟨j, hj, rfl⟩ := List.mem_map.mp hd
        have hj1 : j < (kids.eraseIdx i).length := by
          rw [hlen1]
          have := List.mem_range.mp hj
          rw [hview] at this
          exact this
        apply List.mem_append_left
        exact List.mem_flatten.mpr
          ⟨_, List.get_mem _ j hj1, subtree_root_mem (hsub1 j hj1)⟩
      · rw [kids_of_heap hheapp, kids_of_heap hv, herase, hview, child_seq_eq_range']
      · rw [parent_of_heap hheapc]

/-- C6, as stated, fails: pairwise distinct children of `p` do not keep a
removed child out of the destruction when it is also listed further down. In
the scene with the columns 1 and 2 and the text 3, after
`lumi_view_add_child(1, 3)`, `lumi_view_add_child(1, 2)` and
`lumi_view_add_child(2, 3)` the column 1 has the two distinct children 3 and
2, and the column 2 lists 3 as well. `lumi_view_remove_child(1, 3)` leaves 2
as the only child of 1, with 3 live; `lumi_view_destroy(1)` then returns
normally and frees 3 through the column 2, before 2 and 1: the removed node
is not live afterwards. -/
theorem remove_then_destroy_frees_removed_counterexample :
    ∃ m m1 m2,
      run_ops scene_two_columns
        [TreeOp.add_child 1 3, TreeOp.add_child 1 2, TreeOp.add_child 2 3] = Res.ok m ∧
      m.kids 1 = [3, 2] ∧ (m.kids 1).Nodup ∧ m.kids 2 = [3] ∧
      lumi_view_remove_child m 1 3 = Res.ok m1 ∧
      m1.kids 1 = [2] ∧ m1.live 3 ∧ m1.parent_of 3 = 0 ∧
      lumi_view_destroy 4 m1 1 = Res.ok m2 ∧
      m2.freed = [3, 2, 1] ∧ ¬ m2.live 3 :=
  ⟨_, _, _, rfl, by decide, by decide, by decide, rfl, by decide, by decide, by decide, rfl,
    by decide, by decide⟩

/-- C6, amended: for every parent `p` whose subtree is a tree of live nodes
without sharing (no node is listed twice in it, so the children of `p` are
pairwise distinct and none of them is listed further down) and every child
`c` of `p`, `lumi_view_remove_child(p, c)` followed by `lumi_view_destroy(p)`
returns; the frees performed contain `p` and every remaining child of `p`,
each once, and not `c`: `c` is still live, with a cleared parent
back-reference, and is owned by the caller. -/
theorem remove_then_destroy_spares_removed (m : Mem) (p c : Ptr) (ns : List Ptr)
    (fuel : Nat) (ht : Subtree m p ns) (hnd : ns.Nodup) (hf : ns.length < fuel)
    (hmem : c ∈ m.kids p) :
    ∃ m1 m2 ns1, lumi_view_remove_child m p c = Res.ok m1 ∧
      lumi_view_destroy fuel m1 p = Res.ok m2 ∧
      m2.freed = m.freed ++ ns1 ∧ ns1.Nodup ∧
      p ∈ ns1 ∧ (∀ d ∈ (m.kids p).erase c, d ∈ ns1) ∧ c ∉ ns1 ∧
      (∀ q ∈ ns1, ¬ m2.live q) ∧
      m2.live c ∧ m2.parent_of c = 0 ∧ m2.heap c = m1.heap c := by
  obtain ⟨m1, ns1, hr, ht1, hnd1, hlen1, hc1, hk1, hkeq, hfr, hlc, hpc⟩ :=
    subtree_after_remove m p c ns ht hnd hmem
  have hd := destroy_tree fuel m1 p ns1 ht1 hnd1 (by omega)
  have hheapc : (m1.free_all ns1).heap c = m1.heap c := free_all_heap_of_not_mem m1 hc1
  refine ⟨m1, m1.free_all ns1, ns1, hr, hd, ?_, hnd1, subtree_root_mem ht1, ?_, hc1, ?_, ?_, ?_,
    hheapc⟩
  · show m1.freed ++ ns1 = m.freed ++ ns1
    rw [hfr]
  · intro d hd'
    rw [← hkeq] at hd'
    exact hk1 d hd'
  · intro q hq
    simp [Mem.live, free_all_heap_of_mem m1 hq]
  · simpa only [Mem.live, hheapc] using hlc
  · simpa only [Mem.parent_of, hheapc] using hpc

/-- C6, amended, on the scenario of `test_view_tree`: the column 1 with the texts "A"
at 2 and "B" at 3; after removing 2 and destroying 1 the frees are 3 and 1,
and 2 is still live. -/
theorem remove_then_destroy_spares_removed_witness :
    (Subtree scene_tree 1 [2, 3, 1] ∧ 2 ∈ scene_tree.kids 1) ∧
    ∃ m1 m2 ns1, lumi_view_remove_child scene_tree 1 2 = Res.ok m1 ∧
      lumi_view_destroy 4 m1 1 = Res.ok m2 ∧
      m2.freed = scene_tree.freed ++ ns1 ∧ ns1.Nodup ∧
      1 ∈ ns1 ∧ (∀ d ∈ (scene_tree.kids 1).erase 2, d ∈ ns1) ∧ 2 ∉ ns1 ∧
      (∀ q ∈ ns1, ¬ m2.live q) ∧
      m2.live 2 ∧ m2.parent_of 2 = 0 ∧ m2.heap 2 = m1.heap 2 :=
  ⟨⟨scene_tree_subtree, by decide⟩,
    remove_then_destroy_spares_removed scene_tree 1 2 [2, 3, 1] 4 scene_tree_subtree
      (by decide) (by decide) (by decide)⟩

/-! ## Constructors and content -/

theorem view_alloc_creates (m : Mem) (a : Ptr) (ha : a ≠ 0) (ty : lumi_view_type_t) :
    creates (view_alloc m a ty) a ty none := by
  unfold creates view_alloc
  rw [if_neg ha]
  refine ⟨rfl, { zeroed with
      type := ty, visible := true, font_size := 14,
      foreground := 0x000000FF, background := 0x00000000 }, ?_, ?_, rfl⟩
  · simp [Mem.store]
  · simp [has_defaults, zeroed, child_seq, rgba_red, rgba_green, rgba_blue, rgba_alpha]

theorem view_alloc_text_creates (m : Mem) (a : Ptr) (ha : a ≠ 0) (ty : lumi_view_type_t)
    (s : Option String) : creates (view_alloc_text m a ty s) a ty s := by
  cases s with
  | none => exact view_alloc_creates m a ha ty
  | some str =>
    have e : view_alloc_text m a ty (some str) =
        ((m.store a { zeroed with
          type := ty, visible := true, font_size := 14,
          foreground := 0x000000FF, background := 0x00000000 }).store a { zeroed with
          type := ty, visible := true, font_size := 14,
          foreground := 0x000000FF, background := 0x00000000, text := strdup str }, a) := by
      simp [view_alloc_text, view_alloc, ha, Mem.store]
    unfold creates
    rw [e]
    refine ⟨rfl, { zeroed with
      type := ty, visible := true, font_size := 14,
      foreground := 0x000000FF, background := 0x00000000, text := some str }, ?_, ?_, rfl⟩
    · simp [Mem.store, strdup]
    · simp [has_defaults, zeroed, child_seq, rgba_red, rgba_green, rgba_blue, rgba_alpha]

/-- C9: when the allocation succeeds (`calloc` returns `a ≠ NULL`), every
view constructor returns the handle of a node whose type is the
constructor's kind, with visible = true, font size 14, foreground
`0x000000FF` (R = G = B = 0, A = `0xFF`), background `0x00000000` (alpha 0),
border radius 0, no id, no children, no parent and no callbacks; the content
is the constructor's argument for text, button, image and text field, and
absent for the containers. -/
theorem constructors_give_defaults (m : Mem) (a : Ptr) (ha : a ≠ 0) (s : Option String) :
    creates (lumi_column m a) a LUMI_VIEW_COLUMN none ∧
    creates (lumi_row m a) a LUMI_VIEW_ROW none ∧
    creates (lumi_stack m a) a LUMI_VIEW_STACK none ∧
    creates (lumi_scroll m a) a LUMI_VIEW_SCROLL none ∧
    creates (lumi_spacer m a) a LUMI_VIEW_SPACER none ∧
    creates (lumi_divider m a) a LUMI_VIEW_DIVIDER none ∧
    creates (lumi_card m a) a LUMI_VIEW_CARD none ∧
    creates (lumi_text m a s) a LUMI_VIEW_TEXT s ∧
    creates (lumi_button m a s) a LUMI_VIEW_BUTTON s ∧
    creates (lumi_image m a s) a LUMI_VIEW_IMAGE s ∧
    creates (lumi_text_field m a s) a LUMI_VIEW_TEXT_FIELD s := by
  unfold lumi_column lumi_row lumi_stack lumi_scroll lumi_spacer lumi_divider lumi_card
    lumi_text lumi_button lumi_image lumi_text_field
  exact ⟨view_alloc_creates m a ha _, view_alloc_creates m a ha _, view_alloc_creates m a ha _,
    view_alloc_creates m a ha _, view_alloc_creates m a ha _, view_alloc_creates m a ha _,
    view_alloc_creates m a ha _, view_alloc_text_creates m a ha _ s,
    view_alloc_text_creates m a ha _ s, view_alloc_text_creates m a ha _ s,
    view_alloc_text_creates m a ha _ s⟩

/-- C9 in the empty memory, at address 7 with the content "Hello". -/
theorem constructors_give_defaults_witness :
    (7 : Ptr) ≠ 0 ∧
    (creates (lumi_column Mem.empty 7) 7 LUMI_VIEW_COLUMN none ∧
    creates (lumi_row Mem.empty 7) 7 LUMI_VIEW_ROW none ∧
    creates (lumi_stack Mem.empty 7) 7 LUMI_VIEW_STACK none ∧
    creates (lumi_scroll Mem.empty 7) 7 LUMI_VIEW_SCROLL none ∧
    creates (lumi_spacer Mem.empty 7) 7 LUMI_VIEW_SPACER none ∧
    creates (lumi_divider Mem.empty 7) 7 LUMI_VIEW_DIVIDER none ∧
    creates (lumi_card Mem.empty 7) 7 LUMI_VIEW_CARD none ∧
    creates (lumi_text Mem.empty 7 (some "Hello")) 7 LUMI_VIEW_TEXT (some "Hello") ∧
    creates (lumi_button Mem.empty 7 (some "Hello")) 7 LUMI_VIEW_BUTTON (some "Hello") ∧
    creates (lumi_image Mem.empty 7 (some "Hello")) 7 LUMI_VIEW_IMAGE (some "Hello") ∧
    creates (lumi_text_field Mem.empty 7 (some "Hello")) 7 LUMI_VIEW_TEXT_FIELD
      (some "Hello")) :=
  ⟨by decide, constructors_give_defaults Mem.empty 7 (by decide) (some "Hello")⟩

theorem get_content_of_heap {m : Mem} {view : Ptr} {v : lumi_view} (hv : view ≠ 0)
    (h : m.heap view = some v) :
    lumi_text_get_content m view = Res.ok v.text ∧
      lumi_text_field_get_value m view = Res.ok v.text := by
  simp [lumi_text_get_content, lumi_text_field_get_value, hv, h]

/-- C10: for every live node, `lumi_text_get_content` and
`lumi_text_field_get_value` both return the content field; after
`lumi_text_set_content(view, s)` and after `lumi_text_field_set_value(view, s)`
they return `s` (null when `s` is null), whatever was stored before, and on
the handle returned by `lumi_text`, `lumi_button`, `lumi_image` or
`lumi_text_field` called with `s` (allocation at `a` succeeding) they
return `s`. -/
theorem content_getters_return_last_stored (m : Mem) (view a : Ptr) (s : Option String)
    (hv : view ≠ 0) (hl : m.live view) (ha : a ≠ 0) :
    (∃ v, m.heap view = some v ∧ lumi_text_get_content m view = Res.ok v.text ∧
      lumi_text_field_get_value m view = Res.ok v.text) ∧
    (∃ m1, lumi_text_set_content m view s = Res.ok m1 ∧
      lumi_text_get_content m1 view = Res.ok s ∧
      lumi_text_field_get_value m1 view = Res.ok s) ∧
    (∃ m1, lumi_text_field_set_value m view s = Res.ok m1 ∧
      lumi_text_get_content m1 view = Res.ok s ∧
      lumi_text_field_get_value m1 view = Res.ok s) ∧
    (∀ r ∈ [lumi_text m a s, lumi_button m a s, lumi_image m a s, lumi_text_field m a s],
      r.2 = a ∧ lumi_text_get_content r.1 r.2 = Res.ok s ∧
      lumi_text_field_get_value r.1 r.2 = Res.ok s) := by
  obtain ⟨v, hvv⟩ := (live_iff m view).mp hl
  refine ⟨⟨v, hvv, get_content_of_heap hv hvv⟩, ?_, ?_, ?_⟩
  · refine ⟨_, by simp only [lumi_text_set_content, if_neg hv, hvv]; rfl, ?_⟩
    cases s <;> simp [lumi_text_get_content, lumi_text_field_get_value, hv, Mem.store, strdup]
  · by_cases hcb : v.on_text_change_cb = 0
    · refine ⟨_, by simp only [lumi_text_field_set_value, if_neg hv, hvv, hcb]; rfl, ?_⟩
      cases s <;> simp [lumi_text_get_content, lumi_text_field_get_value, hv, Mem.store, strdup]
    · refine ⟨_, by simp only [lumi_text_field_set_value, if_neg hv, hvv]; rw [if_pos hcb], ?_⟩
      cases s <;> simp [lumi_text_get_content, lumi_text_field_get_value, hv, Mem.store, strdup]
  · intro r hr
    have key : ∀ ty, (view_alloc_text m a ty s).2 = a ∧
        lumi_text_get_content (view_alloc_text m a ty s).1 (view_alloc_text m a ty s).2 =
          Res.ok s ∧
        lumi_text_field_get_value (view_alloc_text m a ty s).1 (view_alloc_text m a ty s).2 =
          Res.ok s := by
      intro ty
      obtain ⟨h1, w, hw, _, htext⟩ := view_alloc_text_creates m a ha ty s
      have := get_content_of_heap ha hw
      rw [htext] at this
      rw [h1]
      exact ⟨rfl, this⟩
    simp only [List.mem_cons, List.mem_singleton, List.not_mem_nil, or_false] at hr
    rcases hr with rfl | rfl | rfl | rfl
    · exact key _
    · exact key _
    · exact key _
    · exact key _

/-- C10 on the text at address 2 of three fresh nodes, with the new content
"updated", and on constructors allocating at address 7. -/
theorem content_getters_return_last_stored_witness :
    ((2 : Ptr) ≠ 0 ∧ scene_fresh.live 2 ∧ (7 : Ptr) ≠ 0) ∧
    ((∃ v, scene_fresh.heap 2 = some v ∧ lumi_text_get_content scene_fresh 2 = Res.ok v.text ∧
      lumi_text_field_get_value scene_fresh 2 = Res.ok v.text) ∧
    (∃ m1, lumi_text_set_content scene_fresh 2 (some "updated") = Res.ok m1 ∧
      lumi_text_get_content m1 2 = Res.ok (some "updated") ∧
      lumi_text_field_get_value m1 2 = Res.ok (some "updated")) ∧
    (∃ m1, lumi_text_field_set_value scene_fresh 2 (some "updated") = Res.ok m1 ∧
      lumi_text_get_content m1 2 = Res.ok (some "updated") ∧
      lumi_text_field_get_value m1 2 = Res.ok (some "updated")) ∧
    (∀ r ∈ [lumi_text scene_fresh 7 (some "updated"), lumi_button scene_fresh 7 (some "updated"),
        lumi_image scene_fresh 7 (some "updated"),
        lumi_text_field scene_fresh 7 (some "updated")],
      r.2 = 7 ∧ lumi_text_get_content r.1 r.2 = Res.ok (some "updated") ∧
      lumi_text_field_get_value r.1 r.2 = Res.ok (some "updated"))) :=
  ⟨⟨by decide, by decide, by decide⟩,
    content_getters_return_last_stored scene_fresh 2 7 (some "updated") (by decide)
      (by decide) (by decide)⟩

/-! ## Properties and event handlers -/

theorem with_view_ok {m : Mem} {view : Ptr} {v : lumi_view} (f : lumi_view → lumi_view)
    (hv : view ≠ 0) (h : m.heap view = some v) :
    with_view m view f = Res.ok (m.store view (f v)) := by
  simp [with_view, hv, h]

theorem read_view_ok {α : Type} {m : Mem} {view : Ptr} {v : lumi_view} (d : α)
    (f : lumi_view → α) (hv : view ≠ 0) (h : m.heap view = some v) :
    read_view m view d f = Res.ok (f v) := by
  simp [read_view, hv, h]

theorem store_heap_same (m : Mem) (p : Ptr) (v : lumi_view) :
    (m.store p v).heap p = some v := by
  simp [Mem.store]

theorem store_heap_other (m : Mem) {p q : Ptr} (v : lumi_view) (h : q ≠ p) :
    (m.store p v).heap q = m.heap q := by
  simp [Mem.store, h]

theorem set_id_eval {m : Mem} {view : Ptr} {v : lumi_view} (s : Option String)
    (hv : view ≠ 0) (h : m.heap view = some v) :
    lumi_view_set_id m view s = Res.ok (m.store view { v with id := s }) := by
  unfold lumi_view_set_id
  rw [with_view_ok _ hv h]
  cases s <;> rfl

/-- C11: for every live node `v`, `lumi_view_get_id` after
`lumi_view_set_id(v, s1)` then `lumi_view_set_id(v, s2)` returns `s2` (the
last set wins); after `lumi_view_set_id(v, NULL)` it returns null; and a
second live node `v2` can be given the same id `s`, after which both nodes
report `s`: uniqueness is not enforced. -/
theorem lumi_view_set_id_last_wins (m : Mem) (v v2 : Ptr) (s1 s2 s : Option String)
    (hv : v ≠ 0) (hl : m.live v) (hv2 : v2 ≠ 0) (hl2 : m.live v2) (hne : v ≠ v2) :
    (∃ m1 m2, lumi_view_set_id m v s1 = Res.ok m1 ∧ lumi_view_set_id m1 v s2 = Res.ok m2 ∧
      lumi_view_get_id m2 v = Res.ok s2 ∧
      ∃ m3, lumi_view_set_id m2 v none = Res.ok m3 ∧ lumi_view_get_id m3 v = Res.ok none) ∧
    (∃ m4 m5, lumi_view_set_id m v s = Res.ok m4 ∧ lumi_view_set_id m4 v2 s = Res.ok m5 ∧
      lumi_view_get_id m5 v = Res.ok s ∧ lumi_view_get_id m5 v2 = Res.ok s) := by
  obtain ⟨r, hr⟩ := (live_iff m v).mp hl
  obtain ⟨r2, hr2⟩ := (live_iff m v2).mp hl2
  constructor
  · refine ⟨_, _, set_id_eval s1 hv hr, set_id_eval s2 hv (store_heap_same _ _ _), ?_, _,
      set_id_eval none hv (store_heap_same _ _ _), ?_⟩
    · unfold lumi_view_get_id
      rw [read_view_ok _ _ hv (store_heap_same _ _ _)]
    · unfold lumi_view_get_id
      rw [read_view_ok _ _ hv (store_heap_same _ _ _)]
  · have h2 : (m.store v { r with id := s }).heap v2 = some r2 := by
      rw [store_heap_other _ _ (fun e => hne e.symm), hr2]
    refine ⟨_, _, set_id_eval s hv hr, set_id_eval s hv2 h2, ?_, ?_⟩
    · unfold lumi_view_get_id
      rw [read_view_ok _ _ hv (by rw [store_heap_other _ _ hne]; exact store_heap_same _ _ _)]
    · unfold lumi_view_get_id
      rw [read_view_ok _ _ hv2 (store_heap_same _ _ _)]

/-- C11 on the texts at 2 and 3 of three fresh nodes, with the ids
"my-text", "other" and "same". -/
theorem lumi_view_set_id_last_wins_witness :
    (scene_fresh.live 2 ∧ scene_fresh.live 3) ∧
    ((∃ m1 m2, lumi_view_set_id scene_fresh 2 (some "my-text") = Res.ok m1 ∧
      lumi_view_set_id m1 2 (some "other") = Res.ok m2 ∧
      lumi_view_get_id m2 2 = Res.ok (some "other") ∧
      ∃ m3, lumi_view_set_id m2 2 none = Res.ok m3 ∧ lumi_view_get_id m3 2 = Res.ok none) ∧
    (∃ m4 m5, lumi_view_set_id scene_fresh 2 (some "same") = Res.ok m4 ∧
      lumi_view_set_id m4 3 (some "same") = Res.ok m5 ∧
      lumi_view_get_id m5 2 = Res.ok (some "same") ∧
      lumi_view_get_id m5 3 = Res.ok (some "same"))) :=
  ⟨⟨by decide, by decide⟩,
    lumi_view_set_id_last_wins scene_fresh 2 3 (some "my-text") (some "other") (some "same")
      (by decide) (by decide) (by decide) (by decide) (by decide)⟩

/-- C12: every view operation called with a null view handle is a no-op:
each mutator returns with the memory (all nodes, the log of callback
invocations and the log of frees) unchanged, `lumi_view_add_child` and
`lumi_view_remove_child` do so when either argument is null, and each
getter returns its neutral value: null for id, content and value, false for
visible, `LUMI_VIEW_CUSTOM` for type. -/
theorem null_view_handle_is_noop (m : Mem) (s : Option String) (b : Bool)
    (x y z t : Rat) (c cb ud p fuel : Nat) :
    lumi_view_set_id m 0 s = Res.ok m ∧
    lumi_view_set_visible m 0 b = Res.ok m ∧
    lumi_view_set_width m 0 x = Res.ok m ∧
    lumi_view_set_height m 0 x = Res.ok m ∧
    lumi_view_set_padding m 0 x y z t = Res.ok m ∧
    lumi_view_set_margin m 0 x y z t = Res.ok m ∧
    lumi_view_set_background m 0 c = Res.ok m ∧
    lumi_view_set_foreground m 0 c = Res.ok m ∧
    lumi_view_set_font_size m 0 x = Res.ok m ∧
    lumi_view_set_border_radius m 0 x = Res.ok m ∧
    lumi_view_on_click m 0 cb ud = Res.ok m ∧
    lumi_view_on_long_click m 0 cb ud = Res.ok m ∧
    lumi_view_on_text_change m 0 cb ud = Res.ok m ∧
    lumi_text_set_content m 0 s = Res.ok m ∧
    lumi_text_field_set_value m 0 s = Res.ok m ∧
    lumi_view_destroy fuel m 0 = Res.ok m ∧
    lumi_view_add_child m 0 p = Res.ok m ∧
    lumi_view_add_child m p 0 = Res.ok m ∧
    lumi_view_remove_child m 0 p = Res.ok m ∧
    lumi_view_remove_child m p 0 = Res.ok m ∧
    lumi_view_get_id m 0 = Res.ok none ∧
    lumi_text_get_content m 0 = Res.ok none ∧
    lumi_text_field_get_value m 0 = Res.ok none ∧
    lumi_view_get_visible m 0 = Res.ok false ∧
    lumi_view_get_type m 0 = Res.ok LUMI_VIEW_CUSTOM := by
  refine ⟨rfl, rfl, rfl, rfl, rfl, rfl, rfl, rfl, rfl, rfl, rfl, rfl, rfl, rfl, rfl, ?_,
    add_child_null m 0 p (Or.inl rfl), add_child_null m p 0 (Or.inr rfl),
    remove_child_null m 0 p (Or.inl rfl), remove_child_null m p 0 (Or.inr rfl),
    rfl, rfl, rfl, rfl, rfl⟩
  cases fuel <;> rfl

theorem text_handler_of_heap {m : Mem} {p : Ptr} {v : lumi_view} (h : m.heap p = some v) :
    m.text_handler p = (v.on_text_change_cb, v.on_text_change_data) := by
  simp [Mem.text_handler, h]

/-- The effect of `lumi_text_field_set_value` on a live node. -/
theorem set_value_effect (m : Mem) (node : Ptr) (s : Option String) (v : lumi_view)
    (hn : node ≠ 0) (h : m.heap node = some v) :
    ∃ m', lumi_text_field_set_value m node s = Res.ok m' ∧
      m'.heap = (m.store node { v with text := s }).heap ∧
      m'.freed = m.freed ∧
      m'.calls = m.calls ++
        (if v.on_text_change_cb = 0 then []
         else [Event.text_change v.on_text_change_cb node s v.on_text_change_data]) := by
  have ht : (match s with
      | some x => strdup x
      | none => none) = s := by
    cases s <;> rfl
  by_cases hcb : v.on_text_change_cb = 0
  · refine ⟨m.store node { v with text := s }, ?_, rfl, rfl, by simp [hcb, Mem.store]⟩
    simp only [lumi_text_field_set_value, if_neg hn, h, ht, hcb]
    rfl
  · refine ⟨{ (m.store node { v with text := s }) with
        calls := m.calls ++
          [Event.text_change v.on_text_change_cb node s v.on_text_change_data] },
      ?_, rfl, rfl, by simp [hcb]⟩
    simp only [lumi_text_field_set_value, if_neg hn, h, ht]
    rw [if_pos hcb]
    rfl

/-- C13: for every live node (a TextField in particular) and every string
`s`, `lumi_text_field_set_value(node, s)` returns and stores `s` as the
node's content; when a text-change handler `cb` with context `ctx` is
registered, `cb` is invoked exactly once, with that node, the text `s` and
`ctx`; when no handler is registered nothing is invoked. -/
theorem lumi_text_field_set_value_notifies (m : Mem) (node : Ptr) (s : Option String)
    (hn : node ≠ 0) (hl : m.live node) :
    ∃ m', lumi_text_field_set_value m node s = Res.ok m' ∧
      lumi_text_field_get_value m' node = Res.ok s ∧
      lumi_text_get_content m' node = Res.ok s ∧
      ((m.text_handler node).1 ≠ 0 →
        m'.calls = m.calls ++
          [Event.text_change (m.text_handler node).1 node s (m.text_handler node).2]) ∧
      ((m.text_handler node).1 = 0 → m'.calls = m.calls) := by
  obtain ⟨v, hv⟩ := (live_iff m node).mp hl
  obtain ⟨m', hr, hheap, _, hcalls⟩ := set_value_effect m node s v hn hv
  have hnode : m'.heap node = some { v with text := s } := by
    rw [hheap]
    exact store_heap_same _ _ _
  rw [text_handler_of_heap hv]
  refine ⟨m', hr, (get_content_of_heap hn hnode).2, (get_content_of_heap hn hnode).1, ?_, ?_⟩
  · intro hcb
    rw [hcalls, if_neg hcb]
  · intro hcb
    rw [hcalls, if_pos hcb]
    simp

/-- C13 on the text field at address 1 with the handler 100 and the context
200: setting the value "typed" invokes the handler once. -/
theorem lumi_text_field_set_value_notifies_witness :
    (scene_field.live 1 ∧ scene_field.text_handler 1 = (100, 200) ∧ scene_field.calls = []) ∧
    ∃ m', lumi_text_field_set_value scene_field 1 (some "typed") = Res.ok m' ∧
      lumi_text_field_get_value m' 1 = Res.ok (some "typed") ∧
      lumi_text_get_content m' 1 = Res.ok (some "typed") ∧
      ((scene_field.text_handler 1).1 ≠ 0 →
        m'.calls = scene_field.calls ++
          [Event.text_change (scene_field.text_handler 1).1 1 (some "typed")
            (scene_field.text_handler 1).2]) ∧
      ((scene_field.text_handler 1).1 = 0 → m'.calls = scene_field.calls) :=
  ⟨⟨by decide, by decide, by decide⟩,
    lumi_text_field_set_value_notifies scene_field 1 (some "typed") (by decide) (by decide)⟩

/-- C14: on a live node each of `lumi_view_on_click`, `lumi_view_on_long_click`
and `lumi_view_on_text_change` returns and stores the pair (handler, context)
in its own two fields, replacing what was there, with every other field of
the node (the two other slots included) and every other node unchanged;
after registering `(cb1, d1)` and then `(cb2, d2)` for text-change,
`lumi_text_field_set_value` invokes `cb2` with `d2` once and nothing else,
and nothing at all when `cb2` is the null handler. -/
theorem callback_registration_replaces_slot (m : Mem) (view : Ptr)
    (cb1 d1 cb2 d2 : Ptr) (s : Option String) (hn : view ≠ 0) (hl : m.live view) :
    ∃ v, m.heap view = some v ∧
      lumi_view_on_click m view cb1 d1 =
        Res.ok (m.store view { v with on_click_cb := cb1, on_click_data := d1 }) ∧
      lumi_view_on_long_click m view cb1 d1 =
        Res.ok (m.store view { v with on_long_click_cb := cb1, on_long_click_data := d1 }) ∧
      lumi_view_on_text_change m view cb1 d1 =
        Res.ok (m.store view { v with on_text_change_cb := cb1, on_text_change_data := d1 }) ∧
      ∃ m1 m2 m3, lumi_view_on_text_change m view cb1 d1 = Res.ok m1 ∧
        lumi_view_on_text_change m1 view cb2 d2 = Res.ok m2 ∧
        m2.heap view = some { v with on_text_change_cb := cb2, on_text_change_data := d2 } ∧
        lumi_text_field_set_value m2 view s = Res.ok m3 ∧
        m3.calls = m.calls ++ (if cb2 = 0 then [] else [Event.text_change cb2 view s d2]) := by
  obtain ⟨v, hv⟩ := (live_iff m view).mp hl
  have h1 : lumi_view_on_text_change m view cb1 d1 =
      Res.ok (m.store view { v with on_text_change_cb := cb1, on_text_change_data := d1 }) :=
    with_view_ok _ hn hv
  have h2 : lumi_view_on_text_change
      (m.store view { v with on_text_change_cb := cb1, on_text_change_data := d1 }) view cb2 d2 =
      Res.ok ((m.store view { v with on_text_change_cb := cb1, on_text_change_data := d1 }).store
        view { v with on_text_change_cb := cb2, on_text_change_data := d2 }) := by
    unfold lumi_view_on_text_change
    rw [with_view_ok _ hn (store_heap_same _ _ _)]
  obtain ⟨m3, hr3, _, _, hcalls⟩ := set_value_effect _ view s _ hn
    (store_heap_same (m.store view { v with on_text_change_cb := cb1, on_text_change_data := d1 })
      view { v with on_text_change_cb := cb2, on_text_change_data := d2 })
  exact ⟨v, hv, with_view_ok _ hn hv, with_view_ok _ hn hv, h1, _, _, _, h1, h2,
    store_heap_same _ _ _, hr3, hcalls⟩

/-- C14 on the text at address 2 of three fresh nodes: the handlers 100
(context 200) and then 101 (context 201) are registered. -/
theorem callback_registration_replaces_slot_witness :
    scene_fresh.live 2 ∧
    ∃ v, scene_fresh.heap 2 = some v ∧
      lumi_view_on_click scene_fresh 2 100 200 =
        Res.ok (scene_fresh.store 2 { v with on_click_cb := 100, on_click_data := 200 }) ∧
      lumi_view_on_long_click scene_fresh 2 100 200 =
        Res.ok (scene_fresh.store 2 { v with
          on_long_click_cb := 100, on_long_click_data := 200 }) ∧
      lumi_view_on_text_change scene_fresh 2 100 200 =
        Res.ok (scene_fresh.store 2 { v with
          on_text_change_cb := 100, on_text_change_data := 200 }) ∧
      ∃ m1 m2 m3, lumi_view_on_text_change scene_fresh 2 100 200 = Res.ok m1 ∧
        lumi_view_on_text_change m1 2 101 201 = Res.ok m2 ∧
        m2.heap 2 = some { v with on_text_change_cb := 101, on_text_change_data := 201 } ∧
        lumi_text_field_set_value m2 2 (some "typed") = Res.ok m3 ∧
        m3.calls = scene_fresh.calls ++
          (if (101 : Ptr) = 0 then [] else [Event.text_change 101 2 (some "typed") 201]) :=
  ⟨by decide,
    callback_registration_replaces_slot scene_fresh 2 100 200 101 201 (some "typed")
      (by decide) (by decide)⟩

/-! ## Lifecycle hooks -/

theorem bound_hooks_single (lc : lumi_lifecycle_t) (app u : Ptr) (k : HookKind) :
    bound_hooks lc app u [k] =
      if k.slot lc = 0 then [] else [(k, k.slot lc, app, u)] := by
  by_cases h : k.slot lc = 0 <;> simp [bound_hooks, h]

theorem bound_hooks_append (lc : lumi_lifecycle_t) (app u : Ptr) (l1 l2 : List HookKind) :
    bound_hooks lc app u (l1 ++ l2) = bound_hooks lc app u l1 ++ bound_hooks lc app u l2 := by
  simp [bound_hooks]

/-- One hook statement with well-behaved hooks: it returns, the app stays
live with its hook set, context and manifest, and the log grows by the
invocation (entered with the record `a` and the view memory of `w`) exactly
when the hook is bound. -/
theorem call_hook_tame {env : HookEnv} {app : Ptr} {I : Mem → Ptr → Prop}
    (ht : tame env app I) (k : HookKind) (w : World) (a : lumi_app)
    (hw : w.apps app = some a) (hI : I w.mem a.root_view) :
    ∃ w' a', call_hook env k w app = Res.ok w' ∧ w'.apps app = some a' ∧
      a'.lifecycle = a.lifecycle ∧ a'.userdata = a.userdata ∧ a'.manifest = a.manifest ∧
      I w'.mem a'.root_view ∧
      w'.hooks = w.hooks ++
        (if k.slot a.lifecycle = 0 then []
         else [{ kind := k, fn := k.slot a.lifecycle, app := app, userdata := a.userdata,
                 seen_app := a, seen_mem := w.mem }]) ∧
      w'.hooks.map HookCall.sig =
        w.hooks.map HookCall.sig ++ bound_hooks a.lifecycle app a.userdata [k] ∧
      (keeps_running env app → a'.running = a.running) := by
  unfold call_hook
  rw [hw]
  by_cases h0 : k.slot a.lifecycle = 0
  · simp only [h0, if_true]
    refine ⟨w, a, rfl, hw, rfl, rfl, rfl, hI, by simp, ?_, fun _ => rfl⟩
    rw [bound_hooks_single, if_pos h0]
    simp
  · simp only [h0, if_false]
    obtain ⟨w', a', hr, hw', hlc, hu, hman, hh, hI'⟩ :=
      ht (k.slot a.lifecycle) a.userdata
        { w with hooks := w.hooks ++
            [{ kind := k, fn := k.slot a.lifecycle, app := app, userdata := a.userdata,
               seen_app := a, seen_mem := w.mem }] } a hw hI
    refine ⟨w', a', hr, hw', hlc, hu, hman, hI', hh, ?_, ?_⟩
    · rw [hh, bound_hooks_single, if_neg h0]
      simp [HookCall.sig]
    · intro hk
      refine hk _ _ _ _ _ _ ?_ hr hw'
      exact hw

theorem main_loop_ok {w : World} {app : Ptr} {a : lumi_app} (hw : w.apps app = some a) :
    main_loop w app = Res.ok w := by
  unfold main_loop
  rw [hw]
  simp

/-- A run with well-behaved hooks: it returns 0, the prologue ends in a
state `w4` with record `a4`, the loop does nothing, and on-pause is entered
in that state. -/
theorem run_tame {env : HookEnv} {app : Ptr} {I : Mem → Ptr → Prop}
    (ht : tame env app I) (w : World) (a : lumi_app) (hne : app ≠ 0)
    (hw : w.apps app = some a) (hI : I w.mem a.root_view) :
    ∃ w4 a4 w7 a7 tail, run_until_loop env w app = Res.ok w4 ∧ w4.apps app = some a4 ∧
      lumi_app_run env w app = Res.ok (w7, 0) ∧ w7.apps app = some a7 ∧
      a7.lifecycle = a.lifecycle ∧ a7.userdata = a.userdata ∧ a7.manifest = a.manifest ∧
      I w7.mem a7.root_view ∧
      w4.hooks.map HookCall.sig = w.hooks.map HookCall.sig ++
        bound_hooks a.lifecycle app a.userdata
          [HookKind.create, HookKind.start, HookKind.resume] ∧
      w7.hooks.map HookCall.sig = w.hooks.map HookCall.sig ++
        bound_hooks a.lifecycle app a.userdata
          [HookKind.create, HookKind.start, HookKind.resume, HookKind.pause, HookKind.stop] ∧
      w7.hooks = w4.hooks ++
        (if a.lifecycle.on_pause = 0 then []
         else [{ kind := HookKind.pause, fn := a.lifecycle.on_pause, app := app,
                 userdata := a.userdata, seen_app := a4, seen_mem := w4.mem }]) ++ tail ∧
      (keeps_running env app → a4.running = true) := by
  have hw1 : ({ w with g_current_app := app, sigint_installed := true } : World).apps app =
      some a := hw
  have hw1' : (({ w with g_current_app := app, sigint_installed := true } : World).put app
      { a with running := true }).apps app = some { a with running := true } := by
    simp [World.put]
  obtain ⟨w2, a2, h2, hw2, hlc2, hu2, hm2, hI2, _, hs2, hk2⟩ :=
    call_hook_tame ht HookKind.create _ _ hw1' hI
  obtain ⟨w3, a3, h3, hw3, hlc3, hu3, hm3, hI3, _, hs3, hk3⟩ :=
    call_hook_tame ht HookKind.start w2 a2 hw2 hI2
  obtain ⟨w4, a4, h4, hw4, hlc4, hu4, hm4, hI4, _, hs4, hk4⟩ :=
    call_hook_tame ht HookKind.resume w3 a3 hw3 hI3
  obtain ⟨w6, a6, h6, hw6, hlc6, hu6, hm6, hI6, he6, hs6, _⟩ :=
    call_hook_tame ht HookKind.pause w4 a4 hw4 hI4
  obtain ⟨w7, a7, h7, hw7, hlc7, hu7, hm7, hI7, he7, hs7, _⟩ :=
    call_hook_tame ht HookKind.stop w6 a6 hw6 hI6
  have e2 : a2.lifecycle = a.lifecycle := hlc2
  have e3 : a3.lifecycle = a.lifecycle := hlc3.trans e2
  have e4 : a4.lifecycle = a.lifecycle := hlc4.trans e3
  have e6 : a6.lifecycle = a.lifecycle := hlc6.trans e4
  have u2 : a2.userdata = a.userdata := hu2
  have u3 : a3.userdata = a.userdata := hu3.trans u2
  have u4 : a4.userdata = a.userdata := hu4.trans u3
  have u6 : a6.userdata = a.userdata := hu6.trans u4
  have hsig4 : w4.hooks.map HookCall.sig = w.hooks.map HookCall.sig ++
      bound_hooks a.lifecycle app a.userdata
        [HookKind.create, HookKind.start, HookKind.resume] := by
    rw [hs4, hs3, hs2, e3, u3, e2, u2]
    have : ((({ w with g_current_app := app, sigint_installed := true } : World).put app
        { a with running := true }).hooks) = w.hooks := rfl
    rw [this]
    show _ = _ ++ bound_hooks a.lifecycle app a.userdata
      ([HookKind.create] ++ ([HookKind.start] ++ [HookKind.resume]))
    rw [bound_hooks_append, bound_hooks_append]
    simp only [List.append_assoc]
  refine ⟨w4, a4, w7, a7,
    (if a.lifecycle.on_stop = 0 then []
     else [{ kind := HookKind.stop, fn := a.lifecycle.on_stop, app := app,
             userdata := a.userdata, seen_app := a6, seen_mem := w6.mem }]),
    ?_, hw4, ?_, hw7, hlc7.trans e6, hu7.trans u6,
    ((hm7.trans hm6).trans hm4).trans ((hm3.trans hm2)), hI7, hsig4, ?_, ?_, ?_⟩
  · unfold run_until_loop
    simp only [hw, Res.bind, h2, h3, h4]
  · unfold lumi_app_run
    simp only [if_neg hne, hw, Res.bind, h2, h3, h4, main_loop_ok hw4, h6, h7]
  · rw [hs7, hs6, hsig4, e6, u6, e4, u4]
    show _ = _ ++ bound_hooks a.lifecycle app a.userdata
      ([HookKind.create, HookKind.start, HookKind.resume] ++ ([HookKind.pause] ++ [HookKind.stop]))
    rw [bound_hooks_append, bound_hooks_append]
    simp only [List.append_assoc]
  · rw [he7, he6, e4, u4, e6, u6]
    rfl
  · intro hk
    rw [hk4 hk, hk3 hk, hk2 hk]

theorem live_app_iff (w : World) (app : Ptr) : w.live_app app ↔ ∃ a, w.apps app = some a := by
  unfold World.live_app
  exact Option.isSome_iff_exists

theorem tame_env_idle (app : Ptr) (I : Mem → Ptr → Prop) : tame env_idle app I := by
  intro f u w a hw hI
  exact ⟨w, a, rfl, hw, rfl, rfl, rfl, rfl, hI⟩

theorem quit_eval {w : World} {app : Ptr} {a : lumi_app} (hne : app ≠ 0)
    (hw : w.apps app = some a) :
    lumi_app_quit w app = Res.ok (w.put app { a with running := false }) := by
  simp [lumi_app_quit, hne, hw]

theorem put_apps_same (w : World) (app : Ptr) (a : lumi_app) :
    (w.put app a).apps app = some a := by
  simp [World.put]

theorem tame_env_quit_in (f0 app : Ptr) (hne : app ≠ 0) :
    tame (env_quit_in f0) app (fun _ _ => True) := by
  intro f u w a hw _
  by_cases hf : f = f0
  · refine ⟨w.put app { a with running := false }, { a with running := false }, ?_,
      put_apps_same _ _ _, rfl, rfl, rfl, rfl, trivial⟩
    simp only [env_quit_in, if_pos hf]
    exact quit_eval hne hw
  · refine ⟨w, a, ?_, hw, rfl, rfl, rfl, rfl, trivial⟩
    simp only [env_quit_in, if_neg hf]

theorem put_put (w : World) (app : Ptr) (a b : lumi_app) :
    (w.put app a).put app b = w.put app b := by
  simp only [World.put]
  congr 1
  funext q
  by_cases h : q = app <;> simp [h]

theorem put_put_flags (w : World) (app g : Ptr) (b : Bool) (x y : lumi_app) :
    ({ (w.put app x) with g_current_app := g, sigint_installed := b } : World).put app y =
      ({ w with g_current_app := g, sigint_installed := b } : World).put app y := by
  simp only [World.put]
  congr 1
  funext q
  by_cases h : q = app
  · simp only [h, if_true]
  · simp only [h, if_false]

/-- A run overwrites the running flag first: a `lumi_app_quit` before it has
no effect on the run. -/
theorem run_after_quit (env : HookEnv) (w : World) (app : Ptr) (a : lumi_app)
    (hne : app ≠ 0) (hw : w.apps app = some a) :
    lumi_app_run env (w.put app { a with running := false }) app = lumi_app_run env w app := by
  unfold lumi_app_run
  simp only [if_neg hne, put_apps_same, hw, put_put_flags]

theorem destroy_root_ok {I : Mem → Ptr → Prop} {fuel : Nat}
    (hd : ∀ m r, I m r → r = 0 ∨ ∃ ns, Subtree m r ns ∧ ns.Nodup ∧ ns.length < fuel)
    (m : Mem) (r : Ptr) (hI : I m r) : ∃ m', destroy_root fuel m r = Res.ok m' := by
  unfold destroy_root
  rcases hd m r hI with h0 | ⟨ns, ht, hnd, hlen⟩
  · exact ⟨m, by rw [if_pos h0]⟩
  · exact ⟨m.free_all ns, by
      rw [if_neg (subtree_root_ne_zero ht)]
      exact destroy_tree fuel m r ns ht hnd hlen⟩

/-- The hook invocations of `lumi_app_destroy` with well-behaved hooks. -/
theorem destroy_tame {env : HookEnv} {app : Ptr} {I : Mem → Ptr → Prop} {fuel : Nat}
    (ht : tame env app I)
    (hd : ∀ m r, I m r → r = 0 ∨ ∃ ns, Subtree m r ns ∧ ns.Nodup ∧ ns.length < fuel)
    (w : World) (a : lumi_app) (hne : app ≠ 0) (hw : w.apps app = some a)
    (hI : I w.mem a.root_view) :
    ∃ w', lumi_app_destroy env fuel w app = Res.ok w' ∧ w'.apps app = none ∧
      w'.hooks.map HookCall.sig = w.hooks.map HookCall.sig ++
        bound_hooks a.lifecycle app a.userdata [HookKind.destroy] := by
  obtain ⟨w1, a1, h1, hw1, _, _, _, hI1, _, hs1, _⟩ :=
    call_hook_tame ht HookKind.destroy w a hw hI
  obtain ⟨m2, hm2⟩ := destroy_root_ok hd w1.mem a1.root_view hI1
  unfold lumi_app_destroy
  simp only [if_neg hne, Res.bind, h1, hw1, hm2]
  by_cases hg : w1.g_current_app = app
  · simp only [hg, if_true]
    exact ⟨_, rfl, by simp, hs1⟩
  · simp only [hg, if_false]
    exact ⟨_, rfl, by simp, hs1⟩

theorem create_ok (w0 : World) (app : Ptr) (man : lumi_manifest_t) (lc : lumi_lifecycle_t)
    (u : Ptr) (hne : app ≠ 0) :
    (lumi_app_create w0 app (some man) (some lc) u).2 = app ∧
      ∃ a0, (lumi_app_create w0 app (some man) (some lc) u).1.apps app = some a0 ∧
        a0.lifecycle = lc ∧ a0.userdata = u := by
  simp [lumi_app_create, hne, World.put]

/-- C15: for every live app (with record `a`: hook set `a.lifecycle`, context
`a.userdata`) and well-behaved hooks, `lumi_app_run` followed by
`lumi_app_destroy` returns, and the hook invocations they add to the log
are exactly the bound ones among create, start, resume, pause, stop,
destroy, in that order, one each (so destroy comes after stop, also when it
is the only bound hook), each with the app and the context; the context and
the hook set are the ones `lumi_app_create` stored. -/
theorem run_then_destroy_invokes_bound_hooks (env : HookEnv) (w : World) (app : Ptr)
    (I : Mem → Ptr → Prop) (fuel : Nat)
    (hne : app ≠ 0) (hl : w.live_app app) (ht : tame env app I)
    (hd : ∀ m r, I m r → r = 0 ∨ ∃ ns, Subtree m r ns ∧ ns.Nodup ∧ ns.length < fuel)
    (hI : ∀ a, w.apps app = some a → I w.mem a.root_view) :
    (∃ a w1 w2, w.apps app = some a ∧
      lumi_app_run env w app = Res.ok (w1, 0) ∧
      lumi_app_destroy env fuel w1 app = Res.ok w2 ∧
      w2.hooks.map HookCall.sig = w.hooks.map HookCall.sig ++
        bound_hooks a.lifecycle app a.userdata
          [HookKind.create, HookKind.start, HookKind.resume, HookKind.pause, HookKind.stop,
            HookKind.destroy]) ∧
    (∀ (w0 : World) (man : lumi_manifest_t) (lc : lumi_lifecycle_t) (u : Ptr),
      (lumi_app_create w0 app (some man) (some lc) u).2 = app ∧
      ∃ a0, (lumi_app_create w0 app (some man) (some lc) u).1.apps app = some a0 ∧
        a0.lifecycle = lc ∧ a0.userdata = u) := by
  obtain ⟨a, hw⟩ := (live_app_iff w app).mp hl
  obtain ⟨_, _, w7, a7, _, _, _, hrun, hw7, hlc7, hu7, _, hI7, _, hs7, _, _⟩ :=
    run_tame ht w a hne hw (hI a hw)
  obtain ⟨w8, hdes, _, hs8⟩ := destroy_tame ht hd w7 a7 hne hw7 hI7
  constructor
  · refine ⟨a, w7, w8, hw, hrun, hdes, ?_⟩
    rw [hs8, hs7, hlc7, hu7]
    show _ = _ ++ bound_hooks a.lifecycle app a.userdata
      ([HookKind.create, HookKind.start, HookKind.resume, HookKind.pause, HookKind.stop] ++
        [HookKind.destroy])
    rw [bound_hooks_append]
    simp only [List.append_assoc]
  · intro w0 man lc u
    exact create_ok w0 app man lc u hne

/-- C15 on the application of `test_app_lifecycle` (only on-create, function
11, and on-destroy, function 16, bound; context 42): the invocations are
on-create then on-destroy. -/
theorem run_then_destroy_invokes_bound_hooks_witness :
    (world_test.live_app 1 ∧ tame env_idle 1 (fun _ r => r = 0)) ∧
    ((∃ a w1 w2, world_test.apps 1 = some a ∧
      lumi_app_run env_idle world_test 1 = Res.ok (w1, 0) ∧
      lumi_app_destroy env_idle 1 w1 1 = Res.ok w2 ∧
      w2.hooks.map HookCall.sig = world_test.hooks.map HookCall.sig ++
        bound_hooks a.lifecycle 1 a.userdata
          [HookKind.create, HookKind.start, HookKind.resume, HookKind.pause, HookKind.stop,
            HookKind.destroy]) ∧
    (∀ (w0 : World) (man : lumi_manifest_t) (lc : lumi_lifecycle_t) (u : Ptr),
      (lumi_app_create w0 1 (some man) (some lc) u).2 = 1 ∧
      ∃ a0, (lumi_app_create w0 1 (some man) (some lc) u).1.apps 1 = some a0 ∧
        a0.lifecycle = lc ∧ a0.userdata = u)) :=
  ⟨⟨by decide, tame_env_idle 1 _⟩,
    run_then_destroy_invokes_bound_hooks env_idle world_test 1 (fun _ r => r = 0) 1
      (by decide) (by decide) (tame_env_idle 1 _) (fun _ _ h => Or.inl h)
      (fun _ h => by
        have e : world_test.apps 1 = some
            { manifest := test_manifest,
              lifecycle := { on_create := 11, on_start := 0, on_resume := 0, on_pause := 0,
                             on_stop := 0, on_destroy := 16 },
              userdata := 42, root_view := 0, running := false, paused := false } := rfl
        rw [e] at h
        cases h
        rfl)⟩

/-- C16: for every live app and well-behaved hooks, `lumi_app_quit` followed
by `lumi_app_run` returns 0 and behaves exactly as the run without the quit:
the bound create, start and resume hooks are invoked, then the bound pause
and stop hooks, and the loop in between does no work (it returns the state
it is entered in). -/
theorem quit_before_run_same_hooks (env : HookEnv) (w : World) (app : Ptr)
    (hne : app ≠ 0) (hl : w.live_app app) (ht : tame env app (fun _ _ => True)) :
    ∃ a wq w', w.apps app = some a ∧ lumi_app_quit w app = Res.ok wq ∧
      lumi_app_run env wq app = Res.ok (w', 0) ∧
      lumi_app_run env wq app = lumi_app_run env w app ∧
      w'.hooks.map HookCall.sig = w.hooks.map HookCall.sig ++
        bound_hooks a.lifecycle app a.userdata
          [HookKind.create, HookKind.start, HookKind.resume, HookKind.pause, HookKind.stop] ∧
      (∀ w5 : World, w5.live_app app → main_loop w5 app = Res.ok w5) := by
  obtain ⟨a, hw⟩ := (live_app_iff w app).mp hl
  obtain ⟨_, _, w7, _, _, _, _, hrun, _, _, _, _, _, _, hs7, _, _⟩ :=
    run_tame ht w a hne hw trivial
  have he := run_after_quit env w app a hne hw
  refine ⟨a, _, w7, hw, quit_eval hne hw, he.trans hrun, he, hs7, ?_⟩
  intro w5 h5
  obtain ⟨a5, ha5⟩ := (live_app_iff w5 app).mp h5
  exact main_loop_ok ha5

/-- C16 on the application with all six hooks bound. -/
theorem quit_before_run_same_hooks_witness :
    (world_all_hooks.live_app 1 ∧ tame env_idle 1 (fun _ _ => True)) ∧
    ∃ a wq w', world_all_hooks.apps 1 = some a ∧ lumi_app_quit world_all_hooks 1 = Res.ok wq ∧
      lumi_app_run env_idle wq 1 = Res.ok (w', 0) ∧
      lumi_app_run env_idle wq 1 = lumi_app_run env_idle world_all_hooks 1 ∧
      w'.hooks.map HookCall.sig = world_all_hooks.hooks.map HookCall.sig ++
        bound_hooks a.lifecycle 1 a.userdata
          [HookKind.create, HookKind.start, HookKind.resume, HookKind.pause, HookKind.stop] ∧
      (∀ w5 : World, w5.live_app 1 → main_loop w5 1 = Res.ok w5) :=
  ⟨⟨by decide, tame_env_idle 1 _⟩,
    quit_before_run_same_hooks env_idle world_all_hooks 1 (by decide) (by decide)
      (tame_env_idle 1 _)⟩

/-- C17, as stated, fails: with all six hooks bound and hooks that do not
touch the running flag, `lumi_app_run` returns 0 and on-pause (like every
other hook of the run) is entered while the running flag is still true. -/
theorem pause_while_running_counterexample :
    ∃ w', lumi_app_run env_idle world_all_hooks 1 = Res.ok (w', 0) ∧
      w'.hooks.map (fun e => (e.kind, e.seen_app.running)) =
        [(HookKind.create, true), (HookKind.start, true), (HookKind.resume, true),
         (HookKind.pause, true), (HookKind.stop, true)] :=
  ⟨_, rfl, by decide⟩

/-- C17, amended: in every execution of `lumi_app_run` on a live app with
well-behaved hooks, the loop between on-resume and on-pause is left at once,
whatever the running flag: the loop returns the state `w4` the prologue
ended in, and on-pause, when bound, is the next hook invoked and is entered
with the application record `a4` and the view memory of `w4`; so on-pause
is invoked while running is still true unless a hook cleared the flag. -/
theorem run_leaves_loop_at_once (env : HookEnv) (w : World) (app : Ptr)
    (hne : app ≠ 0) (hl : w.live_app app) (ht : tame env app (fun _ _ => True)) :
    ∃ a w4 a4 w7 tail, w.apps app = some a ∧
      run_until_loop env w app = Res.ok w4 ∧ w4.apps app = some a4 ∧
      main_loop w4 app = Res.ok w4 ∧
      lumi_app_run env w app = Res.ok (w7, 0) ∧
      w7.hooks = w4.hooks ++
        (if a.lifecycle.on_pause = 0 then []
         else [{ kind := HookKind.pause, fn := a.lifecycle.on_pause, app := app,
                 userdata := a.userdata, seen_app := a4, seen_mem := w4.mem }]) ++ tail ∧
      (keeps_running env app → a4.running = true) := by
  obtain ⟨a, hw⟩ := (live_app_iff w app).mp hl
  obtain ⟨w4, a4, w7, _, tail, h4, hw4, hrun, _, _, _, _, _, _, _, hev, hk⟩ :=
    run_tame ht w a hne hw trivial
  exact ⟨a, w4, a4, w7, tail, hw, h4, hw4, main_loop_ok hw4, hrun, hev, hk⟩

theorem keeps_running_env_idle (app : Ptr) : keeps_running env_idle app := by
  intro f u w w' a a' hw hr hw'
  simp only [env_idle, Res.ok.injEq] at hr
  subst hr
  rw [hw] at hw'
  cases hw'
  rfl

/-- C17, amended, on the application with all six hooks bound and hooks that
do nothing. -/
theorem run_leaves_loop_at_once_witness :
    (world_all_hooks.live_app 1 ∧ tame env_idle 1 (fun _ _ => True) ∧
      keeps_running env_idle 1) ∧
    ∃ a w4 a4 w7 tail, world_all_hooks.apps 1 = some a ∧
      run_until_loop env_idle world_all_hooks 1 = Res.ok w4 ∧ w4.apps 1 = some a4 ∧
      main_loop w4 1 = Res.ok w4 ∧
      lumi_app_run env_idle world_all_hooks 1 = Res.ok (w7, 0) ∧
      w7.hooks = w4.hooks ++
        (if a.lifecycle.on_pause = 0 then []
         else [{ kind := HookKind.pause, fn := a.lifecycle.on_pause, app := 1,
                 userdata := a.userdata, seen_app := a4, seen_mem := w4.mem }]) ++ tail ∧
      (keeps_running env_idle 1 → a4.running = true) :=
  ⟨⟨by decide, tame_env_idle 1 _, keeps_running_env_idle 1⟩,
    run_leaves_loop_at_once env_idle world_all_hooks 1 (by decide) (by decide)
      (tame_env_idle 1 _)⟩

/-- C18: for every live (non-null) app and well-behaved hooks, whichever
hooks are bound and whether or not a hook calls `lumi_app_quit` during the
run, `lumi_app_run` returns 0; it also returns 0 when `lumi_app_quit` was
called before the run. -/
theorem lumi_app_run_returns_zero (env : HookEnv) (w : World) (app : Ptr)
    (hne : app ≠ 0) (hl : w.live_app app) (ht : tame env app (fun _ _ => True)) :
    (∃ w', lumi_app_run env w app = Res.ok (w', 0)) ∧
    (∃ wq w', lumi_app_quit w app = Res.ok wq ∧ lumi_app_run env wq app = Res.ok (w', 0)) := by
  obtain ⟨a, hw⟩ := (live_app_iff w app).mp hl
  obtain ⟨_, _, w7, _, _, _, _, hrun, _⟩ := run_tame ht w a hne hw trivial
  exact ⟨⟨w7, hrun⟩, _, w7, quit_eval hne hw, (run_after_quit env w app a hne hw).trans hrun⟩

/-- C18 on the application with all six hooks bound, the on-start hook
(function 12) calling `lumi_app_quit`. -/
theorem lumi_app_run_returns_zero_witness :
    (world_all_hooks.live_app 1 ∧ tame (env_quit_in 12) 1 (fun _ _ => True)) ∧
    ((∃ w', lumi_app_run (env_quit_in 12) world_all_hooks 1 = Res.ok (w', 0)) ∧
    (∃ wq w', lumi_app_quit world_all_hooks 1 = Res.ok wq ∧
      lumi_app_run (env_quit_in 12) wq 1 = Res.ok (w', 0))) :=
  ⟨⟨by decide, tame_env_quit_in 12 1 (by decide)⟩,
    lumi_app_run_returns_zero (env_quit_in 12) world_all_hooks 1 (by decide) (by decide)
      (tame_env_quit_in 12 1 (by decide))⟩

/-- C19: for every live app, `lumi_app_quit` returns, invokes no hook and
changes nothing but the running flag, which is false afterwards: manifest,
hooks, context and root of the app, every other app, the view memory and the
current-instance record are as before; and a second `lumi_app_quit` leaves
the state reached by the first one as it is. -/
theorem lumi_app_quit_only_clears_running (w : World) (app : Ptr)
    (hne : app ≠ 0) (hl : w.live_app app) :
    ∃ a w', w.apps app = some a ∧ lumi_app_quit w app = Res.ok w' ∧
      w'.apps app = some { a with running := false } ∧
      (∀ q, q ≠ app → w'.apps q = w.apps q) ∧
      w'.mem = w.mem ∧ w'.hooks = w.hooks ∧ w'.g_current_app = w.g_current_app ∧
      w'.apps_freed = w.apps_freed ∧ w'.sigint_installed = w.sigint_installed ∧
      lumi_app_quit w' app = Res.ok w' := by
  obtain ⟨a, hw⟩ := (live_app_iff w app).mp hl
  refine ⟨a, _, hw, quit_eval hne hw, put_apps_same _ _ _, ?_, rfl, rfl, rfl, rfl, rfl, ?_⟩
  · intro q hq
    simp [World.put, hq]
  · rw [quit_eval hne (put_apps_same _ _ _), put_put]

/-- C19 on the application that has run (its running flag is true). -/
theorem lumi_app_quit_only_clears_running_witness :
    (world_ran.live_app 1 ∧
      (world_ran.apps 1).map (fun a => a.running) = some true) ∧
    ∃ a w', world_ran.apps 1 = some a ∧ lumi_app_quit world_ran 1 = Res.ok w' ∧
      w'.apps 1 = some { a with running := false } ∧
      (∀ q, q ≠ 1 → w'.apps q = world_ran.apps q) ∧
      w'.mem = world_ran.mem ∧ w'.hooks = world_ran.hooks ∧
      w'.g_current_app = world_ran.g_current_app ∧
      w'.apps_freed = world_ran.apps_freed ∧
      w'.sigint_installed = world_ran.sigint_installed ∧
      lumi_app_quit w' 1 = Res.ok w' :=
  ⟨⟨by decide, by decide⟩,
    lumi_app_quit_only_clears_running world_ran 1 (by decide) (by decide)⟩

/-! ## Replacing the root -/

theorem world_nested_inner : Subtree world_nested.mem 1 [1] :=
  Subtree.node 1 _ [] (by decide) rfl rfl (fun j hj => absurd hj (by simp))

theorem world_nested_outer : Subtree world_nested.mem 2 [1, 2] := by
  refine Subtree.node 2 _ [[1]] (by decide) rfl rfl ?_
  intro i hi
  match i, hi with
  | 0, _ => exact world_nested_inner
  | n + 1, h => exact absurd h (by simp)

/-- C20, as stated, fails: the app at 9 has the root 1, a column that is
also a child of the column 2. The node 2 is different from 1 and outside the
subtree of 1, whose only node is 1, while 1 is a node of the subtree of 2.
`lumi_app_set_content(app, 2)` stores 2 as the root and frees 1, a node of
the subtree of the new root. -/
theorem set_content_frees_node_of_new_root_counterexample :
    world_nested.root_of 9 = 1 ∧
    Subtree world_nested.mem 1 [1] ∧ Subtree world_nested.mem 2 [1, 2] ∧
    (2 : Ptr) ≠ 1 ∧ (2 : Ptr) ∉ [1] ∧ (1 : Ptr) ∈ [1, 2] ∧
    ∃ w', lumi_app_set_content 5 world_nested 9 2 = Res.ok w' ∧
      w'.root_of 9 = 2 ∧ w'.mem.freed = world_nested.mem.freed ++ [1] ∧ ¬ w'.mem.live 1 :=
  ⟨by decide, world_nested_inner, world_nested_outer, by decide, by decide, by decide,
    _, rfl, by decide, by decide, by decide⟩

/-- C20, amended: for every live app whose current root is the root of a
tree of live nodes without sharing, with nodes `ns1`, and every node `r2`
whose subtree (nodes `ns2`) shares no node with `ns1`,
`lumi_app_set_content(app, r2)` returns, frees exactly the nodes `ns1`, and
stores `r2` as the app's root, the other fields of the app unchanged; no
node of `ns2` is freed or changed, so `r2` is still the root of the same
tree. When the app has no root (`ns1` empty) it just stores `r2`. -/
theorem lumi_app_set_content_replaces_root (fuel : Nat) (w : World) (app r2 : Ptr)
    (ns1 ns2 : List Ptr) (hne : app ≠ 0) (hl : w.live_app app)
    (hroot : (w.root_of app = 0 ∧ ns1 = []) ∨
      (Subtree w.mem (w.root_of app) ns1 ∧ ns1.Nodup ∧ ns1.length < fuel))
    (h2 : (r2 = 0 ∧ ns2 = []) ∨ Subtree w.mem r2 ns2)
    (hdis : ∀ q ∈ ns2, q ∉ ns1) :
    ∃ a w', w.apps app = some a ∧ lumi_app_set_content fuel w app r2 = Res.ok w' ∧
      w'.apps app = some { a with root_view := r2 } ∧
      w'.mem.freed = w.mem.freed ++ ns1 ∧
      (∀ q ∈ ns1, ¬ w'.mem.live q) ∧
      (∀ q, q ∉ ns1 → w'.mem.heap q = w.mem.heap q) ∧
      (∀ q ∈ ns2, w'.mem.live q ∧ w'.mem.freed.count q = w.mem.freed.count q) ∧
      (r2 ≠ 0 → Subtree w'.mem r2 ns2) ∧
      (ns1 = [] → w' = w.put app { a with root_view := r2 }) := by
  obtain ⟨a, hw⟩ := (live_app_iff w app).mp hl
  have hro : w.root_of app = a.root_view := by simp [World.root_of, hw]
  rw [hro] at hroot
  have hdr : destroy_root fuel w.mem a.root_view = Res.ok (w.mem.free_all ns1) := by
    unfold destroy_root
    rcases hroot with ⟨h0, hnil⟩ | ⟨ht, hnd, hlen⟩
    · rw [if_pos h0, hnil, free_all_nil]
    · rw [if_neg (subtree_root_ne_zero ht)]
      exact destroy_tree fuel w.mem a.root_view ns1 ht hnd hlen
  have hnd1 : ns1.Nodup := by
    rcases hroot with ⟨_, hnil⟩ | ⟨_, hnd, _⟩
    · rw [hnil]
      exact List.nodup_nil
    · exact hnd
  have hlive2 : ∀ q ∈ ns2, w.mem.live q := by
    intro q hq
    rcases h2 with ⟨_, hnil⟩ | ht2
    · rw [hnil] at hq
      exact absurd hq (List.not_mem_nil q)
    · exact subtree_all_live ht2 q hq
  refine ⟨a, ({ w with mem := w.mem.free_all ns1 } : World).put app { a with root_view := r2 },
    hw, ?_, put_apps_same _ _ _, rfl, ?_, ?_, ?_, ?_, ?_⟩
  · unfold lumi_app_set_content
    simp only [if_neg hne, hw, hdr, Res.bind]
  · intro q hq
    show ¬ (w.mem.free_all ns1).live q
    simp [Mem.live, free_all_heap_of_mem w.mem hq]
  · intro q hq
    exact free_all_heap_of_not_mem w.mem hq
  · intro q hq
    constructor
    · show (w.mem.free_all ns1).live q
      have := hlive2 q hq
      simpa only [Mem.live, free_all_heap_of_not_mem w.mem (hdis q hq)] using this
    · show (w.mem.freed ++ ns1).count q = _
      rw [List.count_append, List.count_eq_zero_of_not_mem (hdis q hq)]
      rfl
  · intro hr2
    rcases h2 with ⟨h0, _⟩ | ht2
    · exact absurd h0 hr2
    · exact subtree_frame ht2 (fun q hq => free_all_heap_of_not_mem w.mem (hdis q hq))
  · intro hnil
    rw [hnil, free_all_nil]

theorem world_rooted_tree : Subtree world_rooted.mem 1 [2, 3, 1] := by
  refine Subtree.node 1 _ [[2], [3]] (by decide) rfl rfl ?_
  intro i hi
  match i, hi with
  | 0, _ => exact Subtree.node 2 _ [] (by decide) rfl rfl (fun j hj => absurd hj (by simp))
  | 1, _ => exact Subtree.node 3 _ [] (by decide) rfl rfl (fun j hj => absurd hj (by simp))
  | n + 2, h => exact absurd h (by simp)

theorem world_rooted_other : Subtree world_rooted.mem 4 [4] :=
  Subtree.node 4 _ [] (by decide) rfl rfl (fun j hj => absurd hj (by simp))

/-- C20, amended, on the app at 9 whose root is the column 1 with the texts
2 and 3: the text 4 becomes the root and 2, 3, 1 are freed. -/
theorem lumi_app_set_content_replaces_root_witness :
    (world_rooted.live_app 9 ∧ world_rooted.root_of 9 = 1 ∧
      Subtree world_rooted.mem 1 [2, 3, 1] ∧ Subtree world_rooted.mem 4 [4]) ∧
    ∃ a w', world_rooted.apps 9 = some a ∧
      lumi_app_set_content 4 world_rooted 9 4 = Res.ok w' ∧
      w'.apps 9 = some { a with root_view := 4 } ∧
      w'.mem.freed = world_rooted.mem.freed ++ [2, 3, 1] ∧
      (∀ q ∈ [2, 3, 1], ¬ w'.mem.live q) ∧
      (∀ q, q ∉ [2, 3, 1] → w'.mem.heap q = world_rooted.mem.heap q) ∧
      (∀ q ∈ [4], w'.mem.live q ∧ w'.mem.freed.count q = world_rooted.mem.freed.count q) ∧
      ((4 : Ptr) ≠ 0 → Subtree w'.mem 4 [4]) ∧
      ([2, 3, 1] = ([] : List Ptr) → w' = world_rooted.put 9 { a with root_view := 4 }) :=
  ⟨⟨by decide, by decide, world_rooted_tree, world_rooted_other⟩,
    lumi_app_set_content_replaces_root 4 world_rooted 9 4 [2, 3, 1] [4] (by decide)
      (by decide) (Or.inr ⟨world_rooted_tree, by decide, by decide⟩)
      (Or.inr world_rooted_other) (by decide)⟩

/-! ## Creation and identity of an application -/

/-- C21: when the allocation succeeds (`calloc` returns `a ≠ NULL`),
`lumi_app_create(manifest, lifecycle, context)` returns null if and only if
`manifest` is null or `lifecycle` is null, and then changes nothing; when
both are present it returns `a`, an app with running = false, paused =
false, no root, the given hook set and the given context, whatever hooks
are bound in the set (none, in particular). -/
theorem lumi_app_create_null_iff (w : World) (a : Ptr) (man : Option lumi_manifest_t)
    (lc : Option lumi_lifecycle_t) (u : Ptr) (ha : a ≠ 0) :
    ((lumi_app_create w a man lc u).2 = 0 ↔ man = none ∨ lc = none) ∧
    ((lumi_app_create w a man lc u).2 = 0 → (lumi_app_create w a man lc u).1 = w) ∧
    (man ≠ none → lc ≠ none →
      (lumi_app_create w a man lc u).2 = a ∧
      ∃ r, (lumi_app_create w a man lc u).1.apps a = some r ∧
        r.running = false ∧ r.paused = false ∧ r.root_view = 0 ∧
        some r.lifecycle = lc ∧ r.userdata = u) := by
  cases man with
  | none =>
    exact ⟨by simp [lumi_app_create], fun _ => by simp [lumi_app_create],
      fun h => absurd rfl h⟩
  | some m =>
    cases lc with
    | none =>
      exact ⟨by simp [lumi_app_create], fun _ => by simp [lumi_app_create],
        fun _ h => absurd rfl h⟩
    | some l =>
      have e2 : (lumi_app_create w a (some m) (some l) u).2 = a := by
        simp [lumi_app_create, ha]
      refine ⟨by rw [e2]; simp [ha], fun h => absurd (e2 ▸ h) ha, ?_⟩
      intro _ _
      refine ⟨e2, ?_⟩
      simp [lumi_app_create, ha, World.put]

/-- C21 for the manifest of the test and a hook set with no hook bound, at
address 1 in an empty process. -/
theorem lumi_app_create_null_iff_witness :
    (1 : Ptr) ≠ 0 ∧
    (((lumi_app_create (World.of_mem Mem.empty) 1 (some test_manifest)
        (some hooks_none) 42).2 = 0 ↔
      some test_manifest = none ∨
      some hooks_none = none) ∧
    ((lumi_app_create (World.of_mem Mem.empty) 1 (some test_manifest)
        (some hooks_none) 42).2 = 0 →
      (lumi_app_create (World.of_mem Mem.empty) 1 (some test_manifest)
        (some hooks_none) 42).1 = World.of_mem Mem.empty) ∧
    (some test_manifest ≠ none →
      some hooks_none ≠ none →
      (lumi_app_create (World.of_mem Mem.empty) 1 (some test_manifest)
        (some hooks_none) 42).2 = 1 ∧
      ∃ r, (lumi_app_create (World.of_mem Mem.empty) 1 (some test_manifest)
        (some hooks_none) 42).1.apps 1 = some r ∧
        r.running = false ∧ r.paused = false ∧ r.root_view = 0 ∧
        some r.lifecycle =
          some hooks_none ∧ r.userdata = 42)) :=
  ⟨by decide, lumi_app_create_null_iff (World.of_mem Mem.empty) 1 (some test_manifest)
    (some hooks_none) 42 (by decide)⟩

/-- C24: every app operation called with a null app handle is a no-op:
`lumi_app_destroy`, `lumi_app_quit`, `lumi_app_set_content` and
`lumi_app_run` (which returns -1) return with the whole state unchanged, so
no hook is invoked, no view is destroyed and the current-instance record and
every app are as before; `lumi_app_get_manifest` and `lumi_app_get_userdata`
return null. -/
theorem null_app_handle_is_noop (env : HookEnv) (fuel : Nat) (w : World) (root : Ptr) :
    lumi_app_destroy env fuel w 0 = Res.ok w ∧
    lumi_app_quit w 0 = Res.ok w ∧
    lumi_app_set_content fuel w 0 root = Res.ok w ∧
    lumi_app_run env w 0 = Res.ok (w, -1) ∧
    lumi_app_get_manifest w 0 = Res.ok none ∧
    lumi_app_get_userdata w 0 = Res.ok 0 :=
  ⟨rfl, rfl, rfl, rfl, rfl, rfl⟩

theorem bind_ok {α β : Type} {r : Res α} {f : α → Res β} {b : β}
    (h : r.bind f = Res.ok b) : ∃ x, r = Res.ok x ∧ f x = Res.ok b := by
  cases r with
  | ok x => exact ⟨x, rfl, h⟩
  | fault => simp [Res.bind] at h
  | timeout => simp [Res.bind] at h

theorem call_hook_keeps_identity {env : HookEnv} {app : Ptr} (hk : keeps_identity env app)
    (k : HookKind) {w w' : World} {a : lumi_app} (hw : w.apps app = some a)
    (h : call_hook env k w app = Res.ok w') :
    ∃ a', w'.apps app = some a' ∧ a'.manifest = a.manifest ∧ a'.userdata = a.userdata := by
  unfold call_hook at h
  rw [hw] at h
  by_cases h0 : k.slot a.lifecycle = 0
  · simp only [h0, if_true, Res.ok.injEq] at h
    subst h
    exact ⟨a, hw, rfl, rfl⟩
  · simp only [h0, if_false] at h
    refine hk _ _ _ _ a ?_ h
    exact hw

theorem main_loop_eq {w w' : World} {app : Ptr} (h : main_loop w app = Res.ok w') : w' = w := by
  unfold main_loop at h
  cases hw : w.apps app with
  | none => simp [hw] at h
  | some a =>
    simp only [hw, ite_self, Res.ok.injEq] at h
    exact h.symm

theorem run_keeps_identity {env : HookEnv} {app : Ptr} (hk : keeps_identity env app)
    {w w' : World} {r : Int} {a : lumi_app} (hne : app ≠ 0) (hw : w.apps app = some a)
    (h : lumi_app_run env w app = Res.ok (w', r)) :
    ∃ a', w'.apps app = some a' ∧ a'.manifest = a.manifest ∧ a'.userdata = a.userdata := by
  unfold lumi_app_run at h
  simp only [if_neg hne, hw] at h
  obtain ⟨w2, h2, h⟩ := bind_ok h
  obtain ⟨w3, h3, h⟩ := bind_ok h
  obtain ⟨w4, h4, h⟩ := bind_ok h
  obtain ⟨w5, h5, h⟩ := bind_ok h
  obtain ⟨w6, h6, h⟩ := bind_ok h
  obtain ⟨w7, h7, h⟩ := bind_ok h
  simp only [Res.ok.injEq, Prod.mk.injEq] at h
  obtain ⟨rfl, _⟩ := h
  obtain ⟨a2, hw2, hm2, hu2⟩ := call_hook_keeps_identity hk _ (put_apps_same _ _ _) h2
  obtain ⟨a3, hw3, hm3, hu3⟩ := call_hook_keeps_identity hk _ hw2 h3
  obtain ⟨a4, hw4, hm4, hu4⟩ := call_hook_keeps_identity hk _ hw3 h4
  have e5 := main_loop_eq h5
  subst e5
  obtain ⟨a6, hw6, hm6, hu6⟩ := call_hook_keeps_identity hk _ hw4 h6
  obtain ⟨a7, hw7, hm7, hu7⟩ := call_hook_keeps_identity hk _ hw6 h7
  exact ⟨a7, hw7, (((hm7.trans hm6).trans hm4).trans hm3).trans hm2,
    (((hu7.trans hu6).trans hu4).trans hu3).trans hu2⟩

theorem app_op_keeps_identity {env : HookEnv} {app : Ptr} {fuel : Nat}
    (hk : keeps_identity env app) (hne : app ≠ 0) (op : AppOp) {w w' : World} {a : lumi_app}
    (hw : w.apps app = some a) (h : op.apply env fuel w app = Res.ok w') :
    ∃ a', w'.apps app = some a' ∧ a'.manifest = a.manifest ∧ a'.userdata = a.userdata := by
  cases op with
  | run =>
    simp only [AppOp.apply] at h
    obtain ⟨r, hr, h⟩ := bind_ok h
    simp only [Res.ok.injEq] at h
    subst h
    exact run_keeps_identity hk hne hw hr
  | quit =>
    simp only [AppOp.apply, quit_eval hne hw, Res.ok.injEq] at h
    subst h
    exact ⟨_, put_apps_same _ _ _, rfl, rfl⟩
  | set_content root =>
    simp only [AppOp.apply, lumi_app_set_content, if_neg hne, hw] at h
    obtain ⟨m1, _, h⟩ := bind_ok h
    simp only [Res.ok.injEq] at h
    subst h
    exact ⟨_, put_apps_same _ _ _, rfl, rfl⟩

theorem app_ops_keep_identity {env : HookEnv} {app : Ptr} {fuel : Nat}
    (hk : keeps_identity env app) (hne : app ≠ 0) (ops : List AppOp) :
    ∀ (w w' : World) (a : lumi_app), w.apps app = some a →
      run_app_ops env fuel app w ops = Res.ok w' →
      ∃ a', w'.apps app = some a' ∧ a'.manifest = a.manifest ∧ a'.userdata = a.userdata := by
  induction ops with
  | nil =>
    intro w w' a hw h
    simp only [run_app_ops, Res.ok.injEq] at h
    subst h
    exact ⟨a, hw, rfl, rfl⟩
  | cons op ops ih =>
    intro w w' a hw h
    simp only [run_app_ops] at h
    obtain ⟨w1, h1, h⟩ := bind_ok h
    obtain ⟨a1, hw1, hm1, hu1⟩ := app_op_keeps_identity hk hne op hw h1
    obtain ⟨a', hw', hm', hu'⟩ := ih w1 w' a1 hw1 h
    exact ⟨a', hw', hm'.trans hm1, hu'.trans hu1⟩

theorem created_manifest (w0 : World) (a : Ptr) (man : lumi_manifest_t) (lc : lumi_lifecycle_t)
    (u : Ptr) (ha : a ≠ 0) :
    (lumi_app_create w0 a (some man) (some lc) u).1.apps a =
      some { manifest := man, lifecycle := lc, userdata := u, root_view := 0,
             running := false, paused := false } := by
  obtain ⟨i, n, v, c⟩ := man
  cases i <;> cases n <;> cases v <;> cases c <;>
    simp [lumi_app_create, ha, World.put, strdup]

theorem getters_of_apps {w : World} {app : Ptr} {a : lumi_app} (hne : app ≠ 0)
    (hw : w.apps app = some a) :
    lumi_app_get_manifest w app = Res.ok (some a.manifest) ∧
      lumi_app_get_userdata w app = Res.ok a.userdata := by
  simp [lumi_app_get_manifest, lumi_app_get_userdata, hne, hw]

/-- C22: for every app created (allocation succeeding) from the manifest
`man` with the context `u`, `lumi_app_get_manifest` returns a record equal
to `man` field by field (an absent field stays absent) and
`lumi_app_get_userdata` returns `u`; and after every sequence of
`lumi_app_run`, `lumi_app_quit` and `lumi_app_set_content` calls that
returns, with hooks that leave the app's identity alone, both getters return
the same results. -/
theorem manifest_and_context_are_kept (env : HookEnv) (fuel : Nat) (w0 : World) (a : Ptr)
    (man : lumi_manifest_t) (lc : lumi_lifecycle_t) (u : Ptr) (ops : List AppOp)
    (ha : a ≠ 0) (hk : keeps_identity env a) :
    lumi_app_get_manifest (lumi_app_create w0 a (some man) (some lc) u).1 a =
      Res.ok (some man) ∧
    lumi_app_get_userdata (lumi_app_create w0 a (some man) (some lc) u).1 a = Res.ok u ∧
    ∀ w', run_app_ops env fuel a (lumi_app_create w0 a (some man) (some lc) u).1 ops =
        Res.ok w' →
      lumi_app_get_manifest w' a = Res.ok (some man) ∧
      lumi_app_get_userdata w' a = Res.ok u := by
  have hc := created_manifest w0 a man lc u ha
  refine ⟨(getters_of_apps ha hc).1, (getters_of_apps ha hc).2, ?_⟩
  intro w' h
  obtain ⟨a', hw', hm', hu'⟩ := app_ops_keep_identity hk ha ops _ w' _ hc h
  have := getters_of_apps ha hw'
  rw [hm', hu'] at this
  exact this

theorem keeps_identity_env_quit_in (f0 app : Ptr) (hne : app ≠ 0) :
    keeps_identity (env_quit_in f0) app := by
  intro f u w w' a hw h
  by_cases hf : f = f0
  · simp only [env_quit_in, if_pos hf, quit_eval hne hw, Res.ok.injEq] at h
    subst h
    exact ⟨_, put_apps_same _ _ _, rfl, rfl⟩
  · simp only [env_quit_in, if_neg hf, Res.ok.injEq] at h
    subst h
    exact ⟨a, hw, rfl, rfl⟩

/-- C22 on an app created at address 9 next to the column 1 with the texts
2 and 3, the on-start hook (function 12) calling `lumi_app_quit`: the column
becomes the root, the app runs, the root is cleared (which destroys the
column), the app is told to quit and runs again. -/
theorem manifest_and_context_are_kept_witness :
    ((9 : Ptr) ≠ 0 ∧ keeps_identity (env_quit_in 12) 9 ∧
      ∃ w', run_app_ops (env_quit_in 12) 4 9
        (lumi_app_create (World.of_mem scene_tree) 9 (some test_manifest)
          (some hooks_all) 42).1
        [AppOp.set_content 1, AppOp.run, AppOp.set_content 0, AppOp.quit, AppOp.run] =
          Res.ok w') ∧
    (lumi_app_get_manifest (lumi_app_create (World.of_mem scene_tree) 9 (some test_manifest)
        (some hooks_all) 42).1 9 = Res.ok (some test_manifest) ∧
    lumi_app_get_userdata (lumi_app_create (World.of_mem scene_tree) 9 (some test_manifest)
        (some hooks_all) 42).1 9 = Res.ok 42 ∧
    ∀ w', run_app_ops (env_quit_in 12) 4 9
        (lumi_app_create (World.of_mem scene_tree) 9 (some test_manifest)
          (some hooks_all) 42).1
        [AppOp.set_content 1, AppOp.run, AppOp.set_content 0, AppOp.quit, AppOp.run] =
          Res.ok w' →
      lumi_app_get_manifest w' 9 = Res.ok (some test_manifest) ∧
      lumi_app_get_userdata w' 9 = Res.ok 42) :=
  ⟨⟨by decide, keeps_identity_env_quit_in 12 9 (by decide), _, rfl⟩,
    manifest_and_context_are_kept (env_quit_in 12) 4 (World.of_mem scene_tree) 9 test_manifest
      hooks_all 42
      [AppOp.set_content 1, AppOp.run, AppOp.set_content 0, AppOp.quit, AppOp.run]
      (by decide) (keeps_identity_env_quit_in 12 9 (by decide))⟩

/-! ## The current instance and the interrupt handler -/

theorem call_hook_quiet {env : HookEnv} (hq : quiet env) (k : HookKind) {w w' : World}
    {app : Ptr} (h : call_hook env k w app = Res.ok w') :
    w'.g_current_app = w.g_current_app ∧ ∀ q, w'.live_app q ↔ w.live_app q := by
  unfold call_hook at h
  cases hw : w.apps app with
  | none => simp [hw] at h
  | some a =>
    rw [hw] at h
    by_cases h0 : k.slot a.lifecycle = 0
    · simp only [h0, if_true, Res.ok.injEq] at h
      subst h
      exact ⟨rfl, fun _ => Iff.rfl⟩
    · simp only [h0, if_false] at h
      have := hq _ _ _ _ _ h
      exact this

theorem live_app_put (w : World) (app : Ptr) (a : lumi_app) (h : w.live_app app) :
    ∀ q, (w.put app a).live_app q ↔ w.live_app q := by
  intro q
  by_cases hq : q = app
  · subst hq
    simp [World.live_app, World.put] at *
    exact h
  · simp [World.live_app, World.put, hq]

theorem run_current {env : HookEnv} (hq : quiet env) {w w' : World} {app : Ptr} {r : Int}
    (hne : app ≠ 0) (h : lumi_app_run env w app = Res.ok (w', r)) :
    w'.g_current_app = app ∧ ∀ q, w'.live_app q ↔ w.live_app q := by
  unfold lumi_app_run at h
  simp only [if_neg hne] at h
  cases hw : w.apps app with
  | none => simp [hw] at h
  | some a =>
    simp only [hw] at h
    obtain ⟨w2, h2, h⟩ := bind_ok h
    obtain ⟨w3, h3, h⟩ := bind_ok h
    obtain ⟨w4, h4, h⟩ := bind_ok h
    obtain ⟨w5, h5, h⟩ := bind_ok h
    obtain ⟨w6, h6, h⟩ := bind_ok h
    obtain ⟨w7, h7, h⟩ := bind_ok h
    simp only [Res.ok.injEq, Prod.mk.injEq] at h
    obtain ⟨rfl, _⟩ := h
    have e5 := main_loop_eq h5
    subst e5
    obtain ⟨g2, l2⟩ := call_hook_quiet hq _ h2
    obtain ⟨g3, l3⟩ := call_hook_quiet hq _ h3
    obtain ⟨g4, l4⟩ := call_hook_quiet hq _ h4
    obtain ⟨g6, l6⟩ := call_hook_quiet hq _ h6
    obtain ⟨g7, l7⟩ := call_hook_quiet hq _ h7
    have hl : w.live_app app := by simp [World.live_app, hw]
    refine ⟨by rw [g7, g6, g4, g3, g2]; rfl, ?_⟩
    intro q
    rw [l7, l6, l4, l3, l2]
    exact live_app_put _ app _ hl q

theorem handler_is_quit (w : World) : sigint_handler w = lumi_app_quit w w.g_current_app := rfl

/-- One step keeps the static `g_current_app` equal to the tracked current
instance, which is null or live. -/
theorem step_tracks {env : HookEnv} {fuel : Nat} (hq : quiet env) (st : LifeStep)
    {w w' : World} {cur : Ptr} (hg : w.g_current_app = cur) (hl : cur = 0 ∨ w.live_app cur)
    (h : st.apply env fuel w = Res.ok w') :
    w'.g_current_app = track_step cur st ∧
      (track_step cur st = 0 ∨ w'.live_app (track_step cur st)) := by
  cases st with
  | create a man lc u =>
    simp only [LifeStep.apply, Res.ok.injEq] at h
    subst h
    simp only [track_step]
    have hw : (lumi_app_create w a man lc u).1 = w ∨
        ∃ r, (lumi_app_create w a man lc u).1 = w.put a r := by
      unfold lumi_app_create
      cases man with
      | none => exact Or.inl rfl
      | some m =>
        cases lc with
        | none => exact Or.inl rfl
        | some l =>
          by_cases ha : a = 0
          · simp [ha]
          · simp only [if_neg ha]
            exact Or.inr ⟨_, rfl⟩
    rcases hw with e | ⟨r, e⟩
    · rw [e]
      exact ⟨hg, hl⟩
    · rw [e]
      refine ⟨hg, ?_⟩
      rcases hl with h0 | h1
      · exact Or.inl h0
      · right
        by_cases hc : cur = a
        · simp [World.live_app, World.put, hc]
        · simpa [World.live_app, World.put, hc] using h1
  | run app =>
    simp only [LifeStep.apply] at h
    obtain ⟨r, hr, h⟩ := bind_ok h
    simp only [Res.ok.injEq] at h
    subst h
    simp only [track_step]
    by_cases hne : app = 0
    · subst hne
      simp only [lumi_app_run, if_true, Res.ok.injEq] at hr
      subst hr
      simp only [if_true]
      exact ⟨hg, hl⟩
    · obtain ⟨hg', hl'⟩ := run_current hq hne hr
      simp only [if_neg hne]
      refine ⟨hg', Or.inr ?_⟩
      rw [hl']
      unfold lumi_app_run at hr
      simp only [if_neg hne] at hr
      cases hw : w.apps app with
      | none => simp [hw] at hr
      | some a => simp [World.live_app, hw]
  | quit app =>
    simp only [LifeStep.apply] at h
    simp only [track_step]
    by_cases hne : app = 0
    · subst hne
      simp only [lumi_app_quit, if_true, Res.ok.injEq] at h
      subst h
      exact ⟨hg, hl⟩
    · cases hw : w.apps app with
      | none => simp [lumi_app_quit, hne, hw] at h
      | some a =>
        rw [quit_eval hne hw, Res.ok.injEq] at h
        subst h
        refine ⟨hg, hl.imp id fun h1 => ?_⟩
        exact (live_app_put w app _ (by simp [World.live_app, hw]) cur).mpr h1
  | destroy app =>
    simp only [LifeStep.apply] at h
    simp only [track_step]
    by_cases hne : app = 0
    · subst hne
      simp only [lumi_app_destroy, if_true, Res.ok.injEq] at h
      subst h
      by_cases hc : cur = 0
      · simp [hc, hg]
      · rw [if_neg hc]
        exact ⟨hg, hl⟩
    · unfold lumi_app_destroy at h
      simp only [if_neg hne] at h
      obtain ⟨w1, h1, h⟩ := bind_ok h
      obtain ⟨g1, l1⟩ := call_hook_quiet hq _ h1
      cases hw1 : w1.apps app with
      | none => simp [hw1] at h
      | some a =>
        simp only [hw1] at h
        obtain ⟨m2, _, h⟩ := bind_ok h
        have hg1 : w1.g_current_app = cur := g1.trans hg
        by_cases hc : cur = app
        · rw [if_pos hc]
          simp only [hg1, hc, if_true, Res.ok.injEq] at h
          subst h
          exact ⟨rfl, Or.inl rfl⟩
        · rw [if_neg hc]
          simp only [hg1, hc, if_false, Res.ok.injEq] at h
          subst h
          refine ⟨rfl, hl.imp id fun h2 => ?_⟩
          have := (l1 cur).mpr h2
          simpa [World.live_app, hc] using this
  | interrupt =>
    simp only [LifeStep.apply, handler_is_quit] at h
    simp only [track_step]
    by_cases hne : w.g_current_app = 0
    · simp only [lumi_app_quit, hne, if_true, Res.ok.injEq] at h
      subst h
      exact ⟨hg, hl⟩
    · cases hw : w.apps w.g_current_app with
      | none => simp [lumi_app_quit, hne, hw] at h
      | some a =>
        rw [quit_eval hne hw, Res.ok.injEq] at h
        subst h
        refine ⟨hg, hl.imp id fun h1 => ?_⟩
        exact (live_app_put w _ _ (by simp [World.live_app, hw]) cur).mpr h1

theorem steps_track {env : HookEnv} {fuel : Nat} (hq : quiet env) (sts : List LifeStep) :
    ∀ (w w' : World) (cur : Ptr), w.g_current_app = cur → (cur = 0 ∨ w.live_app cur) →
      run_steps env fuel w sts = Res.ok w' →
      w'.g_current_app = track cur sts ∧ (track cur sts = 0 ∨ w'.live_app (track cur sts)) := by
  induction sts with
  | nil =>
    intro w w' cur hg hl h
    simp only [run_steps, Res.ok.injEq] at h
    subst h
    exact ⟨hg, hl⟩
  | cons st sts ih =>
    intro w w' cur hg hl h
    simp only [run_steps] at h
    obtain ⟨w1, h1, h⟩ := bind_ok h
    obtain ⟨hg1, hl1⟩ := step_tracks hq st hg hl h1
    exact ih w1 w' _ hg1 hl1 h

/-- C23: in every sequence of create / run / quit / destroy / interrupt
steps of a process (hooks calling none of create, run, destroy) that
returns, the static `g_current_app` is the current instance of the
specification: the app most recently passed to `lumi_app_run` unless it has
been destroyed since. The interrupt handler does exactly what
`lumi_app_quit` does on that instance; when there is none it returns the
state unchanged; and the tracked instance is null or a live app, never a
destroyed one. -/
theorem interrupt_quits_current_instance (env : HookEnv) (fuel : Nat) (m : Mem)
    (sts : List LifeStep) (w' : World) (hq : quiet env)
    (h : run_steps env fuel (World.of_mem m) sts = Res.ok w') :
    w'.g_current_app = track 0 sts ∧
    sigint_handler w' = lumi_app_quit w' (track 0 sts) ∧
    (track 0 sts = 0 → sigint_handler w' = Res.ok w') ∧
    (w'.g_current_app = 0 ∨ w'.live_app w'.g_current_app) := by
  obtain ⟨hg, hl⟩ := steps_track hq sts (World.of_mem m) w' 0 rfl (Or.inl rfl) h
  refine ⟨hg, by rw [← hg]; rfl, ?_, by rw [hg]; exact hl⟩
  intro h0
  rw [handler_is_quit, hg, h0]
  rfl

theorem quiet_env_idle : quiet env_idle := by
  intro f app u w w' h
  simp only [env_idle, Res.ok.injEq] at h
  subst h
  exact ⟨rfl, fun _ => Iff.rfl⟩

/-- C23 on a process in which two apps are created at 1 and 2, both run and
the app 2 is destroyed: there is no current instance afterwards. -/
theorem interrupt_quits_current_instance_witness :
    quiet env_idle ∧ track 0 steps_example = 0 ∧
    ∃ w', run_steps env_idle 1 (World.of_mem Mem.empty) steps_example = Res.ok w' ∧
      (w'.g_current_app = track 0 steps_example ∧
      sigint_handler w' = lumi_app_quit w' (track 0 steps_example) ∧
      (track 0 steps_example = 0 → sigint_handler w' = Res.ok w') ∧
      (w'.g_current_app = 0 ∨ w'.live_app w'.g_current_app)) :=
  ⟨quiet_env_idle, by decide, _, rfl,
    interrupt_quits_current_instance env_idle 1 Mem.empty steps_example _ quiet_env_idle rfl⟩

/-! ## Key-value storage -/

theorem shift_down_apply {α : Type} (n : Nat) : ∀ (f : Nat → α) (j x : Nat),
    shift_down f n j x = if j ≤ x ∧ x < j + n then f (x + 1) else f x := by
  induction n with
  | zero =>
    intro f j x
    have h : ¬ (j ≤ x ∧ x < j) := by omega
    simp [shift_down, h]
  | succ n ih =>
    intro f j x
    rw [shift_down, ih]
    by_cases hx : x = j
    · subst hx
      simp [Function.update]
    · by_cases h1 : j + 1 ≤ x ∧ x < j + 1 + n
      · have h2 : j ≤ x ∧ x < j + (n + 1) := by omega
        have h3 : x + 1 ≠ j := by omega
        simp [h1, h2, Function.update, h3]
      · have h2 : ¬ (j ≤ x ∧ x < j + (n + 1)) := by omega
        simp [h1, h2, Function.update, hx]

theorem find_key_from_some_iff (g : Nat → kv_entry_t) (key : String) (n : Nat) :
    ∀ i k, find_key_from g key n i = some k ↔
      (i ≤ k ∧ k < i + n ∧ (g k).key = some key ∧
        ∀ j, i ≤ j → j < k → (g j).key ≠ some key) := by
  induction n with
  | zero =>
    intro i k
    simp only [find_key_from]
    constructor
    · intro h
      cases h
    · rintro ⟨h1, h2, _⟩
      omega
  | succ n ih =>
    intro i k
    rw [find_key_from]
    by_cases hc : (g i).key = some key
    · simp only [hc, if_true, Option.some.injEq]
      constructor
      · rintro rfl
        exact ⟨le_refl _, by omega, hc, fun j h1 h2 => by omega⟩
      · rintro ⟨h1, _, _, h4⟩
        by_contra hne
        exact h4 i (le_refl _) (by omega) hc
    · simp only [hc, if_false]
      rw [ih]
      constructor
      · rintro ⟨h1, h2, h3, h4⟩
        refine ⟨by omega, by omega, h3, ?_⟩
        intro j hj1 hj2
        by_cases hji : j = i
        · subst hji
          exact hc
        · exact h4 j (by omega) hj2
      · rintro ⟨h1, h2, h3, h4⟩
        have hik : i ≠ k := by
          rintro rfl
          exact hc h3
        exact ⟨by omega, by omega, h3, fun j hj1 hj2 => h4 j (by omega) hj2⟩

theorem find_key_from_none_iff (g : Nat → kv_entry_t) (key : String) (n : Nat) :
    ∀ i, find_key_from g key n i = none ↔
      ∀ j, i ≤ j → j < i + n → (g j).key ≠ some key := by
  induction n with
  | zero =>
    intro i
    simp only [find_key_from, true_iff]
    intro j h1 h2
    omega
  | succ n ih =>
    intro i
    rw [find_key_from]
    by_cases hc : (g i).key = some key
    · simp only [hc, if_true]
      constructor
      · intro h
        cases h
      · intro h
        exact absurd hc (h i (le_refl _) (by omega))
    · simp only [hc, if_false]
      rw [ih]
      constructor
      · intro h j hj1 hj2
        by_cases hji : j = i
        · subst hji
          exact hc
        · exact h j (by omega) (by omega)
      · intro h j hj1 hj2
        exact h j (by omega) (by omega)

theorem find_key_some_iff (st : Store) (key : String) (k : Nat) :
    find_key st key = some k ↔
      (k < st.g_store_count ∧ (st.g_store k).key = some key ∧
        ∀ j, j < k → (st.g_store j).key ≠ some key) := by
  unfold find_key
  rw [find_key_from_some_iff]
  constructor
  · rintro ⟨_, h2, h3, h4⟩
    exact ⟨by omega, h3, fun j hj => h4 j (Nat.zero_le _) hj⟩
  · rintro ⟨h2, h3, h4⟩
    exact ⟨Nat.zero_le _, by omega, h3, fun j _ hj => h4 j hj⟩

theorem find_key_none_iff (st : Store) (key : String) :
    find_key st key = none ↔ ∀ j, j < st.g_store_count → (st.g_store j).key ≠ some key := by
  unfold find_key
  rw [find_key_from_none_iff]
  constructor
  · intro h j hj
    exact h j (Nat.zero_le _) (by omega)
  · intro h j _ hj
    exact h j (by omega)

theorem has_key_iff (st : Store) (key : String) :
    st.has_key key ↔ find_key st key ≠ none := by
  rw [Ne, find_key_none_iff]
  unfold Store.has_key
  constructor
  · rintro ⟨i, hi, hk⟩ h
    exact h i hi hk
  · intro h
    by_contra hn
    apply h
    intro j hj hk
    exact hn ⟨j, hj, hk⟩

/-- C27: storage rejects null arguments without changing the store:
`lumi_storage_set` returns `LUMI_ERR_INVALID` when the key or the value is
null, `lumi_storage_remove(NULL)` returns `LUMI_ERR_INVALID`,
`lumi_storage_get(NULL)` returns null, and the store after each call is the
store before it, so every key's stored value is as before. -/
theorem storage_rejects_null (st : Store) (k v : Option String) (okk okv : Bool) :
    lumi_storage_set st none v okk okv = (st, LUMI_ERR_INVALID) ∧
    lumi_storage_set st k none okk okv = (st, LUMI_ERR_INVALID) ∧
    lumi_storage_remove st none = (st, LUMI_ERR_INVALID) ∧
    lumi_storage_get st none = none ∧
    (∀ q, lumi_storage_get (lumi_storage_set st none v okk okv).1 q = lumi_storage_get st q) ∧
    (∀ q, lumi_storage_get (lumi_storage_set st k none okk okv).1 q = lumi_storage_get st q) ∧
    (∀ q, lumi_storage_get (lumi_storage_remove st none).1 q = lumi_storage_get st q) := by
  have h2 : lumi_storage_set st k none okk okv = (st, LUMI_ERR_INVALID) := by
    cases k <;> rfl
  refine ⟨rfl, h2, rfl, rfl, fun _ => rfl, fun _ => by rw [h2], fun _ => rfl⟩

theorem find_key_from_congr (g g' : Nat → kv_entry_t) (key : String) (n : Nat) :
    ∀ i, (∀ j, i ≤ j → j < i + n → (g' j).key = (g j).key) →
      find_key_from g' key n i = find_key_from g key n i := by
  induction n with
  | zero => intro i _; rfl
  | succ n ih =>
    intro i h
    rw [find_key_from, find_key_from, h i (le_refl _) (by omega),
      ih (i + 1) (fun j h1 h2 => h j (by omega) (by omega))]

theorem get_of_find_some {st : Store} {k : String} {idx : Nat} (h : find_key st k = some idx) :
    lumi_storage_get st (some k) = (st.g_store idx).value := by
  simp [lumi_storage_get, h]

theorem get_of_find_none {st : Store} {k : String} (h : find_key st k = none) :
    lumi_storage_get st (some k) = none := by
  simp [lumi_storage_get, h]

/-- What a `lumi_storage_set` that returns `LUMI_OK` does to the lookups. -/
theorem set_ok_effect (st : Store) (k v : String) (okk okv : Bool)
    (hok : (lumi_storage_set st (some k) (some v) okk okv).2 = LUMI_OK) :
    lumi_storage_get (lumi_storage_set st (some k) (some v) okk okv).1 (some k) = some v ∧
    ∀ k', k' ≠ k →
      lumi_storage_get (lumi_storage_set st (some k) (some v) okk okv).1 (some k') =
        lumi_storage_get st (some k') := by
  cases hf : find_key st k with
  | some idx =>
    have hidx := (find_key_some_iff st k idx).mp hf
    simp only [lumi_storage_set, hf] at hok ⊢
    have hv : strdup_may okv v = some v := by
      cases okv
      · simp [strdup_may] at hok
      · rfl
    have hfind : ∀ key, find_key
        { g_store := Function.update st.g_store idx
            { key := (st.g_store idx).key, value := strdup_may okv v },
          g_store_count := st.g_store_count } key = find_key st key := by
      intro key
      unfold find_key
      apply find_key_from_congr
      intro j _ _
      by_cases hj : j = idx
      · subst hj
        simp
      · simp [Function.update, hj]
    constructor
    · rw [get_of_find_some ((hfind k).trans hf)]
      simp [hv]
    · intro k' hk'
      cases hf' : find_key st k' with
      | none => rw [get_of_find_none ((hfind k').trans hf'), get_of_find_none hf']
      | some j =>
        have hj := (find_key_some_iff st k' j).mp hf'
        have hne : j ≠ idx := by
          rintro rfl
          rw [hidx.2.1] at hj
          exact hk' (Option.some.inj hj.2.1).symm
        rw [get_of_find_some ((hfind k').trans hf'), get_of_find_some hf']
        simp [Function.update, hne]
  | none =>
    have hnone := (find_key_none_iff st k).mp hf
    simp only [lumi_storage_set, hf] at hok ⊢
    by_cases hfull : st.g_store_count ≥ MAX_ENTRIES
    · simp [hfull] at hok
    · simp only [hfull, if_false] at hok ⊢
      have hkk : okk = true := by
        cases okk
        · simp [strdup_may] at hok
        · rfl
      have hvv : okv = true := by
        cases okv
        · simp [strdup_may] at hok
        · rfl
      subst hkk
      subst hvv
      simp only [strdup_may, strdup, if_true, Option.isNone_some, Bool.false_eq_true, or_self,
        if_false]
      have hnew : find_key
          { g_store := Function.update st.g_store st.g_store_count
              { key := some k, value := some v },
            g_store_count := st.g_store_count + 1 } k = some st.g_store_count := by
        rw [find_key_some_iff]
        refine ⟨by simp, by simp, ?_⟩
        intro j hj
        have hjn : j ≠ st.g_store_count := by omega
        simp only [Function.update, hjn, dite_false]
        exact hnone j hj
      constructor
      · rw [get_of_find_some hnew]
        simp
      · intro k' hk'
        cases hf' : find_key st k' with
        | none =>
          have hn' := (find_key_none_iff st k').mp hf'
          rw [get_of_find_none hf', get_of_find_none]
          rw [find_key_none_iff]
          intro j hj
          have hj' : j < st.g_store_count + 1 := hj
          by_cases hjn : j = st.g_store_count
          · subst hjn
            simp only [Function.update, dite_true]
            intro e
            exact hk' (Option.some.inj e).symm
          · simp only [Function.update, hjn, dite_false]
            exact hn' j (by omega)
        | some j =>
          have hj := (find_key_some_iff st k' j).mp hf'
          have hjn : j ≠ st.g_store_count := by omega
          have : find_key
              { g_store := Function.update st.g_store st.g_store_count
                  { key := some k, value := some v },
                g_store_count := st.g_store_count + 1 } k' = some j := by
            rw [find_key_some_iff]
            refine ⟨Nat.lt_succ_of_lt hj.1, ?_, ?_⟩
            · simp only [Function.update, hjn, dite_false]
              exact hj.2.1
            intro i hi
            have hin : i ≠ st.g_store_count := by omega
            simp only [Function.update, hin, dite_false]
            exact hj.2.2 i hi
          rw [get_of_find_some this, get_of_find_some hf']
          simp [Function.update, hjn]


theorem wf_init : Store.init.wf := by
  refine ⟨Nat.zero_le _, ?_, ?_⟩
  · intro i hi
    exact absurd hi (Nat.not_lt_zero i)
  · intro i j hi
    exact absurd hi (Nat.not_lt_zero i)

/-- The entry at `j` after the shifting loop of `lumi_storage_remove` at `idx`. -/
theorem removed_entry (st : Store) (idx j : Nat) (hidx : idx < st.g_store_count)
    (hj : j < st.g_store_count - 1) :
    shift_down st.g_store (st.g_store_count - 1 - idx) idx j =
      st.g_store (if j < idx then j else j + 1) := by
  rw [shift_down_apply]
  by_cases h : j < idx
  · rw [if_neg (by omega), if_pos h]
  · rw [if_pos (by omega), if_neg h]

theorem wf_set (st : Store) (hwf : st.wf) (key value : Option String) (okk okv : Bool) :
    (lumi_storage_set st key value okk okv).1.wf := by
  obtain ⟨hc, hk, hinj⟩ := hwf
  cases key with
  | none => exact ⟨hc, hk, hinj⟩
  | some k =>
    cases value with
    | none => exact ⟨hc, hk, hinj⟩
    | some v =>
      cases hf : find_key st k with
      | some idx =>
        simp only [lumi_storage_set, hf]
        have hkey : ∀ j, (Function.update st.g_store idx
            { key := (st.g_store idx).key, value := strdup_may okv v } j).key =
            (st.g_store j).key := by
          intro j
          by_cases hj : j = idx
          · subst hj
            simp
          · simp [Function.update, hj]
        refine ⟨hc, ?_, ?_⟩
        · intro i hi
          rw [hkey]
          exact hk i hi
        · intro i j hi hj
          rw [hkey, hkey]
          exact hinj i j hi hj
      | none =>
        have hnone := (find_key_none_iff st k).mp hf
        simp only [lumi_storage_set, hf]
        by_cases hfull : st.g_store_count ≥ MAX_ENTRIES
        · simp only [hfull, if_true]
          exact ⟨hc, hk, hinj⟩
        · simp only [hfull, if_false]
          have hold : ∀ (e : kv_entry_t) (j : Nat), j < st.g_store_count →
              Function.update st.g_store st.g_store_count e j = st.g_store j := by
            intro e j hj
            have : j ≠ st.g_store_count := by omega
            simp [Function.update, this]
          by_cases hfail : (strdup_may okk k).isNone = true ∨ (strdup_may okv v).isNone = true
          · simp only [hfail, if_true]
            refine ⟨hc, ?_, ?_⟩
            · intro i hi
              dsimp only at hi ⊢
              rw [hold _ i hi]
              exact hk i hi
            · intro i j hi hj
              dsimp only at hi hj ⊢
              rw [hold _ i hi, hold _ j hj]
              exact hinj i j hi hj
          · simp only [hfail, if_false]
            have hkk : strdup_may okk k = some k := by
              cases okk
              · simp [strdup_may] at hfail
              · rfl
            refine ⟨Nat.succ_le_of_lt (Nat.lt_of_not_ge hfull), ?_, ?_⟩
            · intro i hi
              have hi' : i < st.g_store_count + 1 := hi
              dsimp only
              by_cases hin : i = st.g_store_count
              · subst hin
                simp [hkk]
              · rw [hold _ i (by omega)]
                exact hk i (by omega)
            · intro i j hi hj
              have hi' : i < st.g_store_count + 1 := hi
              have hj' : j < st.g_store_count + 1 := hj
              dsimp only
              by_cases hin : i = st.g_store_count
              · by_cases hjn : j = st.g_store_count
                · intro _
                  rw [hin, hjn]
                · intro e
                  exfalso
                  rw [hin, hold _ j (by omega)] at e
                  simp only [Function.update_same, hkk] at e
                  exact hnone j (by omega) e.symm
              · by_cases hjn : j = st.g_store_count
                · intro e
                  exfalso
                  rw [hjn, hold _ i (by omega)] at e
                  simp only [Function.update_same, hkk] at e
                  exact hnone i (by omega) e
                · rw [hold _ i (by omega), hold _ j (by omega)]
                  exact hinj i j (by omega) (by omega)

theorem wf_remove (st : Store) (hwf : st.wf) (key : Option String) :
    (lumi_storage_remove st key).1.wf := by
  obtain ⟨hc, hk, hinj⟩ := hwf
  cases key with
  | none => exact ⟨hc, hk, hinj⟩
  | some k =>
    cases hf : find_key st k with
    | none =>
      simp only [lumi_storage_remove, hf]
      exact ⟨hc, hk, hinj⟩
    | some idx =>
      have hidx := ((find_key_some_iff st k idx).mp hf).1
      simp only [lumi_storage_remove, hf]
      refine ⟨le_trans (Nat.sub_le _ _) hc, ?_, ?_⟩
      · intro i hi
        dsimp only at hi ⊢
        rw [removed_entry st idx i hidx hi]
        apply hk
        split <;> omega
      · intro i j hi hj
        dsimp only at hi hj ⊢
        rw [removed_entry st idx i hidx hi, removed_entry st idx j hidx hj]
        intro e
        have := hinj _ _ (by split <;> omega) (by split <;> omega) e
        split at this <;> split at this <;> omega

theorem wf_apply (st : Store) (hwf : st.wf) (op : StoreOp) : (op.apply st).wf := by
  cases op with
  | set k v okk okv => exact wf_set st hwf k v okk okv
  | remove k => exact wf_remove st hwf k
  | clear =>
    refine ⟨Nat.zero_le _, ?_, ?_⟩
    · intro i hi
      exact absurd hi (Nat.not_lt_zero i)
    · intro i j hi
      exact absurd hi (Nat.not_lt_zero i)

theorem wf_run (ops : List StoreOp) : ∀ st : Store, st.wf → (store_run st ops).wf := by
  induction ops with
  | nil => intro st h; exact h
  | cons op ops ih => intro st h; exact ih _ (wf_apply st h op)

/-- What a `lumi_storage_remove` of a present key does to the lookups. -/
theorem remove_present_effect (st : Store) (hwf : st.wf) (k : String) (idx : Nat)
    (hf : find_key st k = some idx) :
    (lumi_storage_remove st (some k)).2 = LUMI_OK ∧
    find_key (lumi_storage_remove st (some k)).1 k = none ∧
    ∀ k', k' ≠ k →
      lumi_storage_get (lumi_storage_remove st (some k)).1 (some k') =
        lumi_storage_get st (some k') := by
  obtain ⟨_, _, hinj⟩ := hwf
  obtain ⟨hidx, hkey, hmin⟩ := (find_key_some_iff st k idx).mp hf
  simp only [lumi_storage_remove, hf]
  have hnone : find_key
      { g_store := shift_down st.g_store (st.g_store_count - 1 - idx) idx,
        g_store_count := st.g_store_count - 1 } k = none := by
    rw [find_key_none_iff]
    intro j hj
    have hj' : j < st.g_store_count - 1 := hj
    show (shift_down st.g_store (st.g_store_count - 1 - idx) idx j).key ≠ some k
    rw [removed_entry st idx j hidx hj']
    by_cases h : j < idx
    · rw [if_pos h]
      exact hmin j h
    · rw [if_neg h]
      intro e
      have := hinj (j + 1) idx (by omega) hidx (e.trans hkey.symm)
      omega
  refine ⟨trivial, hnone, ?_⟩
  intro k' hk'
  cases hf' : find_key st k' with
  | none =>
    have hn' := (find_key_none_iff st k').mp hf'
    rw [get_of_find_none hf', get_of_find_none]
    rw [find_key_none_iff]
    intro j hj
    have hj' : j < st.g_store_count - 1 := hj
    show (shift_down st.g_store (st.g_store_count - 1 - idx) idx j).key ≠ some k'
    rw [removed_entry st idx j hidx hj']
    apply hn'
    split <;> omega
  | some j0 =>
    obtain ⟨hj0, hkey0, hmin0⟩ := (find_key_some_iff st k' j0).mp hf'
    have hne : j0 ≠ idx := by
      rintro rfl
      rw [hkey] at hkey0
      exact hk' (Option.some.inj hkey0).symm
    rw [get_of_find_some hf']
    by_cases hlt : j0 < idx
    · have : find_key
          { g_store := shift_down st.g_store (st.g_store_count - 1 - idx) idx,
            g_store_count := st.g_store_count - 1 } k' = some j0 := by
        rw [find_key_some_iff]
        have hb : j0 < st.g_store_count - 1 := by omega
        refine ⟨hb, ?_, ?_⟩
        · show (shift_down st.g_store (st.g_store_count - 1 - idx) idx j0).key = some k'
          rw [removed_entry st idx j0 hidx hb, if_pos hlt]
          exact hkey0
        · intro j hj
          show (shift_down st.g_store (st.g_store_count - 1 - idx) idx j).key ≠ some k'
          rw [removed_entry st idx j hidx (by omega), if_pos (by omega)]
          exact hmin0 j hj
      rw [get_of_find_some this]
      show (shift_down st.g_store (st.g_store_count - 1 - idx) idx j0).value = _
      rw [removed_entry st idx j0 hidx (by omega), if_pos hlt]
    · have : find_key
          { g_store := shift_down st.g_store (st.g_store_count - 1 - idx) idx,
            g_store_count := st.g_store_count - 1 } k' = some (j0 - 1) := by
        rw [find_key_some_iff]
        have hb : j0 - 1 < st.g_store_count - 1 := by omega
        refine ⟨hb, ?_, ?_⟩
        · show (shift_down st.g_store (st.g_store_count - 1 - idx) idx (j0 - 1)).key = some k'
          rw [removed_entry st idx (j0 - 1) hidx hb, if_neg (by omega)]
          have : j0 - 1 + 1 = j0 := by omega
          rw [this]
          exact hkey0
        · intro j hj
          show (shift_down st.g_store (st.g_store_count - 1 - idx) idx j).key ≠ some k'
          rw [removed_entry st idx j hidx (by omega)]
          apply hmin0
          split <;> omega
      rw [get_of_find_some this]
      show (shift_down st.g_store (st.g_store_count - 1 - idx) idx (j0 - 1)).value = _
      rw [removed_entry st idx (j0 - 1) hidx (by omega), if_neg (by omega)]
      have : j0 - 1 + 1 = j0 := by omega
      rw [this]


theorem get_of_not_has_key {st : Store} {k : String} (h : ¬ st.has_key k) :
    lumi_storage_get st (some k) = none := by
  apply get_of_find_none
  by_contra hn
  exact h ((has_key_iff st k).mpr hn)

/-- A key present after a call was present before it, or the call set it. -/
theorem has_key_apply (st : Store) (op : StoreOp) (k : String)
    (h : (op.apply st).has_key k) : st.has_key k ∨ op.sets_key k = true := by
  cases op with
  | clear =>
    obtain ⟨i, hi, _⟩ := h
    exact absurd hi (Nat.not_lt_zero i)
  | remove key =>
    cases key with
    | none => exact Or.inl h
    | some k' =>
      cases hf : find_key st k' with
      | none =>
        simp only [StoreOp.apply, lumi_storage_remove, hf] at h
        exact Or.inl h
      | some idx =>
        have hidx := ((find_key_some_iff st k' idx).mp hf).1
        simp only [StoreOp.apply, lumi_storage_remove, hf] at h
        obtain ⟨i, hi, hk⟩ := h
        dsimp only at hi hk
        rw [removed_entry st idx i hidx hi] at hk
        exact Or.inl ⟨_, by split <;> omega, hk⟩
  | set key value okk okv =>
    cases key with
    | none => exact Or.inl h
    | some k' =>
      cases value with
      | none => exact Or.inl h
      | some v =>
        cases hf : find_key st k' with
        | some idx =>
          simp only [StoreOp.apply, lumi_storage_set, hf] at h
          obtain ⟨i, hi, hk⟩ := h
          dsimp only at hi hk
          refine Or.inl ⟨i, hi, ?_⟩
          by_cases hj : i = idx
          · subst hj
            simpa using hk
          · simpa [Function.update, hj] using hk
        | none =>
          simp only [StoreOp.apply, lumi_storage_set, hf] at h
          by_cases hfull : st.g_store_count ≥ MAX_ENTRIES
          · simp only [hfull, if_true] at h
            exact Or.inl h
          · simp only [hfull, if_false] at h
            by_cases hfail : (strdup_may okk k').isNone = true ∨ (strdup_may okv v).isNone = true
            · simp only [hfail, if_true] at h
              obtain ⟨i, hi, hk⟩ := h
              dsimp only at hi hk
              have hin : i ≠ st.g_store_count := by omega
              refine Or.inl ⟨i, hi, ?_⟩
              simpa [Function.update, hin] using hk
            · simp only [hfail, if_false] at h
              obtain ⟨i, hi, hk⟩ := h
              dsimp only at hi hk
              have hkk : strdup_may okk k' = some k' := by
                cases okk
                · simp [strdup_may] at hfail
                · rfl
              by_cases hin : i = st.g_store_count
              · right
                subst hin
                simp only [Function.update_same, hkk, Option.some.injEq] at hk
                simp [StoreOp.sets_key, hk]
              · refine Or.inl ⟨i, by omega, ?_⟩
                simpa [Function.update, hin] using hk

/-- Calls that do not set `k` do not make it present. -/
theorem not_has_key_run (k : String) (ops : List StoreOp) :
    ∀ st : Store, (∀ op ∈ ops, StoreOp.sets_key k op = false) → ¬ st.has_key k →
      ¬ (store_run st ops).has_key k := by
  induction ops with
  | nil => intro st _ h; exact h
  | cons op ops ih =>
    intro st hops h
    apply ih
    · intro o ho
      exact hops o (List.mem_cons_of_mem _ ho)
    · intro hk
      rcases has_key_apply st op k hk with h1 | h1
      · exact h h1
      · rw [hops op (List.mem_cons_self _ _)] at h1
        cases h1

theorem not_has_key_init (k : String) : ¬ Store.init.has_key k := by
  rintro ⟨i, hi, _⟩
  exact absurd hi (Nat.not_lt_zero i)

theorem not_has_key_clear (st : Store) (k : String) : ¬ (lumi_storage_clear st).1.has_key k := by
  rintro ⟨i, hi, _⟩
  exact absurd hi (Nat.not_lt_zero i)

theorem not_has_key_remove (st : Store) (hwf : st.wf) (k : String) :
    ¬ (lumi_storage_remove st (some k)).1.has_key k := by
  rw [has_key_iff, not_not]
  cases hf : find_key st k with
  | none =>
    simp only [lumi_storage_remove, hf]
  | some idx => exact (remove_present_effect st hwf k idx hf).2.1

theorem remove_absent_eval (st : Store) (k : String) (h : ¬ st.has_key k) :
    lumi_storage_remove st (some k) = (st, LUMI_ERR_NOT_FOUND) := by
  have hf : find_key st k = none := by
    by_contra hn
    exact h ((has_key_iff st k).mpr hn)
  simp [lumi_storage_remove, hf]

/-- C25: for every store state and non-null key `k` and value `v`, a
`lumi_storage_set(k, v)` that returns `LUMI_OK` makes `lumi_storage_get(k)`
return `v` (new entry or overwrite alike) and leaves what `lumi_storage_get`
returns for every other key; and `lumi_storage_get(k)` returns null when `k`
was never set since program start, or not set again since it was removed or
since the store was cleared. -/
theorem storage_get_returns_last_set (st : Store) (k v : String) (okk okv : Bool)
    (ops rest : List StoreOp) :
    ((lumi_storage_set st (some k) (some v) okk okv).2 = LUMI_OK →
      lumi_storage_get (lumi_storage_set st (some k) (some v) okk okv).1 (some k) = some v ∧
      ∀ k', k' ≠ k →
        lumi_storage_get (lumi_storage_set st (some k) (some v) okk okv).1 (some k') =
          lumi_storage_get st (some k')) ∧
    ((∀ op ∈ rest, StoreOp.sets_key k op = false) →
      lumi_storage_get (store_run Store.init rest) (some k) = none ∧
      lumi_storage_get
        (store_run (lumi_storage_remove (store_run Store.init ops) (some k)).1 rest)
        (some k) = none ∧
      lumi_storage_get (store_run (lumi_storage_clear st).1 rest) (some k) = none) := by
  refine ⟨set_ok_effect st k v okk okv, ?_⟩
  intro hrest
  refine ⟨?_, ?_, ?_⟩
  · exact get_of_not_has_key (not_has_key_run k rest _ hrest (not_has_key_init k))
  · exact get_of_not_has_key (not_has_key_run k rest _ hrest
      (not_has_key_remove _ (wf_run ops _ wf_init) k))
  · exact get_of_not_has_key (not_has_key_run k rest _ hrest (not_has_key_clear st k))

theorem storage_get_returns_last_set_witness :
    (lumi_storage_set store_test (some "key1") (some "updated") true true).2 = LUMI_OK ∧
    lumi_storage_get
      (lumi_storage_set store_test (some "key1") (some "updated") true true).1 (some "key1")
      = some "updated" ∧
    lumi_storage_get
      (lumi_storage_set store_test (some "key1") (some "updated") true true).1 (some "key2")
      = some "value2" ∧
    lumi_storage_get
      (store_run
        (lumi_storage_remove
          (store_run Store.init [StoreOp.set (some "key1") (some "value1") true true])
          (some "key1")).1
        [StoreOp.set (some "key2") (some "value2") true true])
      (some "key1") = none :=
  have h := storage_get_returns_last_set store_test "key1" "updated" true true
    [StoreOp.set (some "key1") (some "value1") true true]
    [StoreOp.set (some "key2") (some "value2") true true]
  ⟨by decide, (h.1 (by decide)).1,
    ((h.1 (by decide)).2 "key2" (by decide)).trans (by decide),
    (h.2 (by decide)).2.1⟩

/-- C26: in every store state reached from program start and for every
non-null key `k`, `lumi_storage_remove(k)` returns `LUMI_OK` exactly when `k`
is present; then `lumi_storage_get(k)` returns null and every other key keeps
its value; when `k` is absent the call returns `LUMI_ERR_NOT_FOUND` and the
store is unchanged; a second remove of `k` returns `LUMI_ERR_NOT_FOUND`. -/
theorem storage_remove_iff_present (ops : List StoreOp) (k : String) :
    ((lumi_storage_remove (store_run Store.init ops) (some k)).2 = LUMI_OK ↔
      (store_run Store.init ops).has_key k) ∧
    ((store_run Store.init ops).has_key k →
      lumi_storage_get (lumi_storage_remove (store_run Store.init ops) (some k)).1 (some k)
        = none ∧
      ∀ k', k' ≠ k →
        lumi_storage_get (lumi_storage_remove (store_run Store.init ops) (some k)).1 (some k')
          = lumi_storage_get (store_run Store.init ops) (some k')) ∧
    (¬ (store_run Store.init ops).has_key k →
      lumi_storage_remove (store_run Store.init ops) (some k) =
        (store_run Store.init ops, LUMI_ERR_NOT_FOUND)) ∧
    lumi_storage_remove (lumi_storage_remove (store_run Store.init ops) (some k)).1 (some k) =
      ((lumi_storage_remove (store_run Store.init ops) (some k)).1, LUMI_ERR_NOT_FOUND) := by
  have hwf := wf_run ops _ wf_init
  refine ⟨?_, ?_, remove_absent_eval _ k, ?_⟩
  · rw [has_key_iff]
    cases hf : find_key (store_run Store.init ops) k with
    | none => simp [lumi_storage_remove, hf]
    | some idx => simp [lumi_storage_remove, hf]
  · intro hp
    rw [has_key_iff] at hp
    cases hf : find_key (store_run Store.init ops) k with
    | none => exact absurd hf hp
    | some idx =>
      have := remove_present_effect _ hwf k idx hf
      exact ⟨get_of_find_none this.2.1, this.2.2⟩
  · exact remove_absent_eval _ k (not_has_key_remove _ hwf k)


theorem storage_remove_iff_present_witness :
    store_test = store_run Store.init
      [StoreOp.clear, StoreOp.set (some "key1") (some "value1") true true,
        StoreOp.set (some "key2") (some "value2") true true] ∧
    store_test.has_key "key1" ∧
    (lumi_storage_remove store_test (some "key1")).2 = LUMI_OK ∧
    lumi_storage_get (lumi_storage_remove store_test (some "key1")).1 (some "key1") = none ∧
    lumi_storage_get (lumi_storage_remove store_test (some "key1")).1 (some "key2")
      = some "value2" ∧
    ¬ store_test.has_key "key3" ∧
    lumi_storage_remove store_test (some "key3") = (store_test, LUMI_ERR_NOT_FOUND) :=
  have h := storage_remove_iff_present
    [StoreOp.clear, StoreOp.set (some "key1") (some "value1") true true,
      StoreOp.set (some "key2") (some "value2") true true] "key1"
  have h3 := storage_remove_iff_present
    [StoreOp.clear, StoreOp.set (some "key1") (some "value1") true true,
      StoreOp.set (some "key2") (some "value2") true true] "key3"
  have hp : store_test.has_key "key1" := ⟨0, by decide, by decide⟩
  have hn : ¬ store_test.has_key "key3" := fun hk =>
    absurd (h3.1.mpr hk) (by decide)
  ⟨rfl, hp, h.1.mpr hp, (h.2.1 hp).1, ((h.2.1 hp).2 "key2" (by decide)).trans (by decide),
    hn, h3.2.2.1 hn⟩

/-! ## Timers -/

theorem free_slot_none_iff (g : Nat → timer_entry_t) (n : Nat) : ∀ i,
    free_slot g n i = none ↔ ∀ j, i ≤ j → j < i + n → (g j).active = true := by
  induction n with
  | zero =>
    intro i
    simp only [free_slot, true_iff]
    intro j h1 h2
    omega
  | succ n ih =>
    intro i
    rw [free_slot]
    by_cases ha : (g i).active = true
    · rw [if_pos ha, ih]
      constructor
      · intro h j h1 h2
        by_cases hj : j = i
        · rw [hj]; exact ha
        · exact h j (by omega) (by omega)
      · intro h j h1 h2
        exact h j (by omega) (by omega)
    · rw [if_neg ha]
      constructor
      · intro h
        cases h
      · intro h
        exact absurd (h i (le_refl _) (by omega)) ha

theorem active_slot_none_iff (g : Nat → timer_entry_t) (t : Int) (n : Nat) : ∀ i,
    active_slot g t n i = none ↔
      ∀ j, i ≤ j → j < i + n → ¬ ((g j).active = true ∧ (g j).id = t) := by
  induction n with
  | zero =>
    intro i
    simp only [active_slot, true_iff]
    intro j h1 h2
    omega
  | succ n ih =>
    intro i
    rw [active_slot]
    by_cases ha : (g i).active = true ∧ (g i).id = t
    · rw [if_pos ha]
      constructor
      · intro h
        cases h
      · intro h
        exact absurd ha (h i (le_refl _) (by omega))
    · rw [if_neg ha, ih]
      constructor
      · intro h j h1 h2
        by_cases hj : j = i
        · rw [hj]; exact ha
        · exact h j (by omega) (by omega)
      · intro h j h1 h2
        exact h j (by omega) (by omega)

/-- The three outcomes of `lumi_timer_set` below the overflow. -/
theorem timer_set_cases (st : Timers) (d : Nat) (r : Bool) (cb ud : Ptr)
    (hn : st.g_next_timer_id < INT_MAX) :
    ((cb = 0 ∨ ∀ i, i < MAX_TIMERS → (st.g_timers i).active = true) ∧
      lumi_timer_set st d r cb ud = Res.ok (st, -1)) ∨
    ((¬ (cb = 0 ∨ ∀ i, i < MAX_TIMERS → (st.g_timers i).active = true)) ∧
      ∃ st', lumi_timer_set st d r cb ud = Res.ok (st', st.g_next_timer_id) ∧
        st'.g_next_timer_id = st.g_next_timer_id + 1) := by
  unfold lumi_timer_set
  by_cases hcb : cb = 0
  · left
    exact ⟨Or.inl hcb, by simp [hcb]⟩
  · rw [if_neg hcb]
    cases hf : free_slot st.g_timers MAX_TIMERS 0 with
    | none =>
      left
      refine ⟨Or.inr ?_, rfl⟩
      intro i hi
      exact (free_slot_none_iff _ _ _).mp hf i (Nat.zero_le _) (by omega)
    | some i =>
      right
      constructor
      · rintro (h | h)
        · exact hcb h
        · have : free_slot st.g_timers MAX_TIMERS 0 = none := by
            rw [free_slot_none_iff]
            intro j _ hj
            exact h j (by omega)
          rw [this] at hf
          cases hf
      · have hlt : ¬ st.g_next_timer_id ≥ INT_MAX := not_le.mpr hn
        simp only [hlt, if_false]
        exact ⟨_, rfl, rfl⟩

theorem timer_cancel_next (st : Timers) (t : Int) :
    (lumi_timer_cancel st t).g_next_timer_id = st.g_next_timer_id := by
  unfold lumi_timer_cancel
  cases active_slot st.g_timers t MAX_TIMERS 0 <;> rfl

/-- Enough room below `INT_MAX` for one increment per call: the calls return. -/
theorem timer_run_total (ops : List TimerOp) : ∀ st : Timers,
    st.g_next_timer_id + (ops.length : Int) ≤ INT_MAX →
    ∃ st' ids, timer_run st ops = Res.ok (st', ids) := by
  induction ops with
  | nil =>
    intro st _
    exact ⟨st, [], rfl⟩
  | cons op ops ih =>
    intro st h
    simp only [List.length_cons, Nat.cast_add, Nat.cast_one] at h
    cases op with
    | cancel t =>
      simp only [timer_run]
      apply ih
      rw [timer_cancel_next]
      omega
    | set d r cb ud =>
      rcases timer_set_cases st d r cb ud (by omega) with ⟨_, he⟩ | ⟨_, st1, he, hn⟩
      · obtain ⟨st', ids, hr⟩ := ih st (by omega)
        exact ⟨st', -1 :: ids, by simp [timer_run, he, Res.bind, hr]⟩
      · obtain ⟨st', ids, hr⟩ := ih st1 (by omega)
        exact ⟨st', st.g_next_timer_id :: ids, by simp [timer_run, he, Res.bind, hr]⟩

/-- The ids returned by a run lie between the counter before and after it, and
each is larger than the ones before it. -/
theorem timer_run_ids (ops : List TimerOp) : ∀ (st st' : Timers) (ids : List Int),
    1 ≤ st.g_next_timer_id → timer_run st ops = Res.ok (st', ids) →
    st.g_next_timer_id ≤ st'.g_next_timer_id ∧
    (∀ x ∈ ids, x = -1 ∨ (st.g_next_timer_id ≤ x ∧ x < st'.g_next_timer_id)) ∧
    ids.Pairwise (fun x y => y ≠ -1 → x < y) := by
  induction ops with
  | nil =>
    intro st st' ids _ h
    simp only [timer_run, Res.ok.injEq, Prod.mk.injEq] at h
    obtain ⟨h1, h2⟩ := h
    subst h1
    subst h2
    exact ⟨le_refl _, by simp, List.Pairwise.nil⟩
  | cons op ops ih =>
    intro st st' ids hone h
    cases op with
    | cancel t =>
      simp only [timer_run] at h
      have := ih _ _ _ (by rw [timer_cancel_next]; exact hone) h
      rw [timer_cancel_next] at this
      exact this
    | set d r cb ud =>
      simp only [timer_run] at h
      cases hs : lumi_timer_set st d r cb ud with
      | fault => simp [hs, Res.bind] at h
      | timeout => simp [hs, Res.bind] at h
      | ok p =>
        obtain ⟨st1, x⟩ := p
        cases hr : timer_run st1 ops with
        | fault => simp [hs, hr, Res.bind] at h
        | timeout => simp [hs, hr, Res.bind] at h
        | ok q =>
          obtain ⟨st2, ids2⟩ := q
          simp only [hs, hr, Res.bind, Res.ok.injEq, Prod.mk.injEq] at h
          obtain ⟨h1, h2⟩ := h
          subst h1
          subst h2
          have hx : (x = -1 ∧ st1 = st) ∨
              (x = st.g_next_timer_id ∧ st1.g_next_timer_id = st.g_next_timer_id + 1) := by
            unfold lumi_timer_set at hs
            by_cases hcb : cb = 0
            · simp only [hcb, if_true, Res.ok.injEq, Prod.mk.injEq] at hs
              exact Or.inl ⟨hs.2.symm, hs.1.symm⟩
            · rw [if_neg hcb] at hs
              cases hf : free_slot st.g_timers MAX_TIMERS 0 with
              | none =>
                simp only [hf, Res.ok.injEq, Prod.mk.injEq] at hs
                exact Or.inl ⟨hs.2.symm, hs.1.symm⟩
              | some i =>
                simp only [hf] at hs
                by_cases hov : st.g_next_timer_id ≥ INT_MAX
                · simp [hov] at hs
                · simp only [hov, if_false, Res.ok.injEq, Prod.mk.injEq] at hs
                  right
                  refine ⟨hs.2.symm, ?_⟩
                  rw [← hs.1]
          rcases hx with ⟨hx1, hx2⟩ | ⟨hx1, hx2⟩
          · subst hx2
            obtain ⟨hle, hmem, hpw⟩ := ih _ _ _ hone hr
            refine ⟨hle, ?_, ?_⟩
            · intro y hy
              rcases List.mem_cons.mp hy with hy | hy
              · exact Or.inl (hy.trans hx1)
              · exact hmem y hy
            · refine List.Pairwise.cons ?_ hpw
              intro y hy hne
              rcases hmem y hy with h1 | ⟨h1, _⟩
              · exact absurd h1 hne
              · rw [hx1]
                omega
          · obtain ⟨hle, hmem, hpw⟩ := ih _ _ _ (by omega) hr
            refine ⟨by omega, ?_, ?_⟩
            · intro y hy
              rcases List.mem_cons.mp hy with hy | hy
              · right
                rw [hy, hx1]
                exact ⟨le_refl _, by omega⟩
              · rcases hmem y hy with h1 | ⟨h1, h2⟩
                · exact Or.inl h1
                · exact Or.inr ⟨by omega, h2⟩
            · refine List.Pairwise.cons ?_ hpw
              intro y hy hne
              rcases hmem y hy with h1 | ⟨h1, _⟩
              · exact absurd h1 hne
              · omega


theorem timer_cancel_absent (st : Timers) (t : Int)
    (h : ∀ i, i < MAX_TIMERS → ¬ ((st.g_timers i).active = true ∧ (st.g_timers i).id = t)) :
    lumi_timer_cancel st t = st := by
  have : active_slot st.g_timers t MAX_TIMERS 0 = none := by
    rw [active_slot_none_iff]
    intro j _ hj
    exact h j (by omega)
  simp [lumi_timer_cancel, this]

/-- C28: for every sequence of `lumi_timer_set` / `lumi_timer_cancel` calls
from program start, the calls return when the sequence is shorter than
`INT_MAX`; whenever they return, every `lumi_timer_set` result is `-1` or
greater than 0, and a result other than `-1` is strictly greater than every
earlier result; in the state reached, with the counter below `INT_MAX`, a
further `lumi_timer_set` returns `-1` exactly when the callback is null or all
256 slots are active, and then changes nothing; and `lumi_timer_cancel` of an
id that no active slot has changes nothing. -/
theorem timer_ids_increase (ops : List TimerOp) :
    ((ops.length : Int) < INT_MAX →
      ∃ st ids, timer_run Timers.init ops = Res.ok (st, ids)) ∧
    ∀ st ids, timer_run Timers.init ops = Res.ok (st, ids) →
      (∀ x ∈ ids, x = -1 ∨ 0 < x) ∧
      ids.Pairwise (fun x y => y ≠ -1 → x < y) ∧
      (∀ (d : Nat) (r : Bool) (cb ud : Ptr), st.g_next_timer_id < INT_MAX →
        ∃ st' x, lumi_timer_set st d r cb ud = Res.ok (st', x) ∧
          (x = -1 ↔ (cb = 0 ∨ ∀ i, i < MAX_TIMERS → (st.g_timers i).active = true)) ∧
          (x = -1 → st' = st) ∧
          (x ≠ -1 → x = st.g_next_timer_id ∧ 0 < x)) ∧
      (∀ t : Int,
        (∀ i, i < MAX_TIMERS → ¬ ((st.g_timers i).active = true ∧ (st.g_timers i).id = t)) →
        lumi_timer_cancel st t = st) := by
  constructor
  · intro h
    apply timer_run_total
    show (1 : Int) + (ops.length : Int) ≤ INT_MAX
    omega
  · intro st ids h
    obtain ⟨hle, hmem, hpw⟩ := timer_run_ids ops _ _ _ (le_refl _) h
    have hone : (1 : Int) ≤ st.g_next_timer_id := hle
    refine ⟨?_, hpw, ?_, timer_cancel_absent st⟩
    · intro x hx
      rcases hmem x hx with h1 | ⟨h1, _⟩
      · exact Or.inl h1
      · right
        have : (1 : Int) ≤ x := h1
        omega
    · intro d r cb ud hn
      rcases timer_set_cases st d r cb ud hn with ⟨hc, he⟩ | ⟨hc, st1, he, _⟩
      · exact ⟨st, -1, he, ⟨fun _ => hc, fun _ => rfl⟩, fun _ => rfl, fun hx => absurd rfl hx⟩
      · refine ⟨st1, st.g_next_timer_id, he, ⟨?_, fun hx => absurd hx hc⟩, ?_, ?_⟩
        · intro hx
          omega
        · intro hx
          omega
        · intro _
          exact ⟨rfl, by omega⟩

theorem timer_ids_increase_witness :
    (timer_test.length : Int) < INT_MAX ∧
    ((timer_run Timers.init timer_test).value (Timers.init, [])).2 = [1, 2, -1] ∧
    ∃ st ids, timer_run Timers.init timer_test = Res.ok (st, ids) ∧
      (∀ x ∈ ids, x = -1 ∨ 0 < x) ∧
      ids.Pairwise (fun x y => y ≠ -1 → x < y) :=
  ⟨by decide, by decide,
    match (timer_ids_increase timer_test).1 (by decide) with
    | ⟨st, ids, h⟩ =>
      ⟨st, ids, h, ((timer_ids_increase timer_test).2 st ids h).1,
        ((timer_ids_increase timer_test).2 st ids h).2.1⟩⟩

/-! ## Intents -/

theorem steady_intent_env_idle : steady intent_env_idle :=
  fun _ _ _ st => ⟨st, rfl, rfl, rfl, rfl⟩

/-- The invocations owed by a list of handlers. -/
theorem dispatch_steady (env : IntentEnv) (henv : steady env) (it : lumi_intent_t)
    (act : String) (fuel : Nat) : ∀ (i : Nat) (st : Intents),
    (∀ j, i ≤ j → j < st.g_handler_count →
      (st.g_handlers j).action ≠ none ∧ (st.g_handlers j).callback ≠ 0) →
    st.g_handler_count ≤ i + fuel →
    ∃ st', dispatch env it act fuel i st = Res.ok st' ∧
      st'.g_handlers = st.g_handlers ∧ st'.g_handler_count = st.g_handler_count ∧
      st'.calls = st.calls ++
        ((((List.range' i (st.g_handler_count - i)).map st.g_handlers).filter
            (fun h => decide (h.action = some act))).map
          (fun h => { callback := h.callback, intent := it, userdata := h.userdata })) := by
  induction fuel with
  | zero =>
    intro i st _ hf
    have hi : ¬ i < st.g_handler_count := by omega
    have hz : st.g_handler_count - i = 0 := by omega
    refine ⟨st, by simp [dispatch, hi], rfl, rfl, ?_⟩
    simp [hz]
  | succ fuel ih =>
    intro i st hok hf
    by_cases hi : i < st.g_handler_count
    · obtain ⟨ha, hc⟩ := hok i (le_refl _) hi
      have hlen : st.g_handler_count - i = (st.g_handler_count - (i + 1)) + 1 := by omega
      cases hact : (st.g_handlers i).action with
      | none => exact absurd hact ha
      | some a =>
        by_cases hm : a = act
        · obtain ⟨st1, he, h1, h2, h3⟩ := henv (st.g_handlers i).callback it
            (st.g_handlers i).userdata
            { st with calls := st.calls ++
                [{ callback := (st.g_handlers i).callback, intent := it,
                   userdata := (st.g_handlers i).userdata }] }
          have h1' : st1.g_handlers = st.g_handlers := h1
          have h2' : st1.g_handler_count = st.g_handler_count := h2
          have h3' : st1.calls = st.calls ++
              [{ callback := (st.g_handlers i).callback, intent := it,
                 userdata := (st.g_handlers i).userdata }] := h3
          obtain ⟨st2, hd, g1, g2, g3⟩ := ih (i + 1) st1
            (by
              intro j hj1 hj2
              rw [h1']
              rw [h2'] at hj2
              exact hok j (by omega) hj2)
            (by rw [h2']; omega)
          refine ⟨st2, ?_, g1.trans h1', g2.trans h2', ?_⟩
          · rw [dispatch, if_pos hi]
            simp only [hact, hm, if_true, hc, if_false]
            rw [he]
            exact hd
          · rw [g3, h3', h1', h2', hlen, List.range'_succ]
            simp [hact, hm]
        · obtain ⟨st2, hd, g1, g2, g3⟩ := ih (i + 1) st
            (fun j hj1 hj2 => hok j (by omega) hj2) (by omega)
          refine ⟨st2, ?_, g1, g2, ?_⟩
          · rw [dispatch, if_pos hi]
            simp only [hact, hm, if_false]
            exact hd
          · rw [g3, hlen, List.range'_succ]
            simp [hact, hm]
    · have hz : st.g_handler_count - i = 0 := by omega
      refine ⟨st, by simp [dispatch, hi], rfl, rfl, ?_⟩
      simp [hz]


theorem take_take_append {α : Type} (n : Nat) (l b : List α) :
    (l.take n ++ b).take n = (l ++ b).take n := by
  by_cases h : l.length ≤ n
  · rw [List.take_of_length_le h]
  · have h1 : n ≤ l.length := by omega
    have h2 : n ≤ (l.take n).length := by simp [h1]
    rw [List.take_append_of_le_length h2, List.take_append_of_le_length h1, List.take_take,
      Nat.min_self]

theorem handlers_length (st : Intents) : st.handlers.length = st.g_handler_count := by
  simp [Intents.handlers]

theorem handlers_update_beyond (st : Intents) (h : intent_handler_t) :
    (List.range st.g_handler_count).map
      (Function.update st.g_handlers st.g_handler_count h) = st.handlers := by
  unfold Intents.handlers
  apply List.map_congr_left
  intro j hj
  have : j ≠ st.g_handler_count := by
    have := List.mem_range.mp hj
    omega
  simp [Function.update, this]

/-- What one `lumi_intent_register` does to the handlers in use, the count and
the log. -/
theorem register_step (st : Intents) (r : Registration) (hc : st.g_handler_count ≤ MAX_HANDLERS) :
    (lumi_intent_register st r.action r.cb r.userdata r.oka).1.handlers =
      (st.handlers ++ (if r.valid = true then [r.handler] else [])).take MAX_HANDLERS ∧
    (lumi_intent_register st r.action r.cb r.userdata r.oka).1.g_handler_count ≤ MAX_HANDLERS ∧
    (lumi_intent_register st r.action r.cb r.userdata r.oka).1.calls = st.calls := by
  have hsame : st.handlers = (st.handlers ++ []).take MAX_HANDLERS := by
    rw [List.append_nil, List.take_of_length_le]
    rw [handlers_length]
    exact hc
  obtain ⟨action, cb, ud, oka⟩ := r
  cases action with
  | none =>
    refine ⟨?_, hc, rfl⟩
    simpa [Registration.valid, lumi_intent_register] using hsame
  | some a =>
    by_cases hcb : cb = 0
    · refine ⟨?_, ?_, ?_⟩
      · simpa [Registration.valid, lumi_intent_register, hcb] using hsame
      · simpa [lumi_intent_register, hcb] using hc
      · simp [lumi_intent_register, hcb]
    · by_cases hfull : st.g_handler_count ≥ MAX_HANDLERS
      · have heq : st.g_handler_count = MAX_HANDLERS := le_antisymm hc hfull
        refine ⟨?_, ?_, ?_⟩
        · simp only [lumi_intent_register, hcb, if_false, hfull, if_true]
          rw [List.take_append_of_le_length (by rw [handlers_length]; exact hfull),
            List.take_of_length_le (by rw [handlers_length]; exact hc)]
        · simp only [lumi_intent_register, hcb, if_false, hfull, if_true]
          exact hc
        · simp [lumi_intent_register, hcb, hfull]
      · cases oka with
        | false =>
          refine ⟨?_, ?_, ?_⟩
          · simp only [lumi_intent_register, hcb, if_false, hfull, strdup_may,
              Option.isNone_none, if_true, Registration.valid, Bool.and_false,
              Bool.false_eq_true]
            rw [← hsame]
            exact handlers_update_beyond st _
          · simpa [lumi_intent_register, hcb, hfull, strdup_may] using hc
          · simp [lumi_intent_register, hcb, hfull, strdup_may]
        | true =>
          have hlt : st.g_handler_count < MAX_HANDLERS := Nat.lt_of_not_ge hfull
          refine ⟨?_, ?_, ?_⟩
          · simp only [lumi_intent_register, hcb, if_false, hfull, strdup_may, strdup, if_true,
              Option.isNone_some, Bool.false_eq_true, Registration.valid, Option.isSome_some,
              ne_eq, not_false_eq_true, decide_True, Bool.and_self]
            rw [List.take_of_length_le (by
              rw [List.length_append, handlers_length]
              exact Nat.succ_le_of_lt hlt)]
            show (List.range (st.g_handler_count + 1)).map _ = _
            rw [List.range_succ, List.map_append, handlers_update_beyond]
            simp [Registration.handler]
          · simp only [lumi_intent_register, hcb, if_false, hfull, strdup_may, strdup, if_true,
              Option.isNone_some, Bool.false_eq_true]
            exact Nat.succ_le_of_lt hlt
          · simp [lumi_intent_register, hcb, hfull, strdup_may, strdup]

/-- The handlers in use after a sequence of registrations. -/
theorem register_all_handlers (regs : List Registration) : ∀ st : Intents,
    st.g_handler_count ≤ MAX_HANDLERS →
    (register_all st regs).handlers =
      (st.handlers ++ (regs.filter Registration.valid).map Registration.handler).take
        MAX_HANDLERS ∧
    (register_all st regs).calls = st.calls := by
  induction regs with
  | nil =>
    intro st hc
    refine ⟨?_, rfl⟩
    simp only [register_all, List.filter_nil, List.map_nil, List.append_nil]
    rw [List.take_of_length_le]
    rw [handlers_length]
    exact hc
  | cons r rs ih =>
    intro st hc
    obtain ⟨h1, h2, h3⟩ := register_step st r hc
    obtain ⟨g1, g2⟩ := ih _ h2
    refine ⟨?_, g2.trans h3⟩
    rw [register_all, g1, h1, take_take_append]
    by_cases hv : r.valid = true
    · simp [hv, List.filter_cons]
    · simp [hv, List.filter_cons]


/-- The table built by registrations from program start: its handlers in use
are the first `MAX_HANDLERS` valid registrations, each with an action and a
callback. -/
theorem registered_table (regs : List Registration) :
    (register_all Intents.init regs).handlers =
      ((regs.filter Registration.valid).map Registration.handler).take MAX_HANDLERS ∧
    (register_all Intents.init regs).g_handler_count ≤ MAX_HANDLERS ∧
    ∀ j, j < (register_all Intents.init regs).g_handler_count →
      ((register_all Intents.init regs).g_handlers j).action ≠ none ∧
      ((register_all Intents.init regs).g_handlers j).callback ≠ 0 := by
  have h0 : Intents.init.g_handler_count ≤ MAX_HANDLERS := Nat.zero_le _
  have h1 := (register_all_handlers regs Intents.init h0).1
  have h2 : Intents.init.handlers = [] := rfl
  rw [h2, List.nil_append] at h1
  refine ⟨h1, ?_, ?_⟩
  · rw [← handlers_length, h1, List.length_take]
    exact Nat.min_le_left _ _
  · intro j hj
    have hmem : (register_all Intents.init regs).g_handlers j ∈
        (register_all Intents.init regs).handlers :=
      List.mem_map.mpr ⟨j, List.mem_range.mpr hj, rfl⟩
    rw [h1] at hmem
    obtain ⟨r, hr, he⟩ := List.mem_map.mp (List.mem_of_mem_take hmem)
    have hv : r.valid = true := (List.mem_filter.mp hr).2
    rw [← he]
    simp only [Registration.valid, Bool.and_eq_true, decide_eq_true_eq] at hv
    constructor
    · intro hn
      have : r.action = none := hn
      rw [this] at hv
      simp at hv
    · exact hv.1.2

/-- C29: for every handler table built by registrations and every intent with
a non-null action, when the callbacks leave the table alone,
`lumi_intent_send` (given fuel for `MAX_HANDLERS` iterations) invokes exactly
the registered handlers whose action equals the intent's action, once each,
in registration order, with that intent and the handler's userdata, and
returns `LUMI_OK`; for a null intent or a null action it returns
`LUMI_ERR_INVALID` and invokes nothing; `lumi_intent_register` with a null
action or a null callback returns `LUMI_ERR_INVALID` and leaves the table
unchanged. -/
theorem lumi_intent_send_dispatches (env : IntentEnv) (regs : List Registration)
    (st : Intents) (it : lumi_intent_t) (act : String) (fuel : Nat) :
    (steady env →
      st.g_handlers = (register_all Intents.init regs).g_handlers →
      st.g_handler_count = (register_all Intents.init regs).g_handler_count →
      it.action = some act → MAX_HANDLERS ≤ fuel →
      st.handlers =
        ((regs.filter Registration.valid).map Registration.handler).take MAX_HANDLERS ∧
      ∃ st', lumi_intent_send env fuel st (some it) = Res.ok (st', LUMI_OK) ∧
        st'.calls = st.calls ++ owed_calls it act regs ∧
        st'.g_handlers = st.g_handlers ∧ st'.g_handler_count = st.g_handler_count) ∧
    lumi_intent_send env fuel st none = Res.ok (st, LUMI_ERR_INVALID) ∧
    (∀ it0 : lumi_intent_t, it0.action = none →
      lumi_intent_send env fuel st (some it0) = Res.ok (st, LUMI_ERR_INVALID)) ∧
    (∀ (action : Option String) (cb ud : Ptr) (oka : Bool), action = none ∨ cb = 0 →
      lumi_intent_register st action cb ud oka = (st, LUMI_ERR_INVALID)) := by
  refine ⟨?_, rfl, ?_, ?_⟩
  · intro henv htab hcnt hact hfuel
    obtain ⟨h1, h2, h3⟩ := registered_table regs
    have hh : st.handlers =
        ((regs.filter Registration.valid).map Registration.handler).take MAX_HANDLERS := by
      rw [← h1]
      unfold Intents.handlers
      rw [htab, hcnt]
    refine ⟨hh, ?_⟩
    obtain ⟨st', hd, g1, g2, g3⟩ := dispatch_steady env henv it act fuel 0 st
      (by
        intro j _ hj
        rw [htab]
        rw [hcnt] at hj
        exact h3 j hj)
      (by rw [hcnt]; omega)
    refine ⟨st', ?_, ?_, g1, g2⟩
    · simp only [lumi_intent_send, hact]
      rw [hd]
      rfl
    · rw [g3, Nat.sub_zero, ← List.range_eq_range']
      have : (List.range st.g_handler_count).map st.g_handlers = st.handlers := rfl
      rw [this, hh, owed_calls, ← List.map_take, List.filter_map, List.map_map]
      rfl
  · intro it0 h0
    simp [lumi_intent_send, h0]
  · intro action cb ud oka h
    rcases h with h | h
    · subst h
      rfl
    · subst h
      cases action <;> rfl

theorem lumi_intent_send_dispatches_witness :
    steady intent_env_idle ∧
    owed_calls intent_test "com.test.ACTION" regs_test =
      [{ callback := 7, intent := intent_test, userdata := 0 },
       { callback := 9, intent := intent_test, userdata := 2 }] ∧
    ∃ st', lumi_intent_send intent_env_idle 128 (register_all Intents.init regs_test)
        (some intent_test) = Res.ok (st', LUMI_OK) ∧
      st'.calls = (register_all Intents.init regs_test).calls ++
        owed_calls intent_test "com.test.ACTION" regs_test :=
  ⟨steady_intent_env_idle, by decide,
    match ((lumi_intent_send_dispatches intent_env_idle regs_test
        (register_all Intents.init regs_test) intent_test "com.test.ACTION" 128).1
        steady_intent_env_idle rfl rfl rfl (by decide)).2 with
    | ⟨st', h1, h2, _⟩ => ⟨st', h1, h2⟩⟩

/-! ## Single parent -/

theorem scene_two_columns_count : ∀ p, scene_two_columns.count p = 0 := by
  unfold scene_two_columns lumi_text lumi_column
  apply view_alloc_text_count
  apply view_alloc_text_count
  apply view_alloc_count
  apply view_alloc_count
  intro p
  rfl

/-- One step of the replay keeps the child lists free of repetition and of
sharing when an added child is in no list. -/
theorem replay_step_single (a : Ptr → List Ptr) (op : TreeOp)
    (hn : ∀ p, (a p).Nodup) (hs : ∀ c p1 p2, c ∈ a p1 → c ∈ a p2 → p1 = p2)
    (hd : ∀ p c, op = TreeOp.add_child p c → ∀ q, c ∉ a q) :
    (∀ p, (replay_step a op p).Nodup) ∧
    ∀ c p1 p2, c ∈ replay_step a op p1 → c ∈ replay_step a op p2 → p1 = p2 := by
  cases op with
  | add_child p c =>
    have hc := hd p c rfl
    simp only [replay_step]
    by_cases h0 : p = 0 ∨ c = 0 ∨ MAX_CHILDREN ≤ (a p).length
    · rw [if_pos h0]
      exact ⟨hn, hs⟩
    · rw [if_neg h0]
      have hmem : ∀ x q, x ∈ Function.update a p (a p ++ [c]) q →
          (x ∈ a q) ∨ (x = c ∧ q = p) := by
        intro x q hx
        by_cases hq : q = p
        · subst hq
          rw [Function.update_same, List.mem_append, List.mem_singleton] at hx
          rcases hx with hx | hx
          · exact Or.inl hx
          · exact Or.inr ⟨hx, rfl⟩
        · rw [Function.update_noteq hq] at hx
          exact Or.inl hx
      constructor
      · intro q
        by_cases hq : q = p
        · subst hq
          rw [Function.update_same]
          apply List.Nodup.append (hn q) (List.nodup_singleton c)
          intro x hx1 hx2
          rw [List.mem_singleton] at hx2
          subst hx2
          exact hc q hx1
        · rw [Function.update_noteq hq]
          exact hn q
      · intro x p1 p2 h1 h2
        rcases hmem x p1 h1 with g1 | ⟨g1, e1⟩
        · rcases hmem x p2 h2 with g2 | ⟨g2, _⟩
          · exact hs x p1 p2 g1 g2
          · rw [g2] at g1
            exact absurd g1 (hc p1)
        · rcases hmem x p2 h2 with g2 | ⟨_, e2⟩
          · rw [g1] at g2
            exact absurd g2 (hc p2)
          · rw [e1, e2]
  | remove_child p c =>
    simp only [replay_step]
    by_cases h0 : p = 0 ∨ c = 0
    · rw [if_pos h0]
      exact ⟨hn, hs⟩
    · rw [if_neg h0]
      have hmem : ∀ x q, x ∈ Function.update a p ((a p).erase c) q → x ∈ a q := by
        intro x q hx
        by_cases hq : q = p
        · subst hq
          rw [Function.update_same] at hx
          exact List.mem_of_mem_erase hx
        · rw [Function.update_noteq hq] at hx
          exact hx
      constructor
      · intro q
        by_cases hq : q = p
        · subst hq
          rw [Function.update_same]
          exact (hn q).erase c
        · rw [Function.update_noteq hq]
          exact hn q
      · intro x p1 p2 h1 h2
        exact hs x p1 p2 (hmem x p1 h1) (hmem x p2 h2)

/-- Calls that attach detached children only keep the single-parent property. -/
theorem single_parent_run (ops : List TreeOp) : ∀ m : Mem,
    single_parent m → (∀ op ∈ ops, ∀ q ∈ op.ptrs, q = 0 ∨ m.live q) → detached_adds m ops →
    ∃ m', run_ops m ops = Res.ok m' ∧ single_parent m' := by
  induction ops with
  | nil =>
    intro m hs _ _
    exact ⟨m, rfl, hs⟩
  | cons op ops ih =>
    intro m hs hl hd
    obtain ⟨m1, h1, hk1, hlive1⟩ :=
      replay_step_sound m m.kids op (fun _ => rfl) (hl op (List.mem_cons_self _ _))
    have hs1 : single_parent m1 := by
      obtain ⟨g1, g2⟩ := replay_step_single m.kids op hs.1 hs.2 hd.1
      constructor
      · intro p
        rw [hk1]
        exact g1 p
      · intro c p1 p2 e1 e2
        rw [hk1] at e1 e2
        exact g2 c p1 p2 e1 e2
    have hl1 : ∀ op' ∈ ops, ∀ q ∈ op'.ptrs, q = 0 ∨ m1.live q := by
      intro op' hop q hq
      rcases hl op' (List.mem_cons_of_mem _ hop) q hq with h | h
      · exact Or.inl h
      · exact Or.inr ((hlive1 q).mpr h)
    obtain ⟨m2, h2, hs2⟩ := ih m1 hs1 hl1 (hd.2 m1 h1)
    refine ⟨m2, ?_, hs2⟩
    simp only [run_ops, h1]
    exact h2

/-- The condition on the replay gives the condition on the memory. -/
theorem detached_adds_of_replay (ops : List TreeOp) : ∀ (m : Mem) (a : Ptr → List Ptr),
    (∀ p, m.kids p = a p) → (∀ op ∈ ops, ∀ q ∈ op.ptrs, q = 0 ∨ m.live q) →
    detached_replay a ops → detached_adds m ops := by
  induction ops with
  | nil =>
    intro m a _ _ _
    trivial
  | cons op ops ih =>
    intro m a hI hl hd
    obtain ⟨m1, h1, hk1, hlive1⟩ :=
      replay_step_sound m a op hI (hl op (List.mem_cons_self _ _))
    constructor
    · intro p c he q
      rw [hI]
      exact hd.1 p c he q
    · intro m1' h1'
      rw [h1] at h1'
      cases h1'
      apply ih m1 (replay_step a op) hk1 _ hd.2
      intro op' hop q hq
      rcases hl op' (List.mem_cons_of_mem _ hop) q hq with h | h
      · exact Or.inl h
      · exact Or.inr ((hlive1 q).mpr h)

/-- C30, as stated, fails: from the fresh nodes of `scene_two_columns`,
`lumi_view_add_child(1, 3)` followed by `lumi_view_add_child(2, 3)` leaves the
text 3 in the child lists of both columns, and `lumi_view_add_child(1, 3)`
twice leaves it twice in the list of the column 1. -/
theorem single_parent_counterexample :
    (∀ p, scene_two_columns.count p = 0) ∧
    (∃ m, run_ops scene_two_columns [TreeOp.add_child 1 3, TreeOp.add_child 2 3] = Res.ok m ∧
      m.kids 1 = [3] ∧ m.kids 2 = [3] ∧ ¬ single_parent m) ∧
    (∃ m, run_ops scene_two_columns [TreeOp.add_child 1 3, TreeOp.add_child 1 3] = Res.ok m ∧
      m.kids 1 = [3, 3] ∧ ¬ single_parent m) :=
  ⟨scene_two_columns_count,
    ⟨_, rfl, by decide, by decide,
      fun h => absurd (h.2 3 1 2 (by decide) (by decide)) (by decide)⟩,
    ⟨_, rfl, by decide, fun h => absurd (h.1 1) (by decide)⟩⟩

/-- C30, amended: from freshly created nodes (no node has children) and for
every sequence of `lumi_view_add_child` / `lumi_view_remove_child` calls on
null or live handles in which every `lumi_view_add_child` is given a child
that is in no child list at the moment of the call, the calls return and
each node has at most one parent: it occurs at most once in total across the
child lists of all nodes. -/
theorem detached_adds_keep_single_parent (m : Mem) (ops : List TreeOp)
    (hfresh : ∀ p, m.count p = 0)
    (hl : ∀ op ∈ ops, ∀ q ∈ op.ptrs, q = 0 ∨ m.live q)
    (hd : detached_adds m ops) :
    ∃ m', run_ops m ops = Res.ok m' ∧ single_parent m' := by
  apply single_parent_run ops m _ hl hd
  constructor
  · intro p
    rw [kids_of_count_zero m p (hfresh p)]
    exact List.nodup_nil
  · intro c p1 p2 h1
    rw [kids_of_count_zero m p1 (hfresh p1)] at h1
    cases h1

theorem detached_replay_reparent : detached_replay (fun _ => []) ops_reparent := by
  simp [detached_replay, ops_reparent, replay_step, MAX_CHILDREN, Function.update]
  intro q hq
  by_cases h2 : q = 2
  · simp [h2]
  · simp [h2, hq]

theorem detached_adds_keep_single_parent_witness :
    (∀ p, scene_two_columns.count p = 0) ∧
    detached_adds scene_two_columns ops_reparent ∧
    ∃ m', run_ops scene_two_columns ops_reparent = Res.ok m' ∧ single_parent m' :=
  have hd : detached_adds scene_two_columns ops_reparent :=
    detached_adds_of_replay ops_reparent scene_two_columns (fun _ => [])
      (fun p => kids_of_count_zero _ p (scene_two_columns_count p)) (by decide)
      detached_replay_reparent
  ⟨scene_two_columns_count, hd,
    detached_adds_keep_single_parent scene_two_columns ops_reparent scene_two_columns_count
      (by decide) hd⟩

/-! ## Post-order -/

theorem post_order_of_subtree {m : Mem} {p : Ptr} {ns : List Ptr} (h : Subtree m p ns) :
    ∀ fuel, ns.length ≤ fuel → post_order fuel m p = ns := by
  induction h with
  | node p v kids hp hv hlen hsub ih =>
    intro fuel hf
    cases fuel with
    | zero => simp at hf
    | succ fuel =>
      rw [post_order, kids_of_heap hv]
      congr 2
      apply List.ext_get
      · simp [child_seq, hlen]
      · intro i h1 h2
        simp only [List.get_eq_getElem, List.getElem_map, child_seq, List.getElem_range]
        have := ih i h2 fuel (by
          have h3 := length_le_flatten_of_mem kids _ (List.get_mem kids i h2)
          simp only [List.length_append, List.length_singleton] at hf
          omega)
        simpa using this


/-- C32: for every finite tree-shaped subtree rooted at `p` (a tree of live
nodes without sharing, nodes `ns`) and fuel above its size,
`lumi_view_destroy(p)` returns and the sequence of its frees is the post-order
traversal of the subtree: for each node, the traversals of its children in
child-index order first, then the node itself. -/
theorem lumi_view_destroy_frees_in_post_order (m : Mem) (p : Ptr) (ns : List Ptr)
    (fuel : Nat) (ht : Subtree m p ns) (hnd : ns.Nodup) (hf : ns.length < fuel) :
    ∃ m', lumi_view_destroy fuel m p = Res.ok m' ∧
      m'.freed = m.freed ++ post_order fuel m p ∧
      post_order fuel m p = ns ∧
      ∀ k q, post_order (k + 1) m q = ((m.kids q).map (post_order k m)).flatten ++ [q] := by
  refine ⟨_, destroy_tree fuel m p ns ht hnd hf, ?_, post_order_of_subtree ht fuel (by omega),
    fun _ _ => rfl⟩
  rw [post_order_of_subtree ht fuel (by omega)]
  rfl

/-- C32 on the column 1 with the children 2 and 3: the frees are 2, 3, 1. -/
theorem lumi_view_destroy_frees_in_post_order_witness :
    post_order 4 scene_tree 1 = [2, 3, 1] ∧
    ∃ m', lumi_view_destroy 4 scene_tree 1 = Res.ok m' ∧
      m'.freed = scene_tree.freed ++ post_order 4 scene_tree 1 ∧
      post_order 4 scene_tree 1 = [2, 3, 1] ∧
      ∀ k q, post_order (k + 1) scene_tree q =
        ((scene_tree.kids q).map (post_order k scene_tree)).flatten ++ [q] :=
  ⟨by decide,
    lumi_view_destroy_frees_in_post_order scene_tree 1 [2, 3, 1] 4 scene_tree_subtree
      (by decide) (by decide)⟩

/-! ## The kind of a node is fixed -/

theorem type_of_heap {m : Mem} {p : Ptr} {v : lumi_view} (h : m.heap p = some v) :
    m.type_of p = some v.type := by
  simp [Mem.type_of, h]

theorem store_same_type {m : Mem} {p : Ptr} {v0 v : lumi_view} (h : m.heap p = some v0)
    (ht : v.type = v0.type) : ∀ q, (m.store p v).type_of q = m.type_of q := by
  intro q
  by_cases hq : q = p
  · subst hq
    simp [Mem.type_of, Mem.store, h, ht]
  · simp [Mem.type_of, Mem.store, hq]

theorem get_type_of_type_of {m m' : Mem} {q : Ptr} (h : m'.type_of q = m.type_of q) :
    lumi_view_get_type m' q = lumi_view_get_type m q := by
  unfold lumi_view_get_type read_view
  by_cases hq : q = 0
  · simp [hq]
  · simp only [hq, if_false]
    unfold Mem.type_of at h
    cases h1 : m'.heap q <;> cases h2 : m.heap q <;> simp [h1, h2] at h ⊢
    exact h

theorem live_of_type_of {m m' : Mem} (h : ∀ q, m'.type_of q = m.type_of q) :
    ∀ q, m'.live q ↔ m.live q := by
  intro q
  have := h q
  unfold Mem.type_of at this
  unfold Mem.live
  cases h1 : m'.heap q <;> cases h2 : m.heap q <;> simp [h1, h2] at this ⊢

/-- A setter that keeps the field `type`: it returns on a null or live
handle, and whenever it returns every node has its kind and the log of
callbacks is as before. -/
theorem with_view_type (m : Mem) (view : Ptr) (f : lumi_view → lumi_view)
    (hf : ∀ v, (f v).type = v.type) :
    ((view = 0 ∨ m.live view) → ∃ m', with_view m view f = Res.ok m') ∧
    ∀ m', with_view m view f = Res.ok m' →
      (∀ q, m'.type_of q = m.type_of q) ∧ m'.calls = m.calls := by
  constructor
  · rintro (h | h)
    · exact ⟨m, by simp [with_view, h]⟩
    · by_cases h0 : view = 0
      · exact ⟨m, by simp [with_view, h0]⟩
      · obtain ⟨v, hv⟩ := (live_iff m view).mp h
        exact ⟨_, with_view_ok f h0 hv⟩
  · intro m' h
    unfold with_view at h
    by_cases h0 : view = 0
    · simp only [h0, if_true, Res.ok.injEq] at h
      subst h
      exact ⟨fun _ => rfl, rfl⟩
    · simp only [h0, if_false] at h
      cases hv : m.heap view with
      | none => simp [hv] at h
      | some v =>
        simp only [hv, Res.ok.injEq] at h
        subst h
        exact ⟨store_same_type hv (hf v), rfl⟩

theorem add_child_type (m : Mem) (p c : Ptr) (m' : Mem)
    (h : lumi_view_add_child m p c = Res.ok m') :
    (∀ q, m'.type_of q = m.type_of q) ∧ m'.calls = m.calls := by
  unfold lumi_view_add_child at h
  by_cases h0 : p = 0 ∨ c = 0
  · simp only [h0, if_true, Res.ok.injEq] at h
    subst h
    exact ⟨fun _ => rfl, rfl⟩
  · simp only [h0, if_false] at h
    cases hp : m.heap p with
    | none => simp [hp] at h
    | some pv =>
      simp only [hp] at h
      by_cases hfull : pv.child_count ≥ MAX_CHILDREN
      · simp only [hfull, if_true, Res.ok.injEq] at h
        subst h
        exact ⟨fun _ => rfl, rfl⟩
      · simp only [hfull, if_false] at h
        have h1 := store_same_type (v := { pv with
          children := Function.update pv.children pv.child_count c,
          child_count := pv.child_count + 1 }) hp rfl
        cases hc : (m.store p { pv with
          children := Function.update pv.children pv.child_count c,
          child_count := pv.child_count + 1 }).heap c with
        | none => simp [hc] at h
        | some cv =>
          simp only [hc, Res.ok.injEq] at h
          subst h
          have h2 := store_same_type (v := { cv with parent := p }) hc rfl
          exact ⟨fun q => (h2 q).trans (h1 q), rfl⟩

theorem remove_child_type (m : Mem) (p c : Ptr) (m' : Mem)
    (h : lumi_view_remove_child m p c = Res.ok m') :
    (∀ q, m'.type_of q = m.type_of q) ∧ m'.calls = m.calls := by
  unfold lumi_view_remove_child at h
  by_cases h0 : p = 0 ∨ c = 0
  · simp only [h0, if_true, Res.ok.injEq] at h
    subst h
    exact ⟨fun _ => rfl, rfl⟩
  · simp only [h0, if_false] at h
    cases hp : m.heap p with
    | none => simp [hp] at h
    | some pv =>
      simp only [hp] at h
      cases hf : find_child pv.children c pv.child_count 0 with
      | none =>
        simp only [hf, Res.ok.injEq] at h
        subst h
        exact ⟨fun _ => rfl, rfl⟩
      | some i =>
        simp only [hf] at h
        cases hc : m.heap c with
        | none => simp [hc] at h
        | some cv =>
          simp only [hc] at h
          have h1 := store_same_type (v := { cv with parent := 0 }) hc rfl
          cases hp1 : (m.store c { cv with parent := 0 }).heap p with
          | none => simp [hp1] at h
          | some pv1 =>
            simp only [hp1, Res.ok.injEq] at h
            subst h
            have h2 := store_same_type (v := { pv1 with
              children := shift_left pv1.children (pv1.child_count - 1 - i) i,
              child_count := pv1.child_count - 1 }) hp1 rfl
            exact ⟨fun q => (h2 q).trans (h1 q), rfl⟩

theorem set_content_type (m : Mem) (view : Ptr) (s : Option String) :
    ((view = 0 ∨ m.live view) → ∃ m', lumi_text_set_content m view s = Res.ok m') ∧
    ∀ m', lumi_text_set_content m view s = Res.ok m' →
      (∀ q, m'.type_of q = m.type_of q) ∧ m'.calls = m.calls := by
  have h := with_view_type m view (fun v => { v with
    text := match s with
      | some x => strdup x
      | none => none }) (fun _ => rfl)
  exact h

theorem set_value_type (m : Mem) (view : Ptr) (s : Option String) :
    ((view = 0 ∨ m.live view) → ∃ m', lumi_text_field_set_value m view s = Res.ok m') ∧
    ∀ m', lumi_text_field_set_value m view s = Res.ok m' →
      ∀ q, m'.type_of q = m.type_of q := by
  constructor
  · rintro (h | h)
    · exact ⟨m, by simp [lumi_text_field_set_value, h]⟩
    · by_cases h0 : view = 0
      · exact ⟨m, by simp [lumi_text_field_set_value, h0]⟩
      · obtain ⟨v, hv⟩ := (live_iff m view).mp h
        obtain ⟨m', hm, _⟩ := set_value_effect m view s v h0 hv
        exact ⟨m', hm⟩
  · intro m' h
    by_cases h0 : view = 0
    · simp only [lumi_text_field_set_value, h0, if_true, Res.ok.injEq] at h
      subst h
      exact fun _ => rfl
    · cases hv : m.heap view with
      | none => simp [lumi_text_field_set_value, h0, hv] at h
      | some v =>
        obtain ⟨m1, hm, hheap, _⟩ := set_value_effect m view s v h0 hv
        rw [hm] at h
        cases h
        intro q
        have := store_same_type (v := { v with text := s }) hv rfl q
        unfold Mem.type_of at this ⊢
        rw [hheap]
        exact this


/-- Whenever the child loop of `lumi_view_destroy` returns, every object is
gone or as before, provided the recursive call is so. -/
theorem destroy_children_mono (destroy : Mem → Ptr → Res Mem)
    (hrec : ∀ m c m', destroy m c = Res.ok m' →
      ∀ q, m'.heap q = none ∨ m'.heap q = m.heap q) :
    ∀ (k : Nat) (m : Mem) (view : Ptr) (i : Nat) (m' : Mem),
      destroy_children destroy k m view i = Res.ok m' →
      ∀ q, m'.heap q = none ∨ m'.heap q = m.heap q := by
  intro k
  induction k with
  | zero =>
    intro m view i m' h
    simp [destroy_children] at h
  | succ k ih =>
    intro m view i m' h
    rw [destroy_children] at h
    cases hv : m.heap view with
    | none => simp [hv] at h
    | some v =>
      simp only [hv] at h
      by_cases hi : i < v.child_count
      · simp only [hi, if_true] at h
        cases hd : destroy m (v.children i) with
        | fault => simp [hd] at h
        | timeout => simp [hd] at h
        | ok m1 =>
          simp only [hd] at h
          intro q
          rcases ih m1 view (i + 1) m' h q with h1 | h1
          · exact Or.inl h1
          · rcases hrec m _ m1 hd q with h2 | h2
            · exact Or.inl (h1.trans h2)
            · exact Or.inr (h1.trans h2)
      · simp only [hi, if_false, Res.ok.injEq] at h
        subst h
        exact fun _ => Or.inr rfl

/-- Whenever `lumi_view_destroy` returns, every object is gone or as before. -/
theorem destroy_mono : ∀ (fuel : Nat) (m : Mem) (p : Ptr) (m' : Mem),
    lumi_view_destroy fuel m p = Res.ok m' →
    ∀ q, m'.heap q = none ∨ m'.heap q = m.heap q := by
  intro fuel
  induction fuel with
  | zero =>
    intro m p m' h
    by_cases hp : p = 0
    · simp only [lumi_view_destroy, hp, if_true, Res.ok.injEq] at h
      subst h
      exact fun _ => Or.inr rfl
    · simp [lumi_view_destroy, hp] at h
  | succ fuel ih =>
    intro m p m' h
    rw [lumi_view_destroy] at h
    by_cases hp : p = 0
    · simp only [hp, if_true, Res.ok.injEq] at h
      subst h
      exact fun _ => Or.inr rfl
    · simp only [hp, if_false] at h
      cases hd : destroy_children (lumi_view_destroy fuel) fuel m p 0 with
      | fault => simp [hd] at h
      | timeout => simp [hd] at h
      | ok m1 =>
        simp only [hd] at h
        have h1 := destroy_children_mono (lumi_view_destroy fuel) ih fuel m p 0 m1 hd
        cases hv : m1.heap p with
        | none => simp [hv] at h
        | some v =>
          simp only [hv, Res.ok.injEq] at h
          subst h
          intro q
          by_cases hq : q = p
          · left
            simp [Mem.free, hq]
          · rcases h1 q with h2 | h2
            · left
              simp [Mem.free, hq, h2]
            · right
              simp [Mem.free, hq, h2]

/-- Whenever `lumi_app_set_content` returns, every view object is gone or as
before. -/
theorem set_content_mono (fuel : Nat) (w : World) (app r : Ptr) (w' : World)
    (h : lumi_app_set_content fuel w app r = Res.ok w') :
    ∀ q, w'.mem.heap q = none ∨ w'.mem.heap q = w.mem.heap q := by
  unfold lumi_app_set_content at h
  by_cases h0 : app = 0
  · simp only [h0, if_true, Res.ok.injEq] at h
    subst h
    exact fun _ => Or.inr rfl
  · simp only [h0, if_false] at h
    cases ha : w.apps app with
    | none => simp [ha] at h
    | some a =>
      simp only [ha] at h
      obtain ⟨m1, hd, h⟩ := bind_ok h
      simp only [Res.ok.injEq] at h
      subst h
      unfold destroy_root at hd
      by_cases hr : a.root_view = 0
      · simp only [hr, if_true, Res.ok.injEq] at hd
        subst hd
        exact fun _ => Or.inr rfl
      · simp only [hr, if_false] at hd
        exact destroy_mono fuel w.mem a.root_view m1 hd

/-- Every public view operation other than `lumi_view_destroy` returns on null
or live handles, and whenever it returns every node has the kind it had. -/
theorem view_op_type (m : Mem) (op : ViewOp) :
    ((∀ x ∈ op.ptrs, x = 0 ∨ m.live x) → ∃ m', op.apply m = Res.ok m') ∧
    ∀ m', op.apply m = Res.ok m' → ∀ q, m'.type_of q = m.type_of q := by
  cases op with
  | set_id view id =>
    have h := with_view_type m view (fun v => { v with
      id := match id with
        | some x => strdup x
        | none => none }) (fun _ => rfl)
    exact ⟨fun hl => h.1 (hl view (by simp [ViewOp.ptrs])), fun m' hm => (h.2 m' hm).1⟩
  | set_visible view b =>
    have h := with_view_type m view (fun v => { v with visible := b }) (fun _ => rfl)
    exact ⟨fun hl => h.1 (hl view (by simp [ViewOp.ptrs])), fun m' hm => (h.2 m' hm).1⟩
  | set_width view x =>
    have h := with_view_type m view (fun v => { v with width := x }) (fun _ => rfl)
    exact ⟨fun hl => h.1 (hl view (by simp [ViewOp.ptrs])), fun m' hm => (h.2 m' hm).1⟩
  | set_height view x =>
    have h := with_view_type m view (fun v => { v with height := x }) (fun _ => rfl)
    exact ⟨fun hl => h.1 (hl view (by simp [ViewOp.ptrs])), fun m' hm => (h.2 m' hm).1⟩
  | set_padding view t r b l =>
    have h := with_view_type m view (fun v => { v with
      pad_top := t, pad_right := r, pad_bottom := b, pad_left := l }) (fun _ => rfl)
    exact ⟨fun hl => h.1 (hl view (by simp [ViewOp.ptrs])), fun m' hm => (h.2 m' hm).1⟩
  | set_margin view t r b l =>
    have h := with_view_type m view (fun v => { v with
      mar_top := t, mar_right := r, mar_bottom := b, mar_left := l }) (fun _ => rfl)
    exact ⟨fun hl => h.1 (hl view (by simp [ViewOp.ptrs])), fun m' hm => (h.2 m' hm).1⟩
  | set_background view x =>
    have h := with_view_type m view (fun v => { v with background := x }) (fun _ => rfl)
    exact ⟨fun hl => h.1 (hl view (by simp [ViewOp.ptrs])), fun m' hm => (h.2 m' hm).1⟩
  | set_foreground view x =>
    have h := with_view_type m view (fun v => { v with foreground := x }) (fun _ => rfl)
    exact ⟨fun hl => h.1 (hl view (by simp [ViewOp.ptrs])), fun m' hm => (h.2 m' hm).1⟩
  | set_font_size view x =>
    have h := with_view_type m view (fun v => { v with font_size := x }) (fun _ => rfl)
    exact ⟨fun hl => h.1 (hl view (by simp [ViewOp.ptrs])), fun m' hm => (h.2 m' hm).1⟩
  | set_border_radius view x =>
    have h := with_view_type m view (fun v => { v with border_radius := x }) (fun _ => rfl)
    exact ⟨fun hl => h.1 (hl view (by simp [ViewOp.ptrs])), fun m' hm => (h.2 m' hm).1⟩
  | add_child p c =>
    constructor
    · intro hl
      obtain ⟨m', hm, _⟩ := replay_step_sound m m.kids (TreeOp.add_child p c) (fun _ => rfl) hl
      exact ⟨m', hm⟩
    · intro m' hm
      exact (add_child_type m p c m' hm).1
  | remove_child p c =>
    constructor
    · intro hl
      obtain ⟨m', hm, _⟩ :=
        replay_step_sound m m.kids (TreeOp.remove_child p c) (fun _ => rfl) hl
      exact ⟨m', hm⟩
    · intro m' hm
      exact (remove_child_type m p c m' hm).1
  | on_click view cb ud =>
    have h := with_view_type m view
      (fun v => { v with on_click_cb := cb, on_click_data := ud }) (fun _ => rfl)
    exact ⟨fun hl => h.1 (hl view (by simp [ViewOp.ptrs])), fun m' hm => (h.2 m' hm).1⟩
  | on_long_click view cb ud =>
    have h := with_view_type m view
      (fun v => { v with on_long_click_cb := cb, on_long_click_data := ud }) (fun _ => rfl)
    exact ⟨fun hl => h.1 (hl view (by simp [ViewOp.ptrs])), fun m' hm => (h.2 m' hm).1⟩
  | on_text_change view cb ud =>
    have h := with_view_type m view
      (fun v => { v with on_text_change_cb := cb, on_text_change_data := ud }) (fun _ => rfl)
    exact ⟨fun hl => h.1 (hl view (by simp [ViewOp.ptrs])), fun m' hm => (h.2 m' hm).1⟩
  | text_set_content view s =>
    have h := set_content_type m view s
    exact ⟨fun hl => h.1 (hl view (by simp [ViewOp.ptrs])), fun m' hm => (h.2 m' hm).1⟩
  | text_field_set_value view s =>
    have h := set_value_type m view s
    exact ⟨fun hl => h.1 (hl view (by simp [ViewOp.ptrs])), h.2⟩

/-- C34: the kind of a node is fixed at construction. Every public view
operation other than destroying (`lumi_view_set_id`, `lumi_view_set_visible`,
the eight style setters, `lumi_view_add_child` and `lumi_view_remove_child` in
either role, the three callback registrations, `lumi_text_set_content`,
`lumi_text_field_set_value`) returns on null or live handles, and whenever
it returns the same nodes are live and `lumi_view_get_type` returns for every
handle what it returned before; whenever `lumi_app_set_content` returns,
`lumi_view_get_type` returns the same kind as before for every node it has
not destroyed. -/
theorem kind_is_fixed (m : Mem) (op : ViewOp) (fuel : Nat) (w : World) (app r : Ptr) :
    ((∀ x ∈ op.ptrs, x = 0 ∨ m.live x) → ∃ m', op.apply m = Res.ok m') ∧
    (∀ m', op.apply m = Res.ok m' → ∀ q,
      (m'.live q ↔ m.live q) ∧ lumi_view_get_type m' q = lumi_view_get_type m q) ∧
    (∀ w', lumi_app_set_content fuel w app r = Res.ok w' → ∀ q, w'.mem.live q →
      lumi_view_get_type w'.mem q = lumi_view_get_type w.mem q) := by
  refine ⟨(view_op_type m op).1, ?_, ?_⟩
  · intro m' hm q
    have h := (view_op_type m op).2 m' hm
    exact ⟨live_of_type_of h q, get_type_of_type_of (h q)⟩
  · intro w' hw q hq
    apply get_type_of_type_of
    rcases set_content_mono fuel w app r w' hw q with h | h
    · unfold Mem.live at hq
      rw [h] at hq
      cases hq
    · unfold Mem.type_of
      rw [h]


/-- C34 on the scene `scene_tree`, where a negative width is set on the text
2, and on the application `world_rooted`, whose root 1 is replaced by the
text 4: the texts 2 and 4 are still texts. -/
theorem kind_is_fixed_witness :
    (∃ m', (ViewOp.set_width 2 (-5)).apply scene_tree = Res.ok m' ∧
      lumi_view_get_type m' 2 = Res.ok LUMI_VIEW_TEXT) ∧
    (∃ w', lumi_app_set_content 4 world_rooted 9 4 = Res.ok w' ∧
      lumi_view_get_type w'.mem 4 = Res.ok LUMI_VIEW_TEXT) :=
  ⟨match (kind_is_fixed scene_tree (ViewOp.set_width 2 (-5)) 4 world_rooted 9 4).1
      (by decide) with
    | ⟨m', hm⟩ =>
      ⟨m', hm,
        ((kind_is_fixed scene_tree (ViewOp.set_width 2 (-5)) 4 world_rooted 9 4).2.1 m' hm
          2).2.trans rfl⟩,
    ⟨Res.value world_rooted (lumi_app_set_content 4 world_rooted 9 4), rfl,
      ((kind_is_fixed scene_tree (ViewOp.set_width 2 (-5)) 4 world_rooted 9 4).2.2 _ rfl 4
        (by decide)).trans rfl⟩⟩

/-! ## Style setters -/

theorem store_frame (m : Mem) (p : Ptr) (v : lumi_view) :
    (m.store p v).freed = m.freed ∧ (m.store p v).calls = m.calls ∧
    (m.store p v).heap p = some v ∧ ∀ q, q ≠ p → (m.store p v).heap q = m.heap q := by
  refine ⟨rfl, rfl, by simp [Mem.store], ?_⟩
  intro q hq
  simp [Mem.store, hq]

/-- C35: on a live node with record `v`, each of the eight style setters
returns and replaces the record by `v` with the given value(s) in the
setter's own field(s), stored as given (negative values included) and every
other field of `v` as it was; every other node, the log of frees and the log
of callbacks are unchanged. -/
theorem style_setters_are_pure (m : Mem) (view : Ptr) (v : lumi_view) (x t r b l : Rat)
    (c : Nat) (hn : view ≠ 0) (hv : m.heap view = some v) :
    lumi_view_set_width m view x = Res.ok (m.store view { v with width := x }) ∧
    lumi_view_set_height m view x = Res.ok (m.store view { v with height := x }) ∧
    lumi_view_set_padding m view t r b l = Res.ok (m.store view { v with
      pad_top := t, pad_right := r, pad_bottom := b, pad_left := l }) ∧
    lumi_view_set_margin m view t r b l = Res.ok (m.store view { v with
      mar_top := t, mar_right := r, mar_bottom := b, mar_left := l }) ∧
    lumi_view_set_background m view c = Res.ok (m.store view { v with background := c }) ∧
    lumi_view_set_foreground m view c = Res.ok (m.store view { v with foreground := c }) ∧
    lumi_view_set_font_size m view x = Res.ok (m.store view { v with font_size := x }) ∧
    lumi_view_set_border_radius m view x =
      Res.ok (m.store view { v with border_radius := x }) ∧
    ∀ v' : lumi_view, (m.store view v').freed = m.freed ∧ (m.store view v').calls = m.calls ∧
      (m.store view v').heap view = some v' ∧
      ∀ q, q ≠ view → (m.store view v').heap q = m.heap q :=
  ⟨with_view_ok _ hn hv, with_view_ok _ hn hv, with_view_ok _ hn hv, with_view_ok _ hn hv,
    with_view_ok _ hn hv, with_view_ok _ hn hv, with_view_ok _ hn hv, with_view_ok _ hn hv,
    store_frame m view⟩

/-- C35 on the text 2 of `scene_tree`: a negative width is stored as given and
the column 1 is untouched. -/
theorem style_setters_are_pure_witness :
    ∃ v m', scene_tree.heap 2 = some v ∧
      lumi_view_set_width scene_tree 2 (-5) = Res.ok m' ∧
      m'.heap 2 = some { v with width := -5 } ∧ m'.heap 1 = scene_tree.heap 1 :=
  have h : scene_tree.heap 2 = some ((scene_tree.heap 2).get (by decide)) :=
    (Option.some_get _).symm
  ⟨_, _, h,
    (style_setters_are_pure scene_tree 2 _ (-5) 0 0 0 0 0 (by decide) h).1,
    ((style_setters_are_pure scene_tree 2 _ (-5) 0 0 0 0 0 (by decide) h).2.2.2.2.2.2.2.2
      _).2.2.1,
    ((style_setters_are_pure scene_tree 2 _ (-5) 0 0 0 0 0 (by decide) h).2.2.2.2.2.2.2.2
      _).2.2.2 1 (by decide)⟩

/-! ## Content setter against the TextField setter -/

/-- Whenever a public view operation returns, the log of callbacks is as
before unless the operation is `lumi_text_field_set_value`. -/
theorem view_op_calls (m : Mem) (op : ViewOp) : ∀ m', op.apply m = Res.ok m' →
    m'.calls = m.calls ∨ ∃ view value, op = ViewOp.text_field_set_value view value := by
  cases op with
  | set_id view id =>
    have key := with_view_type m view (fun v => { v with
      id := match id with
        | some x => strdup x
        | none => none }) (fun _ => rfl)
    intro m' h
    exact Or.inl (key.2 m' h).2
  | set_visible view b =>
    intro m' h
    exact Or.inl ((with_view_type m view (fun v => { v with visible := b })
      (fun _ => rfl)).2 m' h).2
  | set_width view x =>
    intro m' h
    exact Or.inl ((with_view_type m view (fun v => { v with width := x })
      (fun _ => rfl)).2 m' h).2
  | set_height view x =>
    intro m' h
    exact Or.inl ((with_view_type m view (fun v => { v with height := x })
      (fun _ => rfl)).2 m' h).2
  | set_padding view t r b l =>
    intro m' h
    exact Or.inl ((with_view_type m view (fun v => { v with
      pad_top := t, pad_right := r, pad_bottom := b, pad_left := l }) (fun _ => rfl)).2 m' h).2
  | set_margin view t r b l =>
    intro m' h
    exact Or.inl ((with_view_type m view (fun v => { v with
      mar_top := t, mar_right := r, mar_bottom := b, mar_left := l }) (fun _ => rfl)).2 m' h).2
  | set_background view x =>
    intro m' h
    exact Or.inl ((with_view_type m view (fun v => { v with background := x })
      (fun _ => rfl)).2 m' h).2
  | set_foreground view x =>
    intro m' h
    exact Or.inl ((with_view_type m view (fun v => { v with foreground := x })
      (fun _ => rfl)).2 m' h).2
  | set_font_size view x =>
    intro m' h
    exact Or.inl ((with_view_type m view (fun v => { v with font_size := x })
      (fun _ => rfl)).2 m' h).2
  | set_border_radius view x =>
    intro m' h
    exact Or.inl ((with_view_type m view (fun v => { v with border_radius := x })
      (fun _ => rfl)).2 m' h).2
  | add_child p c =>
    intro m' h
    exact Or.inl (add_child_type m p c m' h).2
  | remove_child p c =>
    intro m' h
    exact Or.inl (remove_child_type m p c m' h).2
  | on_click view cb ud =>
    intro m' h
    exact Or.inl ((with_view_type m view
      (fun v => { v with on_click_cb := cb, on_click_data := ud }) (fun _ => rfl)).2 m' h).2
  | on_long_click view cb ud =>
    intro m' h
    exact Or.inl ((with_view_type m view
      (fun v => { v with on_long_click_cb := cb, on_long_click_data := ud })
      (fun _ => rfl)).2 m' h).2
  | on_text_change view cb ud =>
    intro m' h
    exact Or.inl ((with_view_type m view
      (fun v => { v with on_text_change_cb := cb, on_text_change_data := ud })
      (fun _ => rfl)).2 m' h).2
  | text_set_content view s =>
    intro m' h
    exact Or.inl ((set_content_type m view s).2 m' h).2
  | text_field_set_value view s =>
    intro m' _
    exact Or.inr ⟨view, s, rfl⟩

theorem set_content_eval {m : Mem} {view : Ptr} {v : lumi_view} (s : Option String)
    (hv : view ≠ 0) (h : m.heap view = some v) :
    lumi_text_set_content m view s = Res.ok (m.store view { v with text := s }) := by
  simp only [lumi_text_set_content, hv, if_false, h]
  cases s <;> rfl

/-- C36: on every live node, a TextField with a registered text-change
handler included, `lumi_text_set_content` returns, stores the new content
and leaves the log of callbacks as it was, while `lumi_text_field_set_value`
stores the same content and adds one invocation of the handler when one is
registered; and of all the public view operations only
`lumi_text_field_set_value` ever changes the log of callbacks. -/
theorem set_content_fires_no_callback (m : Mem) (view : Ptr) (v : lumi_view)
    (s : Option String) (hn : view ≠ 0) (hv : m.heap view = some v) :
    lumi_text_set_content m view s = Res.ok (m.store view { v with text := s }) ∧
    (m.store view { v with text := s }).calls = m.calls ∧
    lumi_text_get_content (m.store view { v with text := s }) view = Res.ok s ∧
    (∃ m', lumi_text_field_set_value m view s = Res.ok m' ∧
      m'.heap = (m.store view { v with text := s }).heap ∧
      (v.on_text_change_cb ≠ 0 →
        m'.calls = m.calls ++
          [Event.text_change v.on_text_change_cb view s v.on_text_change_data]) ∧
      (v.on_text_change_cb = 0 → m'.calls = m.calls)) ∧
    (∀ (op : ViewOp) (m' : Mem), op.apply m = Res.ok m' → m'.calls ≠ m.calls →
      ∃ view' value, op = ViewOp.text_field_set_value view' value) := by
  refine ⟨set_content_eval s hn hv, rfl, ?_, ?_, ?_⟩
  · exact (get_content_of_heap hn (store_frame m view _).2.2.1).1
  · obtain ⟨m', hm, hh, _, hc⟩ := set_value_effect m view s v hn hv
    refine ⟨m', hm, hh, ?_, ?_⟩
    · intro h
      rw [hc, if_neg h]
    · intro h
      rw [hc, if_pos h, List.append_nil]
  · intro op m' hm hne
    rcases view_op_calls m op m' hm with h | h
    · exact absurd h hne
    · exact h

/-- C36 on the text field 1 of `scene_field`, which has the handler 100 with
the context 200: the content setter invokes nothing, the TextField setter
invokes the handler once. -/
theorem set_content_fires_no_callback_witness :
    ∃ v, scene_field.heap 1 = some v ∧ v.type = LUMI_VIEW_TEXT_FIELD ∧
      v.on_text_change_cb = 100 ∧
      (∃ m', lumi_text_set_content scene_field 1 (some "abc") = Res.ok m' ∧
        m'.calls = scene_field.calls) ∧
      (∃ m', lumi_text_field_set_value scene_field 1 (some "abc") = Res.ok m' ∧
        m'.calls = scene_field.calls ++ [Event.text_change 100 1 (some "abc") 200]) :=
  have h : scene_field.heap 1 = some ((scene_field.heap 1).get (by decide)) :=
    (Option.some_get _).symm
  have hthm := set_content_fires_no_callback scene_field 1 _ (some "abc") (by decide) h
  ⟨_, h, by decide, by decide, ⟨_, hthm.1, hthm.2.1⟩,
    match hthm.2.2.2.1 with
    | ⟨m', hm, _, hc, _⟩ => ⟨m', hm, hc (by decide)⟩⟩

/-- C39: `lumi_text_field_set_value` does not read the kind of the node: on a
live node whose record is `v`, with a registered text-change handler, given
any kind `ty` (Column, Text, Button, ...), the call returns, stores the
value, keeps the kind and invokes the handler exactly once with the node, the
stored text and the registered context, the same for every `ty`; for a null
value the stored text and the text passed to the handler are null. -/
theorem set_value_ignores_kind (m : Mem) (view : Ptr) (v : lumi_view)
    (s : Option String) (hn : view ≠ 0) (hcb : v.on_text_change_cb ≠ 0)
    (ty : lumi_view_type_t) :
    (∃ m', lumi_text_field_set_value (m.store view { v with type := ty }) view s =
        Res.ok m' ∧
      m'.heap view = some { v with type := ty, text := s } ∧
      (∀ q, q ≠ view → m'.heap q = m.heap q) ∧
      m'.calls = m.calls ++
        [Event.text_change v.on_text_change_cb view s v.on_text_change_data]) ∧
    (∃ m', lumi_text_field_set_value (m.store view { v with type := ty }) view none =
        Res.ok m' ∧
      m'.heap view = some { v with type := ty, text := none } ∧
      m'.calls = m.calls ++
        [Event.text_change v.on_text_change_cb view none v.on_text_change_data]) := by
  have key : ∀ s : Option String,
      ∃ m', lumi_text_field_set_value (m.store view { v with type := ty }) view s =
          Res.ok m' ∧
        m'.heap view = some { v with type := ty, text := s } ∧
        (∀ q, q ≠ view → m'.heap q = m.heap q) ∧
        m'.calls = m.calls ++
          [Event.text_change v.on_text_change_cb view s v.on_text_change_data] := by
    intro s
    obtain ⟨m', hm, hh, _, hc⟩ := set_value_effect (m.store view { v with type := ty }) view s
      { v with type := ty } hn (store_frame m view _).2.2.1
    refine ⟨m', hm, ?_, ?_, ?_⟩
    · rw [hh]
      simp [Mem.store]
    · intro q hq
      rw [hh]
      simp [Mem.store, hq]
    · rw [hc]
      simp only [hcb, if_false]
      rfl
  obtain ⟨m1, h1, h2, _, h4⟩ := key none
  exact ⟨key s, m1, h1, h2, h4⟩

/-- C39 on the node 1 of `scene_field` (handler 100, context 200) turned into
a column: the handler is invoked once, with a null text for a null value. -/
theorem set_value_ignores_kind_witness :
    ∃ v, scene_field.heap 1 = some v ∧ v.on_text_change_cb = 100 ∧
      ∃ m', lumi_text_field_set_value
          (scene_field.store 1 { v with type := LUMI_VIEW_COLUMN }) 1 none = Res.ok m' ∧
        m'.heap 1 = some { v with type := LUMI_VIEW_COLUMN, text := none } ∧
        m'.calls = scene_field.calls ++ [Event.text_change 100 1 none 200] :=
  have h : scene_field.heap 1 = some ((scene_field.heap 1).get (by decide)) :=
    (Option.some_get _).symm
  ⟨_, h, by decide,
    (set_value_ignores_kind scene_field 1 _ (some "abc") (by decide) (by decide)
      LUMI_VIEW_COLUMN).2⟩

/-! ## Bounds of the key-value store -/

theorem store_run_append (ops1 ops2 : List StoreOp) : ∀ st : Store,
    store_run st (ops1 ++ ops2) = store_run (store_run st ops1) ops2 := by
  induction ops1 with
  | nil => intro st; rfl
  | cons op ops ih => intro st; exact ih _

theorem key_of_injective {i j : Nat} (h : key_of i = key_of j) : i = j := by
  unfold key_of at h
  have := congrArg (fun s : String => s.data.length) h
  simpa using this

/-- A `lumi_storage_set` of an absent key below the capacity, with both
`strdup` calls succeeding, adds one entry. -/
theorem set_new_count (st : Store) (k v : String) (hk : ¬ st.has_key k)
    (hc : st.g_store_count < MAX_ENTRIES) :
    (lumi_storage_set st (some k) (some v) true true).1.g_store_count =
      st.g_store_count + 1 := by
  have hf : find_key st k = none := by
    by_contra hn
    exact hk ((has_key_iff st k).mpr hn)
  have hfull : ¬ st.g_store_count ≥ MAX_ENTRIES := by omega
  simp [lumi_storage_set, hf, hfull, strdup_may, strdup]

/-- Setting `n` distinct keys from program start gives `n` entries, up to the
capacity. -/
theorem fill_count : ∀ n, n ≤ MAX_ENTRIES →
    (store_run Store.init (fill_ops n)).g_store_count = n := by
  intro n
  induction n with
  | zero => intro _; rfl
  | succ n ih =>
    intro hn
    have hprev := ih (by omega)
    have hno : ¬ (store_run Store.init (fill_ops n)).has_key (key_of n) := by
      apply not_has_key_run _ _ _ _ (not_has_key_init _)
      intro op hop
      simp only [fill_ops, List.mem_map, List.mem_range] at hop
      obtain ⟨i, hi, rfl⟩ := hop
      simp only [StoreOp.sets_key, decide_eq_false_iff_not]
      intro e
      have := key_of_injective e
      omega
    unfold fill_ops at hprev hno ⊢
    rw [List.range_succ, List.map_append, store_run_append]
    simp only [List.map_cons, List.map_nil, store_run, StoreOp.apply]
    rw [set_new_count _ _ _ hno (by omega), hprev]

/-- C40: in every store state reached from program start by
`lumi_storage_set`, `lumi_storage_remove` and `lumi_storage_clear` calls
(whether or not the allocations succeed), the entry count is at most 1024,
the entries in use have non-null keys and no two of them have equal keys;
and in such a state with 1024 entries a `lumi_storage_set` of a key that is
not present returns `LUMI_ERR_NOMEM` and leaves the store as it is. -/
theorem store_keys_distinct_and_bounded (ops : List StoreOp) (k v : String)
    (okk okv : Bool) :
    0 ≤ (store_run Store.init ops).g_store_count ∧
    (store_run Store.init ops).g_store_count ≤ 1024 ∧
    (∀ i, i < (store_run Store.init ops).g_store_count →
      ((store_run Store.init ops).g_store i).key ≠ none) ∧
    (∀ i j, i < (store_run Store.init ops).g_store_count →
      j < (store_run Store.init ops).g_store_count →
      ((store_run Store.init ops).g_store i).key =
        ((store_run Store.init ops).g_store j).key → i = j) ∧
    ((store_run Store.init ops).g_store_count = 1024 →
      ¬ (store_run Store.init ops).has_key k →
      lumi_storage_set (store_run Store.init ops) (some k) (some v) okk okv =
        (store_run Store.init ops, LUMI_ERR_NOMEM)) := by
  obtain ⟨h1, h2, h3⟩ := wf_run ops _ wf_init
  refine ⟨Nat.zero_le _, h1, h2, h3, ?_⟩
  intro hc hk
  have hf : find_key (store_run Store.init ops) k = none := by
    by_contra hn
    exact hk ((has_key_iff _ k).mpr hn)
  have hfull : (store_run Store.init ops).g_store_count ≥ MAX_ENTRIES := by
    rw [hc]
    decide
  simp [lumi_storage_set, hf, hfull]

/-- C40 on the store filled with 1024 distinct keys: a further key is
refused. -/
theorem store_keys_distinct_and_bounded_witness :
    (store_run Store.init (fill_ops 1024)).g_store_count = 1024 ∧
    ¬ (store_run Store.init (fill_ops 1024)).has_key (key_of 1024) ∧
    lumi_storage_set (store_run Store.init (fill_ops 1024)) (some (key_of 1024)) (some "v")
        true true =
      (store_run Store.init (fill_ops 1024), LUMI_ERR_NOMEM) :=
  have hc : (store_run Store.init (fill_ops 1024)).g_store_count = 1024 :=
    fill_count 1024 (by decide)
  have hk : ¬ (store_run Store.init (fill_ops 1024)).has_key (key_of 1024) :=
    not_has_key_run _ _ _
      (fun op hop => by
        simp only [fill_ops, List.mem_map, List.mem_range] at hop
        obtain ⟨i, hi, rfl⟩ := hop
        simp only [StoreOp.sets_key, decide_eq_false_iff_not]
        intro e
        have := key_of_injective e
        omega)
      (not_has_key_init _)
  ⟨hc, hk,
    (store_keys_distinct_and_bounded (fill_ops 1024) (key_of 1024) "v" true true).2.2.2.2
      hc hk⟩

/-! ## The order of `lumi_app_destroy` -/

theorem destroy_root_tree {fuel : Nat} {m : Mem} {r : Ptr} {ns : List Ptr}
    (h : (r = 0 ∧ ns = []) ∨ (Subtree m r ns ∧ ns.Nodup ∧ ns.length < fuel)) :
    destroy_root fuel m r = Res.ok (m.free_all ns) := by
  unfold destroy_root
  rcases h with ⟨h0, hnil⟩ | ⟨ht, hnd, hlen⟩
  · rw [if_pos h0, hnil, free_all_nil]
  · rw [if_neg (subtree_root_ne_zero ht)]
    exact destroy_tree fuel m r ns ht hnd hlen

/-- C37: for every live app `a` and well-behaved hooks, `lumi_app_destroy`
returns and proceeds in the order hook, root, manifest. The on-destroy hook,
when bound, is invoked once, entered with the application record `a` (its
manifest included) and the view memory of before the call, in which every
node of the root subtree is live. After the hook has returned, with the
record `a1` and the root subtree `ns`, exactly the nodes `ns` are freed. The
release of the manifest copy and of the object is logged once, with the
manifest of `a` and with the view memory it is made in: the memory after the
frees of `ns`, in which no node of the root subtree is live. -/
theorem lumi_app_destroy_order (env : HookEnv) (w : World) (app : Ptr) (a : lumi_app)
    (I : Mem → Ptr → Prop) (fuel : Nat)
    (hne : app ≠ 0) (hw : w.apps app = some a) (ht : tame env app I)
    (hd : ∀ m r, I m r → destroyable fuel m r) (hI : I w.mem a.root_view) :
    ∃ w1 a1 ns w',
      call_hook env HookKind.destroy w app = Res.ok w1 ∧
      w1.hooks = w.hooks ++
        (if a.lifecycle.on_destroy = 0 then []
         else [{ kind := HookKind.destroy, fn := a.lifecycle.on_destroy, app := app,
                 userdata := a.userdata, seen_app := a, seen_mem := w.mem }]) ∧
      (∀ ns0, Subtree w.mem a.root_view ns0 → ∀ q ∈ ns0, w.mem.live q) ∧
      w1.apps app = some a1 ∧ a1.manifest = a.manifest ∧
      ((a1.root_view = 0 ∧ ns = []) ∨ (Subtree w1.mem a1.root_view ns ∧ ns.Nodup)) ∧
      lumi_app_destroy env fuel w app = Res.ok w' ∧
      w'.hooks = w1.hooks ∧
      w'.mem = w1.mem.free_all ns ∧ w'.mem.freed = w1.mem.freed ++ ns ∧
      (∀ q ∈ ns, ¬ w'.mem.live q) ∧
      w'.released = w1.released ++
        [{ app := app, manifest := a.manifest, seen_mem := w1.mem.free_all ns }] ∧
      (∀ e ∈ w'.released, e ∉ w1.released →
        e.app = app ∧ e.manifest = a.manifest ∧ e.seen_mem.freed = w1.mem.freed ++ ns ∧
        ∀ q ∈ ns, ¬ e.seen_mem.live q) ∧
      w'.apps app = none ∧ w'.apps_freed = w1.apps_freed ++ [app] := by
  obtain ⟨w1, a1, h1, ha1, _, _, hman, hI1, hhooks, _, _⟩ :=
    call_hook_tame ht HookKind.destroy w a hw hI
  have hns : ∃ ns, ((a1.root_view = 0 ∧ ns = []) ∨
      (Subtree w1.mem a1.root_view ns ∧ ns.Nodup ∧ ns.length < fuel)) := by
    rcases hd _ _ hI1 with h0 | ⟨ns, h⟩
    · exact ⟨[], Or.inl ⟨h0, rfl⟩⟩
    · exact ⟨ns, Or.inr h⟩
  obtain ⟨ns, hns⟩ := hns
  have hdr := destroy_root_tree hns
  have hfreed : ∀ q ∈ ns, ¬ (w1.mem.free_all ns).live q := by
    intro q hq
    simp [Mem.live, free_all_heap_of_mem w1.mem hq]
  have hres : ∃ w', lumi_app_destroy env fuel w app = Res.ok w' ∧
      w'.hooks = w1.hooks ∧ w'.mem = w1.mem.free_all ns ∧
      w'.released = w1.released ++
        [{ app := app, manifest := a1.manifest, seen_mem := w1.mem.free_all ns }] ∧
      w'.apps app = none ∧ w'.apps_freed = w1.apps_freed ++ [app] := by
    unfold lumi_app_destroy
    simp only [if_neg hne, h1, Res.bind, ha1, hdr]
    split
    · exact ⟨_, rfl, rfl, rfl, rfl, by simp, rfl⟩
    · exact ⟨_, rfl, rfl, rfl, rfl, by simp, rfl⟩
  obtain ⟨w', hw', g1, g2, g3, g4, g5⟩ := hres
  rw [hman] at g3
  refine ⟨w1, a1, ns, w', h1, hhooks, fun ns0 h0 => subtree_all_live h0, ha1, hman, ?_, hw',
    g1, g2, ?_, ?_, g3, ?_, g4, g5⟩
  · rcases hns with h | ⟨h, h', _⟩
    · exact Or.inl h
    · exact Or.inr ⟨h, h'⟩
  · rw [g2]
    rfl
  · rw [g2]
    exact hfreed
  · intro e he hne1
    rw [g3, List.mem_append, List.mem_singleton] at he
    rcases he with he | he
    · exact absurd he hne1
    · rw [he]
      exact ⟨rfl, rfl, rfl, hfreed⟩

theorem world_hooked_tree : Subtree world_hooked.mem 1 [2, 3, 1] := by
  refine Subtree.node 1 _ [[2], [3]] (by decide) rfl rfl ?_
  intro i hi
  match i, hi with
  | 0, _ => exact Subtree.node 2 _ [] (by decide) rfl rfl (fun j hj => absurd hj (by simp))
  | 1, _ => exact Subtree.node 3 _ [] (by decide) rfl rfl (fun j hj => absurd hj (by simp))
  | n + 2, h => exact absurd h (by simp)

/-- C37 on the app at 9 with all hooks bound and the column 1 as root: the
hook 16 is invoked, then 2, 3, 1 are freed, then the app is released, with
the three nodes already freed. -/
theorem lumi_app_destroy_order_witness :
    (Res.value world_hooked (lumi_app_destroy env_idle 4 world_hooked 9)).hooks.map
      (fun e => (e.sig, e.seen_mem.freed)) = [((HookKind.destroy, 16, 9, 42), [])] ∧
    (Res.value world_hooked (lumi_app_destroy env_idle 4 world_hooked 9)).mem.freed =
      [2, 3, 1] ∧
    (Res.value world_hooked (lumi_app_destroy env_idle 4 world_hooked 9)).released.map
      (fun e => (e.app, e.manifest, e.seen_mem.freed)) = [(9, test_manifest, [2, 3, 1])] ∧
    (Res.value world_hooked (lumi_app_destroy env_idle 4 world_hooked 9)).apps_freed = [9] ∧
    ∃ a w1 a1 ns w', world_hooked.apps 9 = some a ∧ a.manifest = test_manifest ∧
      destroyable 4 world_hooked.mem a.root_view ∧
      call_hook env_idle HookKind.destroy world_hooked 9 = Res.ok w1 ∧
      w1.apps 9 = some a1 ∧ a1.manifest = a.manifest ∧
      lumi_app_destroy env_idle 4 world_hooked 9 = Res.ok w' ∧
      w'.mem.freed = w1.mem.freed ++ ns ∧
      w'.released = w1.released ++
        [{ app := 9, manifest := a.manifest, seen_mem := w1.mem.free_all ns }] ∧
      w'.apps 9 = none :=
  have ha : world_hooked.apps 9 = some ((world_hooked.apps 9).get (by decide)) :=
    (Option.some_get _).symm
  have hI : destroyable 4 world_hooked.mem ((world_hooked.apps 9).get (by decide)).root_view :=
    Or.inr ⟨[2, 3, 1], world_hooked_tree, by decide, by decide⟩
  ⟨by decide, by decide, by decide, by decide,
    match lumi_app_destroy_order env_idle world_hooked 9 _ (destroyable 4) 4 (by decide) ha
        (tame_env_idle 9 _) (fun _ _ h => h) hI with
    | ⟨w1, a1, ns, w', h1, _, _, h4, h5, _, h7, _, _, h10, _, h12, _, h14, _⟩ =>
      ⟨_, w1, a1, ns, w', ha, by decide, hI, h1, h4, h5, h7, h10, h12, h14⟩⟩

/-! ## The root after `lumi_app_set_content` -/

theorem set_content_tree {fuel : Nat} {w : World} {app : Ptr} {a : lumi_app}
    {ns1 : List Ptr} (r : Ptr) (hne : app ≠ 0) (hw : w.apps app = some a)
    (hroot : (a.root_view = 0 ∧ ns1 = []) ∨
      (Subtree w.mem a.root_view ns1 ∧ ns1.Nodup ∧ ns1.length < fuel)) :
    lumi_app_set_content fuel w app r =
      Res.ok (({ w with mem := w.mem.free_all ns1 } : World).put app
        { a with root_view := r }) := by
  unfold lumi_app_set_content
  simp only [if_neg hne, hw, destroy_root_tree hroot, Res.bind]

theorem root_of_put (w : World) (app : Ptr) (a : lumi_app) :
    (w.put app a).root_of app = a.root_view := by
  simp [World.root_of, World.put]

/-- C38, as stated, fails: the app at 9 has the root 1, a column with the
children 2 and 3, all live. `lumi_app_set_content(app, 1)`, with the current
root, returns with 1 stored as the root and 1 freed; and
`lumi_app_set_content(app, 2)`, with a node of the root's subtree, returns
with 2 stored as the root and 2 freed. -/
theorem set_content_stores_freed_root_counterexample :
    world_rooted.root_of 9 = 1 ∧ world_rooted.mem.live 1 ∧ world_rooted.mem.live 2 ∧
    2 ∈ world_rooted.mem.kids 1 ∧
    (∃ w', lumi_app_set_content 4 world_rooted 9 1 = Res.ok w' ∧
      w'.root_of 9 = 1 ∧ ¬ w'.mem.live 1 ∧ 1 ∈ w'.mem.freed) ∧
    (∃ w', lumi_app_set_content 4 world_rooted 9 2 = Res.ok w' ∧
      w'.root_of 9 = 2 ∧ ¬ w'.mem.live 2 ∧ 2 ∈ w'.mem.freed) :=
  ⟨by decide, by decide, by decide, by decide,
    ⟨_, rfl, by decide, by decide, by decide⟩, ⟨_, rfl, by decide, by decide, by decide⟩⟩

/-- C38, amended: for every live app whose current root is the root of a tree
of live nodes without sharing, with nodes `ns1` (none when the app has no
root), and every live node `r`, `lumi_app_set_content(app, r)` returns and
stores `r` as the root; the stored root is a live node exactly when `r` is
not a node of the old root's subtree. When `r` is the old root or lies inside
its subtree, the stored root has been freed. -/
theorem set_content_root_live_iff (fuel : Nat) (w : World) (app r : Ptr) (a : lumi_app)
    (ns1 : List Ptr) (hne : app ≠ 0) (hw : w.apps app = some a)
    (hroot : (a.root_view = 0 ∧ ns1 = []) ∨
      (Subtree w.mem a.root_view ns1 ∧ ns1.Nodup ∧ ns1.length < fuel))
    (hr : w.mem.live r) :
    ∃ w', lumi_app_set_content fuel w app r = Res.ok w' ∧
      w'.root_of app = r ∧
      (w'.mem.live r ↔ r ∉ ns1) ∧
      (r ∈ ns1 → r ∈ w'.mem.freed) ∧
      (a.root_view ≠ 0 → r = a.root_view → ¬ w'.mem.live r) := by
  have hlive : (w.mem.free_all ns1).live r ↔ r ∉ ns1 := by
    by_cases h : r ∈ ns1
    · simp [Mem.live, free_all_heap_of_mem w.mem h, h]
    · have : (w.mem.free_all ns1).live r := by
        unfold Mem.live
        rw [free_all_heap_of_not_mem w.mem h]
        exact hr
      simp [h, this]
  refine ⟨_, set_content_tree r hne hw hroot, root_of_put _ _ _, hlive, ?_, ?_⟩
  · intro h
    show r ∈ w.mem.freed ++ ns1
    exact List.mem_append_right _ h
  · intro h0 he
    rw [show ((({ w with mem := w.mem.free_all ns1 } : World).put app
      { a with root_view := r }).mem.live r ↔ r ∉ ns1) from hlive]
    rcases hroot with ⟨h, _⟩ | ⟨ht, _, _⟩
    · exact absurd h h0
    · rw [he]
      exact fun hn => hn (subtree_root_mem ht)

/-- C38, amended, on the app at 9 whose root is the column 1 with the texts
2 and 3: the text 4, outside the subtree, is live as the new root. -/
theorem set_content_root_live_iff_witness :
    ∃ a, world_rooted.apps 9 = some a ∧
      Subtree world_rooted.mem a.root_view [2, 3, 1] ∧ world_rooted.mem.live 4 ∧
      (4 : Ptr) ∉ [2, 3, 1] ∧
      ∃ w', lumi_app_set_content 4 world_rooted 9 4 = Res.ok w' ∧
        w'.root_of 9 = 4 ∧ w'.mem.live 4 :=
  have ha : world_rooted.apps 9 = some ((world_rooted.apps 9).get (by decide)) :=
    (Option.some_get _).symm
  ⟨_, ha, world_rooted_tree, by decide, by decide,
    match set_content_root_live_iff 4 world_rooted 9 4 _ [2, 3, 1] (by decide) ha
        (Or.inr ⟨world_rooted_tree, by decide, by decide⟩) (by decide) with
    | ⟨w', h1, h2, h3, _⟩ => ⟨w', h1, h2, h3.mpr (by decide)⟩⟩

/-! ## Parent back-references -/

theorem view_alloc_parent (m : Mem) (a : Ptr) (ty : lumi_view_type_t)
    (h : ∀ p, m.parent_of p = 0) : ∀ p, (view_alloc m a ty).1.parent_of p = 0 := by
  intro p
  unfold view_alloc
  by_cases ha : a = 0
  · simp [ha, h]
  · by_cases hp : p = a
    · simp [ha, hp, Mem.parent_of, Mem.store, zeroed]
    · have := h p
      simp only [Mem.parent_of] at this
      simp [ha, hp, Mem.parent_of, Mem.store, this]

theorem view_alloc_text_parent (m : Mem) (a : Ptr) (ty : lumi_view_type_t) (s : Option String)
    (h : ∀ p, m.parent_of p = 0) : ∀ p, (view_alloc_text m a ty s).1.parent_of p = 0 := by
  intro p
  have h1 := view_alloc_parent m a ty h
  unfold view_alloc_text
  cases s with
  | none => exact h1 p
  | some str =>
    simp only
    split
    · exact h1 p
    · split
      · rename_i v hv
        by_cases hp : p = (view_alloc m a ty).2
        · have := h1 p
          rw [hp, parent_of_heap hv] at this
          simp [hp, Mem.parent_of, Mem.store, this]
        · have := h1 p
          simp only [Mem.parent_of] at this
          simp [hp, Mem.parent_of, Mem.store, this]
      · exact h1 p

theorem scene_two_columns_parent : ∀ p, scene_two_columns.parent_of p = 0 := by
  unfold scene_two_columns lumi_text lumi_column
  apply view_alloc_text_parent
  apply view_alloc_text_parent
  apply view_alloc_parent
  apply view_alloc_parent
  intro p
  rfl

/-- One call keeps the memory in step with the replay of the child lists and
of the parent back-references. -/
theorem parent_step_sound (m : Mem) (op : TreeOp)
    (hl : ∀ q ∈ op.ptrs, q = 0 ∨ m.live q) :
    ∃ m', op.apply m = Res.ok m' ∧ (∀ p, m'.kids p = replay_step m.kids op p) ∧
      (∀ q, m'.live q ↔ m.live q) ∧
      ∀ x, m'.parent_of x = replay_parent m.kids m.parent_of op x := by
  obtain ⟨m', h1, hk, hlive⟩ := replay_step_sound m m.kids op (fun _ => rfl) hl
  refine ⟨m', h1, hk, hlive, ?_⟩
  cases op with
  | add_child p c =>
    simp only [TreeOp.ptrs, List.mem_cons, List.mem_singleton, List.not_mem_nil, or_false,
      forall_eq_or_imp, forall_eq] at hl
    simp only [TreeOp.apply] at h1
    simp only [replay_parent]
    by_cases h0 : p = 0 ∨ c = 0
    · have e := (add_child_null m p c h0).symm.trans h1
      cases e
      have : p = 0 ∨ c = 0 ∨ MAX_CHILDREN ≤ (m.kids p).length := by tauto
      simp [this]
    · have hp : p ≠ 0 := fun e => h0 (Or.inl e)
      have hc : c ≠ 0 := fun e => h0 (Or.inr e)
      have hlp : m.live p := hl.1.resolve_left hp
      have hlc : m.live c := hl.2.resolve_left hc
      by_cases hfull : MAX_CHILDREN ≤ m.count p
      · obtain ⟨pv, hpv⟩ := (live_iff m p).mp hlp
        have hfull' := hfull
        rw [count_of_heap hpv] at hfull'
        have e := (add_child_full m p c pv hpv hfull').symm.trans h1
        cases e
        have : p = 0 ∨ c = 0 ∨ MAX_CHILDREN ≤ (m.kids p).length := by
          rw [kids_length]
          exact Or.inr (Or.inr hfull)
        simp [this]
      · obtain ⟨m2, hr, _, _, _, _, _, _, _, hpar, hoth⟩ :=
          add_child_effect m p c hp hc hlp hlc (by omega)
        have e := hr.symm.trans h1
        cases e
        have hnf : ¬ (p = 0 ∨ c = 0 ∨ MAX_CHILDREN ≤ (m.kids p).length) := by
          rw [kids_length]
          rintro (h | h | h)
          · exact hp h
          · exact hc h
          · exact hfull h
        rw [if_neg hnf]
        intro x
        by_cases hx : x = c
        · rw [hx, Function.update_same]
          exact hpar
        · rw [Function.update_noteq hx]
          exact hoth x hx
  | remove_child p c =>
    simp only [TreeOp.ptrs, List.mem_cons, List.mem_singleton, List.not_mem_nil, or_false,
      forall_eq_or_imp, forall_eq] at hl
    simp only [TreeOp.apply] at h1
    simp only [replay_parent]
    by_cases h0 : p = 0 ∨ c = 0
    · have e := (remove_child_null m p c h0).symm.trans h1
      cases e
      have : p = 0 ∨ c = 0 ∨ c ∉ m.kids p := by tauto
      simp [this]
    · have hp : p ≠ 0 := fun e => h0 (Or.inl e)
      have hc : c ≠ 0 := fun e => h0 (Or.inr e)
      have hlp : m.live p := hl.1.resolve_left hp
      have hlc : m.live c := hl.2.resolve_left hc
      by_cases hmem : c ∈ m.kids p
      · obtain ⟨m2, hr, _, _, _, _, _, _, _, hpar, hoth⟩ :=
          remove_child_effect m p c hp hc hlp hlc hmem
        have e := hr.symm.trans h1
        cases e
        have hnf : ¬ (p = 0 ∨ c = 0 ∨ c ∉ m.kids p) := by
          rintro (h | h | h)
          · exact hp h
          · exact hc h
          · exact h hmem
        rw [if_neg hnf]
        intro x
        by_cases hx : x = c
        · rw [hx, Function.update_same]
          exact hpar
        · rw [Function.update_noteq hx]
          exact hoth x hx
      · obtain ⟨pv, hpv⟩ := (live_iff m p).mp hlp
        have hmem' := hmem
        rw [kids_of_heap hpv] at hmem'
        have e := (remove_child_absent m p c pv hpv hmem').symm.trans h1
        cases e
        have : p = 0 ∨ c = 0 ∨ c ∉ m.kids p := Or.inr (Or.inr hmem)
        simp [this]

/-- One step of the replay keeps the parent back-references in agreement with
the child lists when an added child is in no list. -/
theorem replay_parent_agrees (a : Ptr → List Ptr) (par : Ptr → Ptr) (op : TreeOp)
    (hn : ∀ p, (a p).Nodup) (hs : ∀ c p1 p2, c ∈ a p1 → c ∈ a p2 → p1 = p2)
    (h1 : ∀ c p, c ∈ a p → par c = p) (h2 : ∀ c, par c ≠ 0 → c ∈ a (par c))
    (h3 : a 0 = [])
    (hd : ∀ p c, op = TreeOp.add_child p c → ∀ q, c ∉ a q) :
    (∀ c p, c ∈ replay_step a op p → replay_parent a par op c = p) ∧
    (∀ c, replay_parent a par op c ≠ 0 →
      c ∈ replay_step a op (replay_parent a par op c)) ∧
    replay_step a op 0 = [] := by
  cases op with
  | add_child p c =>
    have hc := hd p c rfl
    simp only [replay_step, replay_parent]
    by_cases h0 : p = 0 ∨ c = 0 ∨ MAX_CHILDREN ≤ (a p).length
    · rw [if_pos h0, if_pos h0]
      exact ⟨h1, h2, h3⟩
    · rw [if_neg h0, if_neg h0]
      have hp : p ≠ 0 := fun e => h0 (Or.inl e)
      refine ⟨?_, ?_, ?_⟩
      · intro x q hx
        by_cases hq : q = p
        · rw [hq, Function.update_same, List.mem_append, List.mem_singleton] at hx
          rcases hx with hx | hx
          · have hxc : x ≠ c := fun e => hc p (e ▸ hx)
            rw [Function.update_noteq hxc, hq]
            exact h1 x p hx
          · rw [hx, Function.update_same, hq]
        · rw [Function.update_noteq hq] at hx
          have hxc : x ≠ c := fun e => hc q (e ▸ hx)
          rw [Function.update_noteq hxc]
          exact h1 x q hx
      · intro x hx
        by_cases hxc : x = c
        · rw [hxc, Function.update_same, Function.update_same]
          simp
        · rw [Function.update_noteq hxc] at hx ⊢
          have := h2 x hx
          by_cases hq : par x = p
          · rw [hq, Function.update_same]
            rw [hq] at this
            exact List.mem_append_left _ this
          · rw [Function.update_noteq hq]
            exact this
      · rw [Function.update_noteq (Ne.symm hp)]
        exact h3
  | remove_child p c =>
    simp only [replay_step, replay_parent]
    by_cases h0 : p = 0 ∨ c = 0
    · have h0' : p = 0 ∨ c = 0 ∨ c ∉ a p := by tauto
      rw [if_pos h0, if_pos h0']
      exact ⟨h1, h2, h3⟩
    · rw [if_neg h0]
      have hp : p ≠ 0 := fun e => h0 (Or.inl e)
      by_cases hmem : c ∈ a p
      · have hnf : ¬ (p = 0 ∨ c = 0 ∨ c ∉ a p) := by
          rintro (h | h | h)
          · exact h0 (Or.inl h)
          · exact h0 (Or.inr h)
          · exact h hmem
        rw [if_neg hnf]
        have hgone : ∀ q, c ∉ Function.update a p ((a p).erase c) q := by
          intro q hq
          by_cases hqp : q = p
          · rw [hqp, Function.update_same] at hq
            exact ((hn p).mem_erase_iff.mp hq).1 rfl
          · rw [Function.update_noteq hqp] at hq
            exact hqp (hs c q p hq hmem)
        refine ⟨?_, ?_, ?_⟩
        · intro x q hx
          have hxc : x ≠ c := fun e => hgone q (e ▸ hx)
          rw [Function.update_noteq hxc]
          by_cases hqp : q = p
          · rw [hqp, Function.update_same] at hx
            rw [hqp]
            exact h1 x p (List.mem_of_mem_erase hx)
          · rw [Function.update_noteq hqp] at hx
            exact h1 x q hx
        · intro x hx
          by_cases hxc : x = c
          · rw [hxc, Function.update_same] at hx
            exact absurd rfl hx
          · rw [Function.update_noteq hxc] at hx ⊢
            have := h2 x hx
            by_cases hq : par x = p
            · rw [hq, Function.update_same]
              rw [hq] at this
              exact (List.mem_erase_of_ne hxc).mpr this
            · rw [Function.update_noteq hq]
              exact this
        · rw [Function.update_noteq (Ne.symm hp)]
          exact h3
      · have h0' : p = 0 ∨ c = 0 ∨ c ∉ a p := Or.inr (Or.inr hmem)
        rw [if_pos h0', List.erase_of_not_mem hmem, Function.update_eq_self]
        exact ⟨h1, h2, h3⟩


/-- Calls that attach detached children only keep the child lists free of
sharing and the parent back-references in agreement with them. -/
theorem parent_agrees_run (ops : List TreeOp) : ∀ m : Mem,
    single_parent m → (∀ c p, c ∈ m.kids p → m.parent_of c = p) →
    (∀ c, m.parent_of c ≠ 0 → c ∈ m.kids (m.parent_of c)) → m.kids 0 = [] →
    (∀ op ∈ ops, ∀ q ∈ op.ptrs, q = 0 ∨ m.live q) → detached_adds m ops →
    ∃ m', run_ops m ops = Res.ok m' ∧ single_parent m' ∧
      (∀ c p, c ∈ m'.kids p → m'.parent_of c = p) ∧
      (∀ c, m'.parent_of c ≠ 0 → c ∈ m'.kids (m'.parent_of c)) ∧ m'.kids 0 = [] := by
  induction ops with
  | nil =>
    intro m hs h1 h2 h3 _ _
    exact ⟨m, rfl, hs, h1, h2, h3⟩
  | cons op ops ih =>
    intro m hs h1 h2 h3 hl hd
    obtain ⟨m1, e1, hk1, hlive1, hp1⟩ :=
      parent_step_sound m op (hl op (List.mem_cons_self _ _))
    obtain ⟨g1, g2⟩ := replay_step_single m.kids op hs.1 hs.2 hd.1
    obtain ⟨f1, f2, f3⟩ := replay_parent_agrees m.kids m.parent_of op hs.1 hs.2 h1 h2 h3 hd.1
    have hs1 : single_parent m1 := by
      constructor
      · intro p
        rw [hk1]
        exact g1 p
      · intro c p1 p2 e1 e2
        rw [hk1] at e1 e2
        exact g2 c p1 p2 e1 e2
    have hl1 : ∀ op' ∈ ops, ∀ q ∈ op'.ptrs, q = 0 ∨ m1.live q := by
      intro op' hop q hq
      rcases hl op' (List.mem_cons_of_mem _ hop) q hq with h | h
      · exact Or.inl h
      · exact Or.inr ((hlive1 q).mpr h)
    obtain ⟨m2, e2, r⟩ := ih m1 hs1
      (by
        intro c p hc
        rw [hk1] at hc
        rw [hp1]
        exact f1 c p hc)
      (by
        intro c hc
        rw [hp1] at hc ⊢
        rw [hk1]
        exact f2 c hc)
      (by rw [hk1]; exact f3) hl1 (hd.2 m1 e1)
    refine ⟨m2, ?_, r⟩
    simp only [run_ops, e1]
    exact e2

/-- C33, as stated, fails: from the fresh nodes of `scene_two_columns`, after
`lumi_view_add_child(1, 3)` and `lumi_view_add_child(2, 3)` the text 3 is in
the child list of the column 1 while its parent back-reference is 2; and
after `lumi_view_add_child(1, 3)` twice and `lumi_view_remove_child(1, 3)`
the text 3 is still in the child list of 1 while it has no parent
back-reference. -/
theorem parent_agrees_counterexample :
    (∀ p, scene_two_columns.count p = 0) ∧ (∀ p, scene_two_columns.parent_of p = 0) ∧
    (∃ m, run_ops scene_two_columns [TreeOp.add_child 1 3, TreeOp.add_child 2 3] = Res.ok m ∧
      3 ∈ m.kids 1 ∧ m.parent_of 3 = 2 ∧ ¬ parent_agrees m) ∧
    (∃ m, run_ops scene_two_columns
        [TreeOp.add_child 1 3, TreeOp.add_child 1 3, TreeOp.remove_child 1 3] = Res.ok m ∧
      3 ∈ m.kids 1 ∧ m.parent_of 3 = 0 ∧ ¬ parent_agrees m) :=
  ⟨scene_two_columns_count, scene_two_columns_parent,
    ⟨_, rfl, by decide, by decide,
      fun h => absurd ((h.1 3 1 (by decide)).mpr (by decide)) (by decide)⟩,
    ⟨_, rfl, by decide, by decide,
      fun h => absurd ((h.2 3).mp (by decide) 1) (fun hn => hn (by decide))⟩⟩

/-- C33, amended: from freshly created nodes (no node has children or a
parent back-reference) and for every sequence of `lumi_view_add_child` /
`lumi_view_remove_child` calls on null or live handles in which every
`lumi_view_add_child` is given a child that is in no child list at the
moment of the call, the calls return and the parent back-reference agrees
with attachment: a node `c` has the back-reference `p` exactly when `c`
occurs in the child list of `p`, and no back-reference exactly when it
occurs in no child list. -/
theorem detached_adds_keep_parent_agreement (m : Mem) (ops : List TreeOp)
    (hfresh : ∀ p, m.count p = 0) (hpar : ∀ p, m.parent_of p = 0)
    (hl : ∀ op ∈ ops, ∀ q ∈ op.ptrs, q = 0 ∨ m.live q)
    (hd : detached_adds m ops) :
    ∃ m', run_ops m ops = Res.ok m' ∧ parent_agrees m' := by
  have hk : ∀ p, m.kids p = [] := fun p => kids_of_count_zero m p (hfresh p)
  obtain ⟨m', hr, _, h1, h2, h3⟩ := parent_agrees_run ops m
    ⟨fun p => by rw [hk p]; exact List.nodup_nil,
      fun c p1 p2 e => by rw [hk p1] at e; cases e⟩
    (fun c p e => by rw [hk p] at e; cases e)
    (fun c e => absurd (hpar c) e) (hk 0) hl hd
  refine ⟨m', hr, ?_, ?_⟩
  · intro c p hp
    constructor
    · intro e
      have := h2 c (by rw [e]; exact hp)
      rw [e] at this
      exact this
    · exact h1 c p
  · intro c
    constructor
    · intro e p hc
      have := h1 c p hc
      rw [e] at this
      rw [← this, h3] at hc
      cases hc
    · intro hno
      by_contra hne
      exact hno _ (h2 c hne)

/-- C33, amended, on the explicit re-parenting `ops_reparent` of the text 3
from the column 1 to the column 2. -/
theorem detached_adds_keep_parent_agreement_witness :
    (∀ p, scene_two_columns.count p = 0) ∧ (∀ p, scene_two_columns.parent_of p = 0) ∧
    detached_adds scene_two_columns ops_reparent ∧
    ∃ m', run_ops scene_two_columns ops_reparent = Res.ok m' ∧ parent_agrees m' :=
  have hd : detached_adds scene_two_columns ops_reparent :=
    detached_adds_of_replay ops_reparent scene_two_columns (fun _ => [])
      (fun p => kids_of_count_zero _ p (scene_two_columns_count p)) (by decide)
      detached_replay_reparent
  ⟨scene_two_columns_count, scene_two_columns_parent, hd,
    detached_adds_keep_parent_agreement scene_two_columns ops_reparent
      scene_two_columns_count scene_two_columns_parent (by decide) hd⟩

/-! ## Tree shape -/

theorem reach_rank {a : Ptr → List Ptr} {rank : Ptr → Nat}
    (hr : ∀ p c, c ∈ a p → rank c < rank p) {x y : Ptr} (h : reach a x y) :
    rank y ≤ rank x := by
  induction h with
  | refl => exact le_refl _
  | tail _ hbc ih => exact le_trans (le_of_lt (hr _ _ hbc)) ih

/-- With single parents, two ancestors of a node are comparable. -/
theorem reach_comparable {a : Ptr → List Ptr}
    (hs : ∀ c p1 p2, c ∈ a p1 → c ∈ a p2 → p1 = p2) {u x : Ptr} (h1 : reach a u x) :
    ∀ v, reach a v x → reach a u v ∨ reach a v u := by
  induction h1 with
  | refl => intro v h2; exact Or.inr h2
  | tail hub hbc ih =>
    intro v h2
    rcases Relation.ReflTransGen.cases_tail h2 with e | ⟨b', hvb, hb'c⟩
    · left
      rw [← e]
      exact Relation.ReflTransGen.tail hub hbc
    · have := hs _ _ _ hb'c hbc
      rw [this] at hvb
      exact ih v hvb

/-- With single parents, a strict ancestor of a child of `q` is `q` or an
ancestor of `q`. -/
theorem reach_parent {a : Ptr → List Ptr}
    (hs : ∀ c p1 p2, c ∈ a p1 → c ∈ a p2 → p1 = p2) {u c q : Ptr} (h : reach a u c)
    (hne : u ≠ c) (hc : c ∈ a q) : reach a u q := by
  rcases Relation.ReflTransGen.cases_tail h with e | ⟨b, hub, hbc⟩
  · exact absurd e.symm hne
  · have := hs _ _ _ hbc hc
    rw [this] at hub
    exact hub

/-- A set of nodes that is closed under the child lists contains everything
reachable from its members. -/
theorem not_reach_of_closed {a : Ptr → List Ptr} (S : List Ptr)
    (hS : ∀ x ∈ S, ∀ y ∈ a x, y ∈ S) {c p : Ptr} (hc : c ∈ S) (hp : p ∉ S) :
    ¬ reach a c p := by
  have key : ∀ y, reach a c y → y ∈ S := by
    intro y h
    induction h with
    | refl => exact hc
    | tail _ hbc ih => exact hS _ ih _ hbc
  exact fun h => hp (key p h)

/-- In a forest (single parents, children live and non-null, a rank that
decreases along the child lists) every live node is the root of a tree
without sharing whose nodes are its descendants. -/
theorem forest_subtree (m : Mem) (rank : Ptr → Nat) (hs : single_parent m)
    (hlive : ∀ p c, c ∈ m.kids p → c ≠ 0 ∧ m.live c)
    (hr : ∀ p c, c ∈ m.kids p → rank c < rank p) :
    ∀ (n : Nat) (q : Ptr), rank q < n → q ≠ 0 → m.live q →
      ∃ ns, Subtree m q ns ∧ ns.Nodup ∧ ∀ x ∈ ns, reach m.kids q x := by
  intro n
  induction n with
  | zero => intro q h; exact absurd h (Nat.not_lt_zero _)
  | succ n ih =>
    intro q hq hq0 hql
    obtain ⟨v, hv⟩ := (live_iff m q).mp hql
    have hkids : m.kids q = (List.range v.child_count).map v.children := kids_of_heap hv
    have hchild : ∀ i : Fin v.child_count, v.children i ∈ m.kids q := by
      intro i
      rw [hkids]
      exact List.mem_map.mpr ⟨i, List.mem_range.mpr i.2, rfl⟩
    have hsub : ∀ i : Fin v.child_count,
        ∃ ns, Subtree m (v.children i) ns ∧ ns.Nodup ∧
          ∀ x ∈ ns, reach m.kids (v.children i) x := by
      intro i
      have h1 := hlive q _ (hchild i)
      have h2 := hr q _ (hchild i)
      exact ih _ (by omega) h1.1 h1.2
    choose f hf using hsub
    have hinj : ∀ i j : Fin v.child_count, v.children i = v.children j → i = j := by
      intro i j e
      have hnd := hs.1 q
      rw [hkids] at hnd
      have := List.inj_on_of_nodup_map hnd (List.mem_range.mpr i.2) (List.mem_range.mpr j.2) e
      exact Fin.ext this
    have hnotq : ∀ i : Fin v.child_count, q ∉ f i := by
      intro i hqi
      have h1 := reach_rank hr ((hf i).2.2 q hqi)
      have h2 := hr q _ (hchild i)
      omega
    have hdisj : ∀ i j : Fin v.child_count, i ≠ j → ∀ x, x ∈ f i → x ∈ f j → False := by
      intro i j hij x hxi hxj
      have hne : v.children i ≠ v.children j := fun e => hij (hinj i j e)
      rcases reach_comparable hs.2 ((hf i).2.2 x hxi) _ ((hf j).2.2 x hxj) with h | h
      · have h1 := reach_rank hr (reach_parent hs.2 h hne (hchild j))
        have h2 := hr q _ (hchild i)
        omega
      · have h1 := reach_rank hr (reach_parent hs.2 h (Ne.symm hne) (hchild i))
        have h2 := hr q _ (hchild j)
        omega
    refine ⟨(List.ofFn f).flatten ++ [q], ?_, ?_, ?_⟩
    · refine Subtree.node q v (List.ofFn f) hq0 hv (List.length_ofFn f) ?_
      intro i hi
      have hi' : i < v.child_count := by simpa using hi
      have : (List.ofFn f).get ⟨i, hi⟩ = f ⟨i, hi'⟩ := by simp
      rw [this]
      exact (hf ⟨i, hi'⟩).1
    · rw [List.nodup_append]
      refine ⟨?_, List.nodup_singleton q, ?_⟩
      · rw [List.nodup_flatten]
        constructor
        · intro l hl
          obtain ⟨i, rfl⟩ := (List.mem_ofFn f l).mp hl
          exact (hf i).2.1
        · rw [List.pairwise_ofFn]
          intro i j hij x hxi hxj
          exact hdisj i j (ne_of_lt hij) x hxi hxj
      · intro x hx hxq
        rw [List.mem_singleton] at hxq
        rw [List.mem_flatten] at hx
        obtain ⟨l, hl, hxl⟩ := hx
        obtain ⟨i, rfl⟩ := (List.mem_ofFn f l).mp hl
        rw [hxq] at hxl
        exact hnotq i hxl
    · intro x hx
      rw [List.mem_append, List.mem_singleton, List.mem_flatten] at hx
      rcases hx with ⟨l, hl, hxl⟩ | rfl
      · obtain ⟨i, rfl⟩ := (List.mem_ofFn f l).mp hl
        exact Relation.ReflTransGen.head (hchild i) ((hf i).2.2 x hxl)
      · exact Relation.ReflTransGen.refl


/-- What one step of the replay adds to a child list. -/
theorem replay_step_mem (a : Ptr → List Ptr) (op : TreeOp) (x q : Ptr)
    (h : x ∈ replay_step a op q) :
    x ∈ a q ∨ (op = TreeOp.add_child q x ∧ q ≠ 0 ∧ x ≠ 0) := by
  cases op with
  | add_child p c =>
    simp only [replay_step] at h
    by_cases h0 : p = 0 ∨ c = 0 ∨ MAX_CHILDREN ≤ (a p).length
    · rw [if_pos h0] at h
      exact Or.inl h
    · rw [if_neg h0] at h
      by_cases hq : q = p
      · rw [hq, Function.update_same, List.mem_append, List.mem_singleton] at h
        rcases h with h | h
        · exact Or.inl (hq ▸ h)
        · right
          rw [hq, h]
          exact ⟨rfl, fun e => h0 (Or.inl e), fun e => h0 (Or.inr (Or.inl e))⟩
      · rw [Function.update_noteq hq] at h
        exact Or.inl h
  | remove_child p c =>
    simp only [replay_step] at h
    by_cases h0 : p = 0 ∨ c = 0
    · rw [if_pos h0] at h
      exact Or.inl h
    · rw [if_neg h0] at h
      by_cases hq : q = p
      · rw [hq, Function.update_same] at h
        exact Or.inl (hq ▸ List.mem_of_mem_erase h)
      · rw [Function.update_noteq hq] at h
        exact Or.inl h

/-- One step of the replay keeps a rank that decreases along the child
lists, when an added child is neither the parent nor one of its ancestors. -/
theorem replay_step_rank (a : Ptr → List Ptr) (op : TreeOp)
    (hr : ∃ rank : Ptr → Nat, ∀ p c, c ∈ a p → rank c < rank p)
    (hd : ∀ p c, op = TreeOp.add_child p c → ¬ reach a c p) :
    ∃ rank : Ptr → Nat, ∀ p c, c ∈ replay_step a op p → rank c < rank p := by
  classical
  obtain ⟨rank, hrank⟩ := hr
  cases op with
  | remove_child p c =>
    refine ⟨rank, ?_⟩
    intro q x hx
    rcases replay_step_mem a _ x q hx with h | ⟨h, _⟩
    · exact hrank q x h
    · cases h
  | add_child p c =>
    have hnr := hd p c rfl
    refine ⟨fun x => if reach a c x then rank x else rank x + (rank c + 1), ?_⟩
    intro q x hx
    rcases replay_step_mem a _ x q hx with h | ⟨h, _⟩
    · have hlt := hrank q x h
      by_cases hq : reach a c q
      · have hxr : reach a c x := Relation.ReflTransGen.tail hq h
        simp only [hq, hxr, if_true]
        exact hlt
      · simp only [hq, if_false]
        split <;> omega
    · cases h
      have hcc : reach a c c := Relation.ReflTransGen.refl
      simp only [hcc, hnr, if_true, if_false]
      omega

/-- Calls whose `lumi_view_add_child` are safe keep the forest. -/
theorem forest_run (ops : List TreeOp) : ∀ m : Mem,
    single_parent m → (∀ p c, c ∈ m.kids p → c ≠ 0 ∧ m.live c) →
    (∃ rank : Ptr → Nat, ∀ p c, c ∈ m.kids p → rank c < rank p) →
    (∀ op ∈ ops, ∀ q ∈ op.ptrs, q = 0 ∨ m.live q) → safe_adds m ops →
    ∃ m', run_ops m ops = Res.ok m' ∧ single_parent m' ∧
      (∀ p c, c ∈ m'.kids p → c ≠ 0 ∧ m'.live c) ∧
      (∃ rank : Ptr → Nat, ∀ p c, c ∈ m'.kids p → rank c < rank p) ∧
      ∀ q, m'.live q ↔ m.live q := by
  induction ops with
  | nil =>
    intro m hs h1 h2 _ _
    exact ⟨m, rfl, hs, h1, h2, fun _ => Iff.rfl⟩
  | cons op ops ih =>
    intro m hs h1 h2 hl hd
    obtain ⟨m1, e1, hk1, hlive1⟩ :=
      replay_step_sound m m.kids op (fun _ => rfl) (hl op (List.mem_cons_self _ _))
    have hkf : m1.kids = replay_step m.kids op := funext hk1
    obtain ⟨g1, g2⟩ := replay_step_single m.kids op hs.1 hs.2 (fun p c e => (hd.1 p c e).1)
    have hs1 : single_parent m1 := by
      rw [single_parent, hkf]
      exact ⟨g1, g2⟩
    have hr1 : ∃ rank : Ptr → Nat, ∀ p c, c ∈ m1.kids p → rank c < rank p := by
      rw [hkf]
      exact replay_step_rank m.kids op h2 (fun p c e => (hd.1 p c e).2)
    have hc1 : ∀ p c, c ∈ m1.kids p → c ≠ 0 ∧ m1.live c := by
      intro p c hc
      rw [hkf] at hc
      rcases replay_step_mem m.kids op c p hc with h | ⟨h, _, hc0⟩
      · exact ⟨(h1 p c h).1, (hlive1 c).mpr (h1 p c h).2⟩
      · refine ⟨hc0, (hlive1 c).mpr ?_⟩
        have := hl op (List.mem_cons_self _ _) c (by rw [h]; simp [TreeOp.ptrs])
        exact this.resolve_left hc0
    have hl1 : ∀ op' ∈ ops, ∀ q ∈ op'.ptrs, q = 0 ∨ m1.live q := by
      intro op' hop q hq
      rcases hl op' (List.mem_cons_of_mem _ hop) q hq with h | h
      · exact Or.inl h
      · exact Or.inr ((hlive1 q).mpr h)
    obtain ⟨m2, e2, r1, r2, r3, r4⟩ := ih m1 hs1 hc1 hr1 hl1 (hd.2 m1 e1)
    refine ⟨m2, ?_, r1, r2, r3, fun q => (r4 q).trans (hlive1 q)⟩
    simp only [run_ops, e1]
    exact e2

/-- The condition on the replay gives the condition on the memory. -/
theorem safe_adds_of_replay (ops : List TreeOp) : ∀ (m : Mem) (a : Ptr → List Ptr),
    (∀ p, m.kids p = a p) → (∀ op ∈ ops, ∀ q ∈ op.ptrs, q = 0 ∨ m.live q) →
    safe_replay a ops → safe_adds m ops := by
  induction ops with
  | nil =>
    intro m a _ _ _
    trivial
  | cons op ops ih =>
    intro m a hI hl hd
    have hf : m.kids = a := funext hI
    obtain ⟨m1, h1, hk1, hlive1⟩ :=
      replay_step_sound m a op hI (hl op (List.mem_cons_self _ _))
    constructor
    · intro p c he
      rw [hf]
      exact hd.1 p c he
    · intro m1' h1'
      rw [h1] at h1'
      cases h1'
      apply ih m1 (replay_step a op) hk1 _ hd.2
      intro op' hop q hq
      rcases hl op' (List.mem_cons_of_mem _ hop) q hq with h | h
      · exact Or.inl h
      · exact Or.inr ((hlive1 q).mpr h)

/-- A node whose first child cannot be destroyed cannot be destroyed. -/
theorem destroy_timeout_of_child (fuel : Nat) (m : Mem) (p : Ptr) (v : lumi_view)
    (hp : p ≠ 0) (hv : m.heap p = some v) (hc : 0 < v.child_count)
    (h : lumi_view_destroy fuel m (v.children 0) = Res.timeout) :
    lumi_view_destroy (fuel + 1) m p = Res.timeout := by
  rw [lumi_view_destroy, if_neg hp]
  cases fuel with
  | zero => rfl
  | succ k =>
    rw [destroy_children]
    simp only [hv, hc, if_true, h]

theorem scene_self_child_timeout : ∀ fuel, lumi_view_destroy fuel scene_self_child 1 =
    Res.timeout := by
  intro fuel
  induction fuel with
  | zero => rfl
  | succ k ih =>
    have hv : scene_self_child.heap 1 = some ((scene_self_child.heap 1).get (by decide)) :=
      (Option.some_get _).symm
    exact destroy_timeout_of_child k scene_self_child 1 _ (by decide) hv (by decide) ih

theorem scene_cycle_timeout : ∀ fuel, lumi_view_destroy fuel scene_cycle 1 = Res.timeout ∧
    lumi_view_destroy fuel scene_cycle 2 = Res.timeout := by
  intro fuel
  induction fuel with
  | zero => exact ⟨rfl, rfl⟩
  | succ k ih =>
    have h1 : scene_cycle.heap 1 = some ((scene_cycle.heap 1).get (by decide)) :=
      (Option.some_get _).symm
    have h2 : scene_cycle.heap 2 = some ((scene_cycle.heap 2).get (by decide)) :=
      (Option.some_get _).symm
    exact ⟨destroy_timeout_of_child k scene_cycle 1 _ (by decide) h1 (by decide) ih.2,
      destroy_timeout_of_child k scene_cycle 2 _ (by decide) h2 (by decide) ih.1⟩


/-- C31, as stated, fails. From the fresh nodes of `scene_fresh`,
`lumi_view_add_child(1, 1)` returns and makes the column 1 its own child; from
the fresh nodes of `scene_two_columns`, `lumi_view_add_child(1, 2)` followed
by `lumi_view_add_child(2, 1)` makes each column a child of the other. In
both states the recursion of `lumi_view_destroy(1)` does not end: it runs out
of every fuel. -/
theorem tree_shape_counterexample :
    (∀ p, scene_fresh.count p = 0) ∧
    run_ops scene_fresh [TreeOp.add_child 1 1] = Res.ok scene_self_child ∧
    1 ∈ scene_self_child.kids 1 ∧ scene_self_child.live 1 ∧
    ¬ tree_shaped scene_self_child ∧
    (∀ fuel, lumi_view_destroy fuel scene_self_child 1 = Res.timeout) ∧
    (∀ p, scene_two_columns.count p = 0) ∧
    run_ops scene_two_columns [TreeOp.add_child 1 2, TreeOp.add_child 2 1] =
      Res.ok scene_cycle ∧
    2 ∈ scene_cycle.kids 1 ∧ 1 ∈ scene_cycle.kids 2 ∧ scene_cycle.live 1 ∧
    ¬ tree_shaped scene_cycle ∧
    (∀ fuel, lumi_view_destroy fuel scene_cycle 1 = Res.timeout) :=
  ⟨scene_fresh_count, rfl, by decide, by decide,
    fun h => h.2 1 1 (by decide) Relation.ReflTransGen.refl,
    scene_self_child_timeout,
    scene_two_columns_count, rfl, by decide, by decide, by decide,
    fun h => h.2 1 2 (by decide)
      (Relation.ReflTransGen.single (show (1 : Ptr) ∈ scene_cycle.kids 2 by decide)),
    fun fuel => (scene_cycle_timeout fuel).1⟩

/-- C31, amended: from freshly created nodes (no node has children) and for
every sequence of `lumi_view_add_child` / `lumi_view_remove_child` calls on
null or live handles in which every `lumi_view_add_child(p, c)` is given a
child `c` that, at the moment of the call, is in no child list and is neither
`p` nor an ancestor of `p`, the calls return and the child relation is
strictly tree-shaped: no node is in two child lists or twice in one, no node
is its own child or descendant, and every live node is the root of a finite
tree without sharing, so that `lumi_view_destroy` of it returns with any fuel
above the size of the tree. -/
theorem safe_adds_keep_tree_shape (m : Mem) (ops : List TreeOp)
    (hfresh : ∀ p, m.count p = 0)
    (hl : ∀ op ∈ ops, ∀ q ∈ op.ptrs, q = 0 ∨ m.live q)
    (hs : safe_adds m ops) :
    ∃ m', run_ops m ops = Res.ok m' ∧ tree_shaped m' ∧
      ∀ q, q ≠ 0 → m'.live q → ∃ ns, Subtree m' q ns ∧ ns.Nodup ∧
        ∀ fuel, ns.length < fuel →
          lumi_view_destroy fuel m' q = Res.ok (m'.free_all ns) := by
  have hk : ∀ p, m.kids p = [] := fun p => kids_of_count_zero m p (hfresh p)
  obtain ⟨m', hr, h1, h2, ⟨rank, h3⟩, _⟩ := forest_run ops m
    ⟨fun p => by rw [hk p]; exact List.nodup_nil,
      fun c p1 p2 e => by rw [hk p1] at e; cases e⟩
    (fun p c e => by rw [hk p] at e; cases e)
    ⟨fun _ => 0, fun p c e => by rw [hk p] at e; cases e⟩ hl hs
  refine ⟨m', hr, ⟨h1, ?_⟩, ?_⟩
  · intro q c hc hreach
    have := reach_rank h3 hreach
    have := h3 q c hc
    omega
  · intro q hq hlq
    obtain ⟨ns, ht, hnd, _⟩ := forest_subtree m' rank h1 h2 h3 (rank q + 1) q (by omega) hq hlq
    exact ⟨ns, ht, hnd, fun fuel hf => destroy_tree fuel m' q ns ht hnd hf⟩

theorem safe_replay_nested : safe_replay (fun _ => []) ops_nested := by
  have e1 : replay_step (fun _ => []) (TreeOp.add_child 2 3) =
      fun q => if q = 2 then [3] else [] := by
    funext q
    simp [replay_step, MAX_CHILDREN, Function.update]
  have e2 : replay_step (fun q => if q = 2 then [3] else []) (TreeOp.add_child 1 2) =
      fun q => if q = 1 then [2] else if q = 2 then [3] else [] := by
    funext q
    simp [replay_step, MAX_CHILDREN, Function.update]
  simp only [ops_nested, safe_replay, e1, e2]
  refine ⟨?_, ?_, ?_, trivial⟩
  · intro p c h
    cases h
    refine ⟨fun q => by simp, ?_⟩
    exact not_reach_of_closed [3] (by simp) (by simp) (by simp)
  · intro p c h
    cases h
    refine ⟨fun q => by split <;> simp, ?_⟩
    exact not_reach_of_closed [2, 3] (by decide) (by simp) (by simp)
  · intro p c h
    cases h
    refine ⟨fun q => by split <;> [simp; (split <;> simp)], ?_⟩
    exact not_reach_of_closed [4] (by decide) (by simp) (by simp)

/-- C31, amended, on the nested construction `ops_nested`: the column 1 ends
with the column 2 (holding the text 3) and the text 4 as children. -/
theorem safe_adds_keep_tree_shape_witness :
    (∀ p, scene_two_columns.count p = 0) ∧ safe_adds scene_two_columns ops_nested ∧
    (Res.value Mem.empty (run_ops scene_two_columns ops_nested)).kids 1 = [2, 4] ∧
    (Res.value Mem.empty (run_ops scene_two_columns ops_nested)).kids 2 = [3] ∧
    ∃ m', run_ops scene_two_columns ops_nested = Res.ok m' ∧ tree_shaped m' ∧
      ∀ q, q ≠ 0 → m'.live q → ∃ ns, Subtree m' q ns ∧ ns.Nodup ∧
        ∀ fuel, ns.length < fuel →
          lumi_view_destroy fuel m' q = Res.ok (m'.free_all ns) :=
  have hd : safe_adds scene_two_columns ops_nested :=
    safe_adds_of_replay ops_nested scene_two_columns (fun _ => [])
      (fun p => kids_of_count_zero _ p (scene_two_columns_count p)) (by decide)
      safe_replay_nested
  ⟨scene_two_columns_count, hd, by decide, by decide,
    safe_adds_keep_tree_shape scene_two_columns ops_nested scene_two_columns_count
      (by decide) hd⟩

end LumiSDK
